import Mathlib

/-!
# trexec: the exec/exit accounting engine

A shallow embedding of `procevents.go` and of the parsing helpers of `utils.go`.

* Package-level variables become the fields of `State`.
* A `*procInfo` is an address into `State.heap` (records are allocated at the end of the
  heap and are never freed, so a record removed from `procInfos` stays reachable through
  the `ppi` links that point to it, as in Go).
* A `*cmdInfo` is always the record stored in `cmdInfos` under its own command name, so the
  pointer is modelled by that name.
* Go strings and byte slices are lists of bytes.
* Counters that only ever grow by one (`ec`, `subec`, `nbExecEv`, `vanishedCount`,
  `removedCount`, histogram buckets) are unbounded naturals; time stamps and accumulated
  durations are `uint64` values with explicit reduction modulo `2^64`.
* Run-time panics, and loops that need not terminate, are made explicit with `Except Fault`
  and a step budget.
* A report (`statsExec`, `statsSub`) is the list of the commands of the rows it prints, in
  order; the order in which Go ranges over the map `cmdInfos` is the order of the
  association list, and the results on reports hold for every such order.
-/

namespace Trexec

/-- A Go `string` or `[]byte`. -/
abbrev Bytes := List Nat

/-- The bytes of a string literal. -/
def bytes (s : String) : Bytes := s.toList.map Char.toNat

/-! ## Go maps as association lists -/

/-- Lookup `m[k]`: the first binding of `k`. -/
def mapGet {κ ν : Type} [DecidableEq κ] : List (κ × ν) → κ → Option ν
  | [], _ => none
  | (k', v) :: t, k => if k' = k then some v else mapGet t k

/-- Assignment `m[k] = v`: replaces the binding of `k`, or adds one. -/
def mapSet {κ ν : Type} [DecidableEq κ] : List (κ × ν) → κ → ν → List (κ × ν)
  | [], k, v => [(k, v)]
  | (k', v') :: t, k, v => if k' = k then (k, v) :: t else (k', v') :: mapSet t k v

/-- Removal `delete(m, k)`. -/
def mapDelete {κ ν : Type} [DecidableEq κ] (m : List (κ × ν)) (k : κ) : List (κ × ν) :=
  m.filter (fun e => decide (e.1 ≠ k))

/-- In-place update through a pointer stored in the map: `f` is applied to the record bound
to `k`. -/
def mapModify {κ ν : Type} [DecidableEq κ] : List (κ × ν) → κ → (ν → ν) → List (κ × ν)
  | [], _, _ => []
  | (k', v) :: t, k, f => if k' = k then (k', f v) :: t else (k', v) :: mapModify t k f

/-- Sum of a numeric field over the records of a map. -/
def mapSum {κ ν : Type} (g : ν → Nat) (m : List (κ × ν)) : Nat := (m.map (fun e => g e.2)).sum

/-! ## Data model (`procevents.go`, lines 27-63) -/

/-- Go `type cmdInfo struct`. -/
structure cmdInfo where
  cmd : Bytes
  subec : Nat
  subet : Nat
  spid : Int
  ec : Nat
  et : Nat
  tsub : Nat
deriving DecidableEq, Repr

/-- Go `type procInfo struct`; `ppi` is an address in the heap, `ci` the name of the command
record. -/
structure procInfo where
  pid : Int
  ppid : Int
  ppi : Option Nat
  ci : Bytes
  st : Nat
deriving DecidableEq, Repr

instance : Inhabited procInfo := ⟨⟨0, 0, none, [], 0⟩⟩

/-- The package-level variables of `procevents.go`, and the heap of `procInfo` records. -/
structure State where
  vanishedCount : Nat
  removedCount : Nat
  start : Nat
  ehist : List Nat
  nbforkev : Nat
  nbExecEv : Nat
  nbExitEv : Nat
  cmdInfos : List (Bytes × cmdInfo)
  procInfos : List (Int × Nat)
  heap : List procInfo
deriving DecidableEq, Repr

/-- The variables as initialised at program start, at time `t0`. -/
def State.boot (t0 : Nat) : State :=
  { vanishedCount := 0, removedCount := 0, start := t0, ehist := List.replicate 32 0,
    nbforkev := 0, nbExecEv := 0, nbExitEv := 0, cmdInfos := [], procInfos := [], heap := [] }

/-- Dereference of a `*procInfo`. -/
def State.deref (s : State) (a : Nat) : procInfo := s.heap.getD a default

/-- What stops a handler: a Go run-time panic, or the model running out of loop steps. -/
inductive Fault where
  | indexOutOfRange
  | sliceOutOfRange
  | nilDereference
  | outOfFuel
deriving DecidableEq, Repr

/-- The `/proc` file system during one event: for each pid what `fastRead` returns for
`/proc/<pid>/stat`, `none` for an error, else the bytes read. -/
abbrev ProcFS := Int → Option Bytes

/-- The modulus `2^64` of `uint64` arithmetic. -/
def two64 : Nat := 18446744073709551616

/-- Two's-complement reduction of an integer to `int64`. -/
def wrap64 (x : Int) : Int := (x + 9223372036854775808) % 18446744073709551616 - 9223372036854775808

/-! ## `utils.go` -/

/-- The loop `for ; i < sl; i++ { if s[i] == delim { break } }` over the remaining bytes
`s[i:]`: how far `i` advances. -/
def untilDelim (delim : Nat) : Bytes → Nat
  | [] => 0
  | b :: t => if b = delim then 0 else untilDelim delim t + 1

/-- Go `fastParseUntil`: the bytes from `i` to the first `delim` and the index of that
`delim`; with no `delim` the last byte is dropped, and the slice `s[si:i-1]` panics if it
is empty-handed (`si = i`). -/
def fastParseUntil (s : Bytes) (i : Nat) (delim : Nat) : Except Fault (Bytes × Nat) :=
  let j := i + untilDelim delim (s.drop i)
  if j < s.length then .ok ((s.drop i).take (j - i), j)
  else if i < j then .ok ((s.drop i).take (j - 1 - i), j)
  else .error Fault.sliceOutOfRange

/-- The loop of `fastParseInt` over the remaining bytes: the accumulated `int64` and the
number of digits consumed. -/
def parseDigits : Bytes → Int → Int × Nat
  | [], res => (res, 0)
  | b :: t, res =>
    if b < 48 ∨ 57 < b then (res, 0)
    else
      let r := parseDigits t (wrap64 (10 * res + ((b - 48 : Nat) : Int)))
      (r.1, r.2 + 1)

/-- Go `fastParseInt`. -/
def fastParseInt (s : Bytes) (i : Nat) : Int × Nat :=
  let r := parseDigits (s.drop i) 0
  (r.1, i + r.2)

/-! ## `procevents.go` -/

/-- The field loop of `getProcessStat`, entered with loop variable `i`, field number `f` and
the command found so far. Field 3 returns, so four iterations are the most there are. -/
def statLoop (s : Bytes) : Nat → Nat → Nat → Bytes → Except Fault (Bytes × Int)
  | 0, _, _, _ => .error Fault.outOfFuel
  | n + 1, i, f, cmd =>
    if i < s.length then
      if f = 1 then
        match fastParseUntil s (i + 1) 41 with
        | .error e => .error e
        | .ok (c, j) => statLoop s n (j + 1) (f + 1) c
      else if f = 3 then
        .ok (cmd, (fastParseInt s i).1)
      else
        statLoop s n (i + 1 + untilDelim 32 (s.drop (i + 1)) + 1) (f + 1) cmd
    else .ok ([], -1)

/-- Go `getProcessStat`: the command and parent pid of `pid`, or `("", -1)`; a failed or
empty read counts one in `vanishedCount`. -/
def getProcessStat (fs : ProcFS) (pid : Int) (s : State) : Except Fault ((Bytes × Int) × State) :=
  match fs pid with
  | none => .ok (([], -1), { s with vanishedCount := s.vanishedCount + 1 })
  | some b =>
    if b.length = 0 then .ok (([], -1), { s with vanishedCount := s.vanishedCount + 1 })
    else
      match statLoop b 4 0 0 [] with
      | .error e => .error e
      | .ok r => .ok (r, s)

/-- Go `cleanProcInfos`; `alive pid` is whether signal 0 can be sent to `pid`. -/
def cleanProcInfos (alive : Int → Bool) (s : State) : State :=
  s.procInfos.foldl
    (fun st e =>
      if alive e.1 then st
      else { st with procInfos := mapDelete st.procInfos e.1, removedCount := st.removedCount + 1 })
    s

/-- Lines 326-338 of `makeProcInfo`: count the command (a known one gets `ec++`, a new one
starts at `ec: 1`), allocate the `procInfo` and bind it to `pid` in `procInfos`. -/
def recordProc (pid : Int) (cmd : Bytes) (ppid : Int) (s : State) : State :=
  { s with
    cmdInfos :=
      match mapGet s.cmdInfos cmd with
      | some _ => mapModify s.cmdInfos cmd (fun ci => { ci with ec := ci.ec + 1 })
      | none =>
        mapSet s.cmdInfos cmd
          { cmd := cmd, subec := 0, subet := 0, spid := 0, ec := 1, et := 0, tsub := 0 }
    heap := s.heap ++ [{ pid := pid, ppid := ppid, ppi := none, ci := cmd, st := 0 }]
    procInfos := mapSet s.procInfos pid s.heap.length }

/-- Go `makeProcInfo`: the address of the new record, or `none` for `nil`. -/
def makeProcInfo (fs : ProcFS) (pid : Int) (vanished : Bool) (s : State) :
    Except Fault (Option Nat × State) :=
  match getProcessStat fs pid s with
  | .error e => .error e
  | .ok ((cmd, ppid), s1) =>
    if cmd = [] ∧ vanished = false then .ok (none, s1)
    else .ok (some s1.heap.length, recordProc pid cmd ppid s1)

/-- The guarded update of `goProcEventExec`, lines 379-387: `ci := ppi.ci` and, unless
`ci.spid == spid`, `ci.subec++; ci.spid = spid`. -/
def attributeExec (spid : Int) (ppi : Nat) (s : State) : State :=
  { s with
    cmdInfos := mapModify s.cmdInfos (s.deref ppi).ci
      (fun ci => if ci.spid ≠ spid then { ci with subec := ci.subec + 1, spid := spid } else ci) }

/-- Assignment `pi.ppi = ppi`. -/
def setPpi (pi ppi : Nat) (s : State) : State :=
  { s with heap := s.heap.modify (fun r => { r with ppi := some ppi }) pi }

/-- Assignment `pi.st = st`. -/
def setSt (pi st : Nat) (s : State) : State :=
  { s with heap := s.heap.modify (fun r => { r with st := st }) pi }

/-- The ancestor climb of `goProcEventExec`, the `for` loop of lines 355-390, entered with
the loop variables `pi` and `pid`. -/
def climb (fs : ProcFS) (spid : Int) : Nat → Nat → Int → State → Except Fault State
  | 0, _, _, _ => .error Fault.outOfFuel
  | fuel + 1, pi, pid, s =>
    if pid ≤ 1 then .ok s
    else
      match (s.deref pi).ppi with
      | some ppi =>
        let s2 := attributeExec spid ppi s
        climb fs spid fuel ppi (s2.deref ppi).pid s2
      | none =>
        match mapGet s.procInfos (s.deref pi).ppid with
        | some ppi =>
          let s2 := attributeExec spid ppi (setPpi pi ppi s)
          climb fs spid fuel ppi (s2.deref ppi).pid s2
        | none =>
          match makeProcInfo fs (s.deref pi).ppid false s with
          | .error e => .error e
          | .ok (none, s1) => .ok s1
          | .ok (some ppi, s1) =>
            let s2 := attributeExec spid ppi (setPpi pi ppi s1)
            climb fs spid fuel ppi (s2.deref ppi).pid s2

/-- Lines 344-346 of `goProcEventExec`: `nbforkev = uint64(nf)`, `nbExecEv++`,
`nbExitEv = uint64(ne)`. -/
def countExec (nf ne : Nat) (s : State) : State :=
  { s with nbforkev := nf % two64, nbExecEv := s.nbExecEv + 1, nbExitEv := ne % two64 }

/-- Go `goProcEventExec`. -/
def goProcEventExec (fuel : Nat) (fs : ProcFS) (cpid : Int) (cts nf ne : Nat) (s : State) :
    Except Fault State :=
  match makeProcInfo fs cpid true (countExec nf ne s) with
  | .error e => .error e
  | .ok (none, _) => .error Fault.nilDereference
  | .ok (some pi, s1) => climb fs cpid fuel pi cpid (setSt pi (cts % two64) s1)

/-- The state of `goProcEventExec` when the climb starts, the stat file of the process
having given `cmd` and `ppid`. -/
def execStart (pid : Int) (cmd : Bytes) (ppid : Int) (cts nf ne : Nat) (s : State) : State :=
  setSt s.heap.length (cts % two64) (recordProc pid cmd ppid (countExec nf ne s))

/-- The parent walk of `goProcEventExit`, the `for` loop of lines 411-416. -/
def walkExit (spid : Int) (et : Nat) : Nat → Option Nat → State → Except Fault State
  | _, none, s => .ok s
  | 0, some _, _ => .error Fault.outOfFuel
  | fuel + 1, some pi, s =>
    let s1 := { s with
      cmdInfos := mapModify s.cmdInfos (s.deref pi).ci
        (fun ci => if ci.spid ≠ spid then { ci with subet := (ci.subet + et) % two64, spid := spid }
          else ci) }
    walkExit spid et fuel (s1.deref pi).ppi s1

/-- Go `goProcEventExit`; `log10i et` stands for `int(math.Log10(float64(et)))`. -/
def goProcEventExit (log10i : Nat → Int) (fuel : Nat) (cpid : Int) (cts : Nat) (s : State) :
    Except Fault State :=
  let dt := cts % two64
  match mapGet s.procInfos cpid with
  | some pi =>
    let s1 := { s with procInfos := mapDelete s.procInfos cpid }
    if (s1.deref pi).st ≠ 0 then
      let et := (dt + two64 - (s1.deref pi).st) % two64
      let s2 := { s1 with
        cmdInfos := mapModify s1.cmdInfos (s1.deref pi).ci
          (fun ci => { ci with et := (ci.et + et) % two64 }) }
      let i := log10i et
      if 0 ≤ i ∧ i < 32 then
        let s3 := { s2 with ehist := s2.ehist.modify (fun n => n + 1) i.toNat }
        match walkExit cpid et fuel (some pi) s3 with
        | .error e => .error e
        | .ok s4 => .ok { s4 with removedCount := s4.removedCount + 1 }
      else .error Fault.indexOutOfRange
    else .ok { s1 with removedCount := s1.removedCount + 1 }
  | none => .ok { s with removedCount := s.removedCount + 1 }

/-- Go `clearCounters`, called at time `now`. -/
def clearCounters (now : Nat) (s : State) : State :=
  { s with
    procInfos := []
    cmdInfos := []
    ehist := List.replicate 32 0
    nbforkev := 0
    nbExecEv := 0
    nbExitEv := 0
    start := now }

/-! ## Reports (`statsExec`, `statsSub`) -/

/-- Go `scCount`. -/
def scCount : Nat := 0

/-- Go `scTime`. -/
def scTime : Nat := 1

/-- The `switch sortCriteria` of `statsExec`: `ui = ci.ec` or `ui = ci.et`, and `ui` keeps its
zero value for any other criterion. -/
def execKey (sortCriteria : Nat) (ci : cmdInfo) : Nat :=
  if sortCriteria = scCount then ci.ec else if sortCriteria = scTime then ci.et else 0

/-- The `switch sortCriteria` of `statsSub`: `ui = ci.subec` or `ui = ci.subet`. -/
def subKey (sortCriteria : Nat) (ci : cmdInfo) : Nat :=
  if sortCriteria = scCount then ci.subec else if sortCriteria = scTime then ci.subet else 0

/-- The guard of `statsSub`, line 153: commands without sub processes, the empty name,
`init` and `systemd` are skipped. -/
def subSkip (ci : cmdInfo) : Bool :=
  decide (ci.subec = 0 ∨ ci.cmd = [] ∨ ci.cmd = bytes "init" ∨ ci.cmd = bytes "systemd")

/-- The statement `if ui != 0 { n[ui] = append(n[ui], ci) }`. -/
def groupAdd (ui : Nat) (ci : cmdInfo) (n : List (Nat × List cmdInfo)) : List (Nat × List cmdInfo) :=
  if ui ≠ 0 then mapSet n ui ((mapGet n ui).getD [] ++ [ci]) else n

/-- The first loop of `statsExec` and `statsSub`, `for _, ci := range cmdInfos`: the map `n`
from each non-zero key to the commands that have it; the commands `skip` holds for are
passed over. The order of the list is the order of the map iteration. -/
def groupByKey (key : cmdInfo → Nat) (skip : cmdInfo → Bool) (cmdInfos : List (Bytes × cmdInfo)) :
    List (Nat × List cmdInfo) :=
  cmdInfos.foldl (fun n e => if skip e.2 then n else groupAdd (key e.2) e.2 n) []

/-- The keys of `n` in decreasing order: `for k := range n { a = append(a, k) }` followed by
`sort.Sort(sort.Reverse(a))`. The keys of a map are distinct, so the sorted slice does not
depend on the sorting algorithm. -/
def sortedKeys (n : List (Nat × List cmdInfo)) : List Nat :=
  (n.map Prod.fst).insertionSort (fun x y => x ≥ y)

/-- The inner loop `for _, ci := range n[k]` of the printing loops, entered with the row
counter `i`: the commands of the rows printed, the counter afterwards, and whether the
function has returned (`i++; if i > top { return }`). -/
def printGroup (top : Int) : List cmdInfo → Int → List cmdInfo × Int × Bool
  | [], i => ([], i, false)
  | ci :: t, i =>
    if i + 1 > top then ([ci], i + 1, true)
    else
      let r := printGroup top t (i + 1)
      (ci :: r.1, r.2.1, r.2.2)

/-- The outer loop `for _, k := range a` of the printing loops: the commands of the rows
printed, in order. -/
def printKeys (top : Int) (n : List (Nat × List cmdInfo)) : List Nat → Int → List cmdInfo
  | [], _ => []
  | k :: ks, i =>
    let r := printGroup top ((mapGet n k).getD []) i
    if r.2.2 then r.1 else r.1 ++ printKeys top n ks r.2.1

/-- Go `statsExec`, as the commands of the rows it prints, in order; `sortCriteria` and `top`
are the package variables set from the options `-s` and `-t`. The text of a row (shares and
rates, computed in floating point) is left out. -/
def statsExec (sortCriteria : Nat) (top : Int) (s : State) : List cmdInfo :=
  let n := groupByKey (execKey sortCriteria) (fun _ => false) s.cmdInfos
  printKeys top n (sortedKeys n) 0

/-- Go `statsSub`, as the commands of the rows it prints, in order. -/
def statsSub (sortCriteria : Nat) (top : Int) (s : State) : List cmdInfo :=
  let n := groupByKey (subKey sortCriteria) subSkip s.cmdInfos
  printKeys top n (sortedKeys n) 0

/-- What the grouping loop keeps true of the map `n` after the commands `L` have been
entered: its keys are distinct, the commands of a group have the key of the group, and the
groups together hold exactly the commands entered. -/
def Grouped (key : cmdInfo → Nat) (n : List (Nat × List cmdInfo)) (L : List cmdInfo) : Prop :=
  (n.map Prod.fst).Nodup ∧ (∀ e ∈ n, ∀ ci ∈ e.2, key ci = e.1) ∧ (n.flatMap Prod.snd).Perm L

/-- The commands a report can show: those `skip` does not hold for, with a non-zero key. -/
def eligible (key : cmdInfo → Nat) (skip : cmdInfo → Bool) (cmdInfos : List (Bytes × cmdInfo)) :
    List cmdInfo :=
  (cmdInfos.map Prod.snd).filter (fun ci => !skip ci && decide (key ci ≠ 0))

/-! ## Event streams -/

/-- What the engine is driven by: the two netlink callbacks and the periodic sweep. -/
inductive Event where
  | exec (fs : ProcFS) (pid : Int) (cts nf ne : Nat)
  | exit (pid : Int) (cts : Nat)
  | sweep (alive : Int → Bool)

/-- One event handled. -/
def step (log10i : Nat → Int) (fuel : Nat) (e : Event) (s : State) : Except Fault State :=
  match e with
  | .exec fs pid cts nf ne => goProcEventExec fuel fs pid cts nf ne s
  | .exit pid cts => goProcEventExit log10i fuel pid cts s
  | .sweep alive => .ok (cleanProcInfos alive s)

/-- A stream of events handled in order; a fault ends the run. -/
def run (log10i : Nat → Int) (fuel : Nat) : List Event → State → Except Fault State
  | [], s => .ok s
  | e :: es, s =>
    match step log10i fuel e s with
    | .error f => .error f
    | .ok s1 => run log10i fuel es s1

/-- The state a run ends in; the boot state stands in for a run that faults. -/
def stateOf (r : Except Fault State) : State :=
  match r with
  | .ok s => s
  | .error _ => State.boot 0

/-- The bucket index `int(math.Log10(float64(et)))` when the logarithm is computed exactly:
one less than the number of decimal digits of `et`. For `et = 0` the logarithm is `-Inf`,
whose conversion to `int` gives the most negative `int64` (on amd64 and arm64). The handlers
take the bucket function as a parameter; this one serves to run examples. -/
def floorLog10 (et : Nat) : Int :=
  if et = 0 then -9223372036854775808 else ((Nat.toDigits 10 et).length : Int) - 1

/-! ## Observations -/

/-- The `ec` of command `c`, 0 when there is no record. -/
def ecOf (s : State) (c : Bytes) : Nat := ((mapGet s.cmdInfos c).map (fun ci => ci.ec)).getD 0

/-- The `et` of command `c`. -/
def etOf (s : State) (c : Bytes) : Nat := ((mapGet s.cmdInfos c).map (fun ci => ci.et)).getD 0

/-- The `subec` of command `c`. -/
def subecOf (s : State) (c : Bytes) : Nat :=
  ((mapGet s.cmdInfos c).map (fun ci => ci.subec)).getD 0

/-- The `subet` of command `c`. -/
def subetOf (s : State) (c : Bytes) : Nat :=
  ((mapGet s.cmdInfos c).map (fun ci => ci.subet)).getD 0

/-- The `spid` of command `c`; a record is created with `spid` 0. -/
def spidOf (s : State) (c : Bytes) : Int :=
  ((mapGet s.cmdInfos c).map (fun ci => ci.spid)).getD 0

/-- Sum of `ec` over all command records. -/
def sumEc (s : State) : Nat := mapSum (fun ci => ci.ec) s.cmdInfos

/-- Sum of the histogram buckets. -/
def sumHist (s : State) : Nat := s.ehist.sum

/-- Every pointer held by the state points to an allocated record: the addresses bound in
`procInfos`, the parent links, and the command names held by records. -/
def State.wf (s : State) : Prop :=
  (∀ e ∈ s.procInfos, e.2 < s.heap.length) ∧
  (∀ r ∈ s.heap, ∀ b ∈ r.ppi, b < s.heap.length) ∧
  (∀ r ∈ s.heap, (mapGet s.cmdInfos r.ci).isSome = true)

instance (s : State) : Decidable s.wf := by
  unfold State.wf
  infer_instance

/-- The proper ancestors of the record at `a`, as the climb of `goProcEventExec` resolves
them: along the parent links, ending at a record of pid at most 1 or without parent link;
at most `n` of them. -/
def ancestors (s : State) : Nat → Nat → List Nat
  | 0, _ => []
  | n + 1, a =>
    if (s.deref a).pid ≤ 1 then []
    else
      match (s.deref a).ppi with
      | none => []
      | some b => b :: ancestors s n b

/-- The commands of the proper ancestors of the record at `a`. -/
def chainCmds (s : State) (n a : Nat) : List Bytes :=
  (ancestors s n a).map (fun b => (s.deref b).ci)

/-- State `x` keeps the records of `s`: each is still there with its pid, parent pid and
command, and a parent link that was set in `s` is the same in `x`. -/
def Keeps (s x : State) : Prop :=
  s.heap.length ≤ x.heap.length ∧
  ∀ a, a < s.heap.length →
    (x.deref a).pid = (s.deref a).pid ∧ (x.deref a).ppid = (s.deref a).ppid ∧
    (x.deref a).ci = (s.deref a).ci ∧ ∀ b, (s.deref a).ppi = some b → (x.deref a).ppi = some b

/-- The parent pids that `/proc` reports descend along `rank`: a process of pid above 1 whose
stat file gives a parent pid above 1 ranks above that parent. -/
def Ranked (rank : Int → Nat) (fs : ProcFS) : Prop :=
  ∀ pid b cmd ppid, fs pid = some b → statLoop b 4 0 0 [] = .ok (cmd, ppid) →
    1 < pid → 1 < ppid → rank ppid < rank pid

/-- The records of the state descend along `rank`: the parent pid of a record ranks below its
pid (both above 1), a parent link leads to a record of the parent pid, and a pid is bound to
a record of that pid. -/
def State.ranked (rank : Int → Nat) (s : State) : Prop :=
  (∀ a, 1 < (s.deref a).pid → 1 < (s.deref a).ppid →
    rank (s.deref a).ppid < rank (s.deref a).pid) ∧
  (∀ a b, (s.deref a).ppi = some b → (s.deref b).pid = (s.deref a).ppid) ∧
  (∀ e ∈ s.procInfos, (s.deref e.2).pid = e.1)

/-- The `/proc` of an exec event descends along `rank`; nothing is asked of other events. -/
def Event.ranked (rank : Int → Nat) : Event → Prop
  | .exec fs _ _ _ _ => Ranked rank fs
  | .exit _ _ => True
  | .sweep _ => True

/-- The state of `goProcEventExit` at line 410, when the parent walk starts: the record at
`a` is unbound from `pid`, its command has been charged `et`, bucket `i` has been counted. -/
def settled (pid : Int) (a et i : Nat) (s : State) : State :=
  { s with
    procInfos := mapDelete s.procInfos pid
    cmdInfos := mapModify s.cmdInfos (s.deref a).ci (fun ci => { ci with et := (ci.et + et) % two64 })
    ehist := s.ehist.modify (fun n => n + 1) i }

/-- Whether the parent links followed from `p` end (reach `nil`) within `n` records. -/
def endsWithin (s : State) : Nat → Option Nat → Bool
  | _, none => true
  | 0, some _ => false
  | n + 1, some a => endsWithin s n (s.deref a).ppi

/-- The records the parent walk of `goProcEventExit` visits from `p`: the record itself and
then the records along the parent links; at most `n` of them. -/
def lineage (s : State) : Nat → Option Nat → List Nat
  | _, none => []
  | 0, some _ => []
  | n + 1, some a => a :: lineage s n (s.deref a).ppi

/-- The parent links followed from the record at `a` end: the record is on no cycle and
leads to none. -/
def Ends (s : State) (a : Nat) : Prop := ∃ n, endsWithin s n (some a) = true

/-- The record reached from `p` after `k` parent links, if there is one. -/
def follow (s : State) : Nat → Option Nat → Option Nat
  | 0, p => p
  | _ + 1, none => none
  | k + 1, some a => follow s k (s.deref a).ppi

/-- Records of pid at most 1 have no parent link: the climb stops at them before it
resolves their parent. -/
def State.rootsUnlinked (s : State) : Prop :=
  ∀ a, (s.deref a).pid ≤ 1 → (s.deref a).ppi = none

/-- Whether `pid` has a process record with `st != 0`. -/
def exitMatched (s : State) (pid : Int) : Bool :=
  match mapGet s.procInfos pid with
  | some a => decide ((s.deref a).st ≠ 0)
  | none => false

/-- Number of exit events of a run that found a process record with `st != 0` for their pid. -/
def matchedExits (log10i : Nat → Int) (fuel : Nat) : List Event → State → Nat
  | [], _ => 0
  | e :: es, s =>
    (match e with
      | .exit pid _ => if exitMatched s pid then 1 else 0
      | _ => 0) +
    (match step log10i fuel e s with
      | .error _ => 0
      | .ok s1 => matchedExits log10i fuel es s1)

/-- The value of a string of decimal digits read after the value `r`. -/
def decVal (l : Bytes) (r : Nat) : Nat := l.foldl (fun a x => 10 * a + (x - 48)) r

/-- The decimal digits of `n`, as printed by the kernel. -/
def decimal (n : Nat) : Bytes := bytes (toString n)

/-- A stat line `<pid> (<comm>) <state> <ppid> <rest>` with its fields separated by one
space. -/
def statLine (pidf comm state : Bytes) (ppid : Nat) (rest : Bytes) : Bytes :=
  pidf ++ [32, 40] ++ comm ++ [41, 32] ++ state ++ [32] ++ decimal ppid ++ [32] ++ rest

/-- Number of ancestor records synthesised from `/proc` by the climbs of a run: for each
exec event, the records allocated beyond the one of the exec'ing process itself. -/
def synthesised (log10i : Nat → Int) (fuel : Nat) : List Event → State → Nat
  | [], _ => 0
  | e :: es, s =>
    match step log10i fuel e s with
    | .error _ => 0
    | .ok s1 =>
      (match e with
        | .exec _ _ _ _ _ => s1.heap.length - s.heap.length - 1
        | _ => 0) + synthesised log10i fuel es s1

deriving instance DecidableEq for Except

/-! ## Sample inputs -/

/-- A `/proc` with `init` (pid 1), a `bash` (pid 200, child of 1) and an `awk` (pid 201, child
of 200); every other pid is unreadable. -/
def procBashAwk : ProcFS := fun pid =>
  if pid = 1 then some (bytes "1 (init) S 0 1 1 0 -1")
  else if pid = 200 then some (bytes "200 (bash) S 1 200 200 0 -1")
  else if pid = 201 then some (bytes "201 (awk) S 200 201 200 0 -1")
  else none

/-- A `/proc` with the chain `init <- bash <- find <- bash <- grep` (pids 1, 10, 11, 12, 13). -/
def procReuse : ProcFS := fun pid =>
  if pid = 1 then some (bytes "1 (init) S 0 1 1 0 -1")
  else if pid = 10 then some (bytes "10 (bash) S 1 10 10 0 -1")
  else if pid = 11 then some (bytes "11 (find) S 10 11 10 0 -1")
  else if pid = 12 then some (bytes "12 (bash) S 11 12 10 0 -1")
  else if pid = 13 then some (bytes "13 (grep) S 12 13 10 0 -1")
  else none

/-- The state after `exec(200)` and `exec(201)` under `procBashAwk`, from boot. -/
def afterTwoExecs : State :=
  stateOf (run floorLog10 4
    [Event.exec procBashAwk 200 1000 1 0, Event.exec procBashAwk 201 2000 2 0] (State.boot 0))

/-- Scenario 2 of the specification: `exec(200)` bash, `exec(201)` awk, `exit(201)` after
5e8 ns, `exit(200)` after 1e9 ns. -/
def twoLevelChain : List Event :=
  [Event.exec procBashAwk 200 1000 1 0, Event.exec procBashAwk 201 2000 2 0,
   Event.exit 201 500002000, Event.exit 200 1000001000]

/-- A `/proc` with a single readable process, a `sleep` of pid 400 whose parent 399 is gone. -/
def procOrphan : ProcFS := fun pid =>
  if pid = 400 then some (bytes "400 (sleep) S 399 400 400 0 -1") else none

/-- A `/proc` that reports pid 5 as its own parent. -/
def procSelfParent : ProcFS := fun pid =>
  if pid = 5 then some (bytes "5 (loop) S 5 5 5 0 -1") else none

/-- A `/proc` in which pid 7 is a child of pid 8, and pid 8 cannot be read (it has exited). -/
def procSevenOfEight : ProcFS := fun pid =>
  if pid = 7 then some (bytes "7 (sh) S 8 7 7 0 -1") else none

/-- A later `/proc`: pid 8 has been reused and is now a child of pid 7. -/
def procEightOfSeven : ProcFS := fun pid =>
  if pid = 7 then some (bytes "7 (sh) S 8 7 7 0 -1")
  else if pid = 8 then some (bytes "8 (ls) S 7 8 7 0 -1")
  else none

/-- The state after `exec(7)` under `procSevenOfEight`, from boot. -/
def afterExecSeven : State :=
  stateOf (goProcEventExec 4 procSevenOfEight 7 1000 1 0 (State.boot 0))

/-- The two execs of scenario 2 followed by the exit of the parent, pid 200, while its child
of pid 201 is still there. -/
def parentFirst : List Event :=
  [Event.exec procBashAwk 200 1000 1 0, Event.exec procBashAwk 201 2000 2 0,
   Event.exit 200 1000001000]

/-- The state after the events of `parentFirst`, from boot. -/
def afterParentExit : State := stateOf (run floorLog10 4 parentFirst (State.boot 0))

/-- The state after the execs of pids 10, 11, 12 and 13 under `procReuse`, from boot. -/
def afterFourExecs : State :=
  stateOf (run floorLog10 8
    [Event.exec procReuse 10 1000 1 0, Event.exec procReuse 11 2000 2 0,
     Event.exec procReuse 12 3000 3 0, Event.exec procReuse 13 4000 4 0] (State.boot 0))

/-- The state after `exec(400)` of the `sleep` of `procOrphan` at time 1000, from boot. -/
def afterExecOrphan : State :=
  stateOf (goProcEventExec 4 procOrphan 400 1000 1 0 (State.boot 0))

/-- The process of pid 201 execs twice: `exec(200)`, `exec(201)` and `exec(201)` again, under
`procBashAwk`. -/
def secondExecOfPid : List Event :=
  [Event.exec procBashAwk 200 1000 1 0, Event.exec procBashAwk 201 2000 2 0,
   Event.exec procBashAwk 201 3000 3 0]

/-- A `/proc` in which every read fails. -/
def procVanished : ProcFS := fun _ => none

/-! ## Lemmas on maps -/

theorem mapGet_mapModify {κ ν : Type} [DecidableEq κ] (m : List (κ × ν)) (k k' : κ) (f : ν → ν) :
    mapGet (mapModify m k f) k' = if k = k' then (mapGet m k').map f else mapGet m k' := by
  induction m with
  | nil => simp [mapModify, mapGet]
  | cons e t ih =>
    obtain ⟨a, v⟩ := e
    by_cases h1 : a = k
    · by_cases h2 : k = k'
      · subst h1; subst h2; simp [mapModify, mapGet]
      · subst h1; simp [mapModify, mapGet, h2]
    · by_cases h2 : a = k'
      · have h3 : ¬ k = k' := fun h => h1 (h2.trans h.symm)
        have h4 : ¬ k' = k := fun h => h3 h.symm
        simp [mapModify, mapGet, h2, h3, h4]
      · simp [mapModify, mapGet, h1, h2, ih]

theorem mapGet_mapSet {κ ν : Type} [DecidableEq κ] (m : List (κ × ν)) (k k' : κ) (v : ν) :
    mapGet (mapSet m k v) k' = if k = k' then some v else mapGet m k' := by
  induction m with
  | nil => simp [mapSet, mapGet]
  | cons e t ih =>
    obtain ⟨a, w⟩ := e
    by_cases h1 : a = k
    · by_cases h2 : k = k'
      · subst h1; subst h2; simp [mapSet, mapGet]
      · subst h1; simp [mapSet, mapGet, h2]
    · by_cases h2 : a = k'
      · have h3 : ¬ k = k' := fun h => h1 (h2.trans h.symm)
        have h4 : ¬ k' = k := fun h => h3 h.symm
        simp [mapSet, mapGet, h2, h3, h4]
      · simp [mapSet, mapGet, h1, h2, ih]

theorem mapGet_mapDelete {κ ν : Type} [DecidableEq κ] (m : List (κ × ν)) (k k' : κ) :
    mapGet (mapDelete m k) k' = if k = k' then none else mapGet m k' := by
  induction m with
  | nil => simp [mapDelete, mapGet]
  | cons e t ih =>
    obtain ⟨a, w⟩ := e
    simp only [mapDelete] at ih
    by_cases h1 : a = k
    · by_cases h2 : k = k'
      · subst h1; subst h2; simpa [mapDelete, mapGet] using ih
      · subst h1; simpa [mapDelete, mapGet, h2] using ih
    · by_cases h2 : a = k'
      · have h3 : ¬ k = k' := fun h => h1 (h2.trans h.symm)
        have h4 : ¬ k' = k := fun h => h3 h.symm
        simp [mapDelete, mapGet, h2, h3, h4, List.filter_cons]
      · simpa [mapDelete, mapGet, h1, h2, List.filter_cons] using ih


theorem mapSum_mapModify_same {κ ν : Type} [DecidableEq κ] (g : ν → Nat) (m : List (κ × ν)) (k : κ)
    (f : ν → ν) (h : ∀ v, g (f v) = g v) : mapSum g (mapModify m k f) = mapSum g m := by
  induction m with
  | nil => simp [mapModify]
  | cons e t ih =>
    obtain ⟨a, v⟩ := e
    by_cases h1 : a = k
    · simp [mapModify, mapSum, h1, h]
    · simp only [mapSum] at ih
      simp [mapModify, mapSum, h1, ih]

theorem mapSum_mapModify_succ {κ ν : Type} [DecidableEq κ] (g : ν → Nat) (m : List (κ × ν)) (k : κ)
    (f : ν → ν) (h : ∀ v, g (f v) = g v + 1) (v0 : ν) (hk : mapGet m k = some v0) :
    mapSum g (mapModify m k f) = mapSum g m + 1 := by
  induction m with
  | nil => simp [mapGet] at hk
  | cons e t ih =>
    obtain ⟨a, v⟩ := e
    by_cases h1 : a = k
    · simp [mapModify, mapSum, h1, h]; omega
    · simp only [mapGet, h1, if_false] at hk
      have := ih hk
      simp only [mapSum] at this
      simp [mapModify, mapSum, h1, this]; omega

theorem mapSum_mapSet_new {κ ν : Type} [DecidableEq κ] (g : ν → Nat) (m : List (κ × ν)) (k : κ)
    (v : ν) (hk : mapGet m k = none) : mapSum g (mapSet m k v) = mapSum g m + g v := by
  induction m with
  | nil => simp [mapSet, mapSum]
  | cons e t ih =>
    obtain ⟨a, w⟩ := e
    by_cases h1 : a = k
    · simp [mapGet, h1] at hk
    · simp only [mapGet, h1, if_false] at hk
      have := ih hk
      simp only [mapSum] at this
      simp [mapSet, mapSum, h1, this]; omega

theorem getProcessStat_inv {fs : ProcFS} {pid : Int} {s s1 : State} {r : Bytes × Int}
    (h : getProcessStat fs pid s = .ok (r, s1)) :
    s1 = { s with vanishedCount := s1.vanishedCount } ∧
      s.vanishedCount ≤ s1.vanishedCount ∧ s1.vanishedCount ≤ s.vanishedCount + 1 := by
  unfold getProcessStat at h
  split at h
  · cases h; simp
  · split at h
    · cases h; simp
    · split at h
      · cases h
      · cases h; simp

theorem makeProcInfo_inv {fs : ProcFS} {pid : Int} {v : Bool} {s s1 : State} {r : Option Nat}
    (h : makeProcInfo fs pid v s = .ok (r, s1)) :
    ∃ cmd ppid sv, getProcessStat fs pid s = .ok ((cmd, ppid), sv) ∧
      ((r = none ∧ s1 = sv ∧ cmd = [] ∧ v = false) ∨
       (r = some s.heap.length ∧ s1 = recordProc pid cmd ppid sv ∧ (cmd ≠ [] ∨ v = true))) := by
  unfold makeProcInfo at h
  split at h
  · cases h
  · rename_i cmd ppid sv hg
    refine ⟨cmd, ppid, sv, hg, ?_⟩
    have hheap : sv.heap = s.heap := by
      have := (getProcessStat_inv hg).1
      rw [this]
    split at h
    · rename_i hc
      cases h
      exact Or.inl ⟨rfl, rfl, hc.1, hc.2⟩
    · rename_i hc
      cases h
      refine Or.inr ⟨by rw [hheap], rfl, ?_⟩
      by_cases hcmd : cmd = []
      · right
        cases v
        · exact absurd ⟨hcmd, rfl⟩ hc
        · rfl
      · exact Or.inl hcmd

theorem sumEc_recordProc (pid : Int) (cmd : Bytes) (ppid : Int) (s : State) :
    sumEc (recordProc pid cmd ppid s) = sumEc s + 1 := by
  unfold sumEc recordProc
  cases hk : mapGet s.cmdInfos cmd with
  | none => simp only []; rw [mapSum_mapSet_new _ _ _ _ hk]
  | some v0 =>
    simp only []
    exact mapSum_mapModify_succ _ _ _ _ (fun _ => rfl) v0 hk

/-- Anything kept by the three state updates of the climb is kept by the climb. -/
theorem climb_preserves (P : State → Prop)
    (hattr : ∀ spid ppi s, P s → P (attributeExec spid ppi s))
    (hppi : ∀ pi ppi s, P s → P (setPpi pi ppi s))
    (hmk : ∀ fs pid s r s1, P s → mapGet s.procInfos pid = none →
      makeProcInfo fs pid false s = .ok (r, s1) → P s1)
    (fs : ProcFS) (spid : Int) :
    ∀ (fuel pi : Nat) (pid : Int) (s s' : State), P s → climb fs spid fuel pi pid s = .ok s' → P s' := by
  intro fuel
  induction fuel with
  | zero => intro pi pid s s' _ h; simp [climb] at h
  | succ n ih =>
    intro pi pid s s' hP h
    unfold climb at h
    split at h
    · cases h; exact hP
    · split at h
      · exact ih _ _ _ _ (hattr _ _ _ hP) h
      · split at h
        · exact ih _ _ _ _ (hattr _ _ _ (hppi _ _ _ hP)) h
        · split at h
          · cases h
          · cases h; exact hmk _ _ _ _ _ hP (by assumption) (by assumption)
          · exact ih _ _ _ _ (hattr _ _ _ (hppi _ _ _ (hmk _ _ _ _ _ hP (by assumption) (by assumption)))) h

theorem walkExit_preserves (P : State → Prop) (spid : Int) (et : Nat)
    (hstep : ∀ pi s, P s → P { s with
      cmdInfos := mapModify s.cmdInfos (s.deref pi).ci
        (fun ci => if ci.spid ≠ spid then { ci with subet := (ci.subet + et) % two64, spid := spid }
          else ci) }) :
    ∀ (fuel : Nat) (p : Option Nat) (s s' : State), P s → walkExit spid et fuel p s = .ok s' → P s' := by
  intro fuel
  induction fuel with
  | zero =>
    intro p s s' hP h
    cases p with
    | none => simp [walkExit] at h; cases h; exact hP
    | some a => simp [walkExit] at h
  | succ n ih =>
    intro p s s' hP h
    cases p with
    | none => simp [walkExit] at h; cases h; exact hP
    | some a =>
      simp only [walkExit] at h
      exact ih _ _ _ (hstep a s hP) h

theorem climb_count (fs : ProcFS) (spid : Int) (fuel pi : Nat) (pid : Int) (s s' : State)
    (h : climb fs spid fuel pi pid s = .ok s') :
    sumEc s' + s.heap.length = sumEc s + s'.heap.length ∧ s.heap.length ≤ s'.heap.length ∧
      s'.nbExecEv = s.nbExecEv := by
  refine climb_preserves
    (fun x => sumEc x + s.heap.length = sumEc s + x.heap.length ∧ s.heap.length ≤ x.heap.length ∧
      x.nbExecEv = s.nbExecEv) ?_ ?_ ?_ fs spid fuel pi pid s s' ⟨rfl, le_refl _, rfl⟩ h
  · intro spid ppi x hx
    have : sumEc (attributeExec spid ppi x) = sumEc x := by
      unfold sumEc attributeExec
      apply mapSum_mapModify_same
      intro v; split <;> rfl
    rw [this]; exact hx
  · intro pi ppi x hx
    have h1 : sumEc (setPpi pi ppi x) = sumEc x := rfl
    have h2 : (setPpi pi ppi x).heap.length = x.heap.length := by simp [setPpi]
    rw [h1, h2]; exact hx
  · intro fs pid x r x1 hx _ hm
    obtain ⟨cmd, ppid, sv, hg, hcase⟩ := makeProcInfo_inv hm
    have hsv := (getProcessStat_inv hg).1
    have e1 : sumEc sv = sumEc x := by rw [hsv]; rfl
    have e2 : sv.heap = x.heap := by rw [hsv]
    have e3 : sv.nbExecEv = x.nbExecEv := by rw [hsv]
    rcases hcase with ⟨_, rfl, _, _⟩ | ⟨_, rfl, _⟩
    · rw [e1, e2, e3]; exact hx
    · rw [sumEc_recordProc, e1]
      have : (recordProc pid cmd ppid sv).heap.length = x.heap.length + 1 := by
        simp [recordProc, e2]
      have e4 : (recordProc pid cmd ppid sv).nbExecEv = x.nbExecEv := e3
      rw [this, e4]
      omega

theorem exec_count (fuel : Nat) (fs : ProcFS) (pid : Int) (cts nf ne : Nat) (s s' : State)
    (h : goProcEventExec fuel fs pid cts nf ne s = .ok s') :
    sumEc s' + s.heap.length = sumEc s + s'.heap.length ∧ s.heap.length + 1 ≤ s'.heap.length ∧
      s'.nbExecEv = s.nbExecEv + 1 := by
  unfold goProcEventExec at h
  split at h
  · cases h
  · cases h
  · rename_i a s1 hm
    obtain ⟨cmd, ppid, sv, hg, hcase⟩ := makeProcInfo_inv hm
    have hsv := (getProcessStat_inv hg).1
    rcases hcase with ⟨h0, _⟩ | ⟨_, rfl, _⟩
    · cases h0
    · have hc := climb_count _ _ _ _ _ _ _ h
      have e1 : sumEc sv = sumEc s := by rw [hsv]; rfl
      have e2 : sv.heap = s.heap := by rw [hsv]; rfl
      have e3 : sv.nbExecEv = s.nbExecEv + 1 := by rw [hsv]; rfl
      have e4 : sumEc (setSt a (cts % two64) (recordProc pid cmd ppid sv)) = sumEc s + 1 := by
        have : sumEc (setSt a (cts % two64) (recordProc pid cmd ppid sv))
          = sumEc (recordProc pid cmd ppid sv) := rfl
        rw [this, sumEc_recordProc, e1]
      have e5 : (setSt a (cts % two64) (recordProc pid cmd ppid sv)).heap.length
          = s.heap.length + 1 := by
        simp [setSt, recordProc, e2]
      have e6 : (setSt a (cts % two64) (recordProc pid cmd ppid sv)).nbExecEv
          = s.nbExecEv + 1 := e3
      rw [e4, e5, e6] at hc
      omega

theorem exit_count (log10i : Nat → Int) (fuel : Nat) (pid : Int) (cts : Nat) (s s' : State)
    (h : goProcEventExit log10i fuel pid cts s = .ok s') :
    sumEc s' = sumEc s ∧ s'.heap = s.heap ∧ s'.nbExecEv = s.nbExecEv := by
  unfold goProcEventExit at h
  simp only [] at h
  split at h
  · split at h
    · split at h
      · split at h
        · cases h
        · rename_i pi _ _ s4 hw
          cases h
          have := walkExit_preserves
            (fun x => sumEc x = sumEc s ∧ x.heap = s.heap ∧ x.nbExecEv = s.nbExecEv) pid _ ?_ _ _ _ _ ?_ hw
          · exact this
          · intro a x hx
            refine ⟨?_, hx.2.1, hx.2.2⟩
            rw [← hx.1]
            unfold sumEc
            apply mapSum_mapModify_same
            intro v; split <;> rfl
          · refine ⟨?_, rfl, rfl⟩
            unfold sumEc
            apply mapSum_mapModify_same
            intro v; rfl
      · cases h
    · cases h; exact ⟨rfl, rfl, rfl⟩
  · cases h; exact ⟨rfl, rfl, rfl⟩

theorem cleanProcInfos_frame (alive : Int → Bool) (s : State) :
    (cleanProcInfos alive s).cmdInfos = s.cmdInfos ∧ (cleanProcInfos alive s).heap = s.heap ∧
      (cleanProcInfos alive s).nbExecEv = s.nbExecEv ∧ (cleanProcInfos alive s).ehist = s.ehist := by
  unfold cleanProcInfos
  generalize s.procInfos = l
  induction l generalizing s with
  | nil => simp
  | cons e t ih =>
    simp only [List.foldl_cons]
    split
    · exact ih s
    · have := ih { s with procInfos := mapDelete s.procInfos e.1, removedCount := s.removedCount + 1 }
      simpa using this

theorem run_count (log10i : Nat → Int) (fuel : Nat) (evs : List Event) :
    ∀ (s s' : State), run log10i fuel evs s = .ok s' →
      sumEc s' + s.nbExecEv = sumEc s + s'.nbExecEv + synthesised log10i fuel evs s := by
  induction evs with
  | nil => intro s s' h; simp [run] at h; cases h; simp [synthesised]
  | cons e es ih =>
    intro s s' h
    simp only [run] at h
    split at h
    · cases h
    · rename_i s1 hs
      have h2 := ih s1 s' h
      simp only [synthesised, hs]
      cases e with
      | exec fs pid cts nf ne =>
        have := exec_count _ _ _ _ _ _ _ _ hs
        simp only []
        omega
      | exit pid cts =>
        have := exit_count _ _ _ _ _ _ hs
        simp only []
        omega
      | sweep alive =>
        simp only [step] at hs
        cases hs
        have := cleanProcInfos_frame alive s
        have e1 : sumEc (cleanProcInfos alive s) = sumEc s := by unfold sumEc; rw [this.1]
        simp only []
        rw [e1, this.2.2.1] at h2
        omega

/-! ## Heap lemmas -/

theorem deref_lt {s : State} {a : Nat} (h : a < s.heap.length) : s.deref a = s.heap[a] := by
  unfold State.deref
  simp [List.getD, List.getElem?_eq_getElem h]

theorem deref_mem {s : State} {a : Nat} (h : a < s.heap.length) : s.deref a ∈ s.heap := by
  rw [deref_lt h]; exact List.getElem_mem h

theorem deref_setPpi (pi ppi : Nat) (s : State) (a : Nat) :
    (setPpi pi ppi s).deref a =
      if a = pi ∧ pi < s.heap.length then { s.deref a with ppi := some ppi } else s.deref a := by
  unfold setPpi State.deref
  simp only [List.getD, List.getElem?_modify]
  by_cases h1 : a = pi
  · subst h1
    by_cases h2 : a < s.heap.length
    · simp [h2, List.getElem?_eq_getElem h2]
    · have : s.heap[a]? = none := List.getElem?_eq_none (by omega)
      simp [h2, this]
  · have h1' : ¬ pi = a := fun h => h1 h.symm
    simp [h1, h1']

theorem deref_recordProc_lt (pid : Int) (cmd : Bytes) (ppid : Int) (s : State) (a : Nat)
    (h : a < s.heap.length) : (recordProc pid cmd ppid s).deref a = s.deref a := by
  unfold recordProc State.deref
  simp [List.getD, List.getElem?_append_left h]

theorem deref_recordProc_new (pid : Int) (cmd : Bytes) (ppid : Int) (s : State) :
    (recordProc pid cmd ppid s).deref s.heap.length =
      { pid := pid, ppid := ppid, ppi := none, ci := cmd, st := 0 } := by
  unfold recordProc State.deref
  simp [List.getD]

theorem Keeps.refl (s : State) : Keeps s s :=
  ⟨le_refl _, fun _ _ => ⟨rfl, rfl, rfl, fun _ h => h⟩⟩

theorem Keeps.trans {s x y : State} (h1 : Keeps s x) (h2 : Keeps x y) : Keeps s y := by
  refine ⟨le_trans h1.1 h2.1, fun a ha => ?_⟩
  obtain ⟨p1, p2, p3, p4⟩ := h1.2 a ha
  obtain ⟨q1, q2, q3, q4⟩ := h2.2 a (lt_of_lt_of_le ha h1.1)
  exact ⟨q1.trans p1, q2.trans p2, q3.trans p3, fun b hb => q4 b (p4 b hb)⟩

theorem Keeps.of_heap_eq {s x : State} (h : x.heap = s.heap) : Keeps s x := by
  refine ⟨by rw [h], fun a _ => ?_⟩
  have : x.deref a = s.deref a := by unfold State.deref; rw [h]
  rw [this]
  exact ⟨rfl, rfl, rfl, fun _ hb => hb⟩

theorem Keeps.setPpi {s : State} {pi : Nat} (ppi : Nat) (h : (s.deref pi).ppi = none) :
    Keeps s (setPpi pi ppi s) := by
  refine ⟨by simp [Trexec.setPpi], fun a _ => ?_⟩
  rw [deref_setPpi]
  split
  · rename_i hc
    obtain ⟨rfl, _⟩ := hc
    refine ⟨rfl, rfl, rfl, fun b hb => ?_⟩
    rw [h] at hb; cases hb
  · exact ⟨rfl, rfl, rfl, fun _ hb => hb⟩

theorem Keeps.recordProc (pid : Int) (cmd : Bytes) (ppid : Int) (s : State) :
    Keeps s (recordProc pid cmd ppid s) := by
  refine ⟨by simp [Trexec.recordProc], fun a ha => ?_⟩
  rw [deref_recordProc_lt _ _ _ _ _ ha]
  exact ⟨rfl, rfl, rfl, fun _ hb => hb⟩

/-! ## Well-formedness is kept -/

theorem mapGet_mem {κ ν : Type} [DecidableEq κ] {m : List (κ × ν)} {k : κ} {v : ν}
    (h : mapGet m k = some v) : (k, v) ∈ m := by
  induction m with
  | nil => simp [mapGet] at h
  | cons e t ih =>
    obtain ⟨a, w⟩ := e
    by_cases h1 : a = k
    · subst h1
      simp [mapGet] at h
      subst h
      exact List.mem_cons_self _ _
    · simp only [mapGet, h1, if_false] at h
      exact List.mem_cons_of_mem _ (ih h)

theorem mem_mapSet {κ ν : Type} [DecidableEq κ] {m : List (κ × ν)} {k : κ} {v : ν} {e : κ × ν}
    (h : e ∈ mapSet m k v) : e ∈ m ∨ e = (k, v) := by
  induction m with
  | nil => simp [mapSet] at h; exact Or.inr h
  | cons e0 t ih =>
    obtain ⟨a, w⟩ := e0
    by_cases h1 : a = k
    · simp only [mapSet, h1, if_true, List.mem_cons] at h
      rcases h with h | h
      · exact Or.inr h
      · exact Or.inl (List.mem_cons_of_mem _ h)
    · simp only [mapSet, h1, if_false, List.mem_cons] at h
      rcases h with h | h
      · exact Or.inl (by rw [h]; exact List.mem_cons_self _ _)
      · rcases ih h with h | h
        · exact Or.inl (List.mem_cons_of_mem _ h)
        · exact Or.inr h

theorem wf_of_same {s x : State} (hw : s.wf) (hh : x.heap = s.heap) (hp : x.procInfos = s.procInfos)
    (hc : ∀ c, (mapGet s.cmdInfos c).isSome = true → (mapGet x.cmdInfos c).isSome = true) : x.wf := by
  obtain ⟨w1, w2, w3⟩ := hw
  refine ⟨?_, ?_, ?_⟩
  · rw [hp, hh]; exact w1
  · rw [hh]; exact w2
  · rw [hh]; exact fun r hr => hc _ (w3 r hr)

theorem wf_attributeExec {s : State} (spid : Int) (ppi : Nat) (hw : s.wf) :
    (attributeExec spid ppi s).wf := by
  refine wf_of_same hw rfl rfl (fun c hc => ?_)
  simp only [attributeExec, mapGet_mapModify]
  split
  · simpa using hc
  · exact hc

theorem wf_setPpi {s : State} {pi ppi : Nat} (hw : s.wf) (hp : ppi < s.heap.length) :
    (setPpi pi ppi s).wf := by
  obtain ⟨w1, w2, w3⟩ := hw
  have hlen : (setPpi pi ppi s).heap.length = s.heap.length := by simp [setPpi]
  have hmem : ∀ r ∈ (setPpi pi ppi s).heap, r ∈ s.heap ∨ ∃ r0 ∈ s.heap, r = { r0 with ppi := some ppi } := by
    intro r hr
    obtain ⟨a, ha, rfl⟩ := List.getElem_of_mem hr
    rw [hlen] at ha
    have hd : (setPpi pi ppi s).deref a = (setPpi pi ppi s).heap[a] := deref_lt (by rw [hlen]; exact ha)
    rw [← hd, deref_setPpi]
    split
    · exact Or.inr ⟨s.deref a, deref_mem ha, rfl⟩
    · exact Or.inl (deref_mem ha)
  refine ⟨?_, ?_, ?_⟩
  · rw [hlen]; exact w1
  · intro r hr b hb
    rw [hlen]
    rcases hmem r hr with h | ⟨r0, _, rfl⟩
    · exact w2 r h b hb
    · simp at hb; omega
  · intro r hr
    rcases hmem r hr with h | ⟨r0, h0, rfl⟩
    · exact w3 r h
    · exact w3 r0 h0

theorem wf_recordProc {s : State} (pid : Int) (cmd : Bytes) (ppid : Int) (hw : s.wf) :
    (recordProc pid cmd ppid s).wf := by
  obtain ⟨w1, w2, w3⟩ := hw
  have hcmd : ∀ c, (mapGet s.cmdInfos c).isSome = true ∨ c = cmd →
      (mapGet (recordProc pid cmd ppid s).cmdInfos c).isSome = true := by
    intro c hc
    unfold recordProc
    simp only []
    cases hk : mapGet s.cmdInfos cmd with
    | none =>
      simp only [mapGet_mapSet]
      split
      · rfl
      · rcases hc with hc | hc
        · exact hc
        · exact absurd hc.symm (by assumption)
    | some v0 =>
      simp only [mapGet_mapModify]
      split
      · rename_i he; subst he; simp [hk]
      · rcases hc with hc | hc
        · exact hc
        · exact absurd hc.symm (by assumption)
  refine ⟨?_, ?_, ?_⟩
  · intro e he
    have hl : (recordProc pid cmd ppid s).heap.length = s.heap.length + 1 := by simp [recordProc]
    rw [hl]
    rcases mem_mapSet (show e ∈ mapSet s.procInfos pid s.heap.length from he) with h | h
    · exact Nat.lt_succ_of_lt (w1 e h)
    · rw [h]; exact Nat.lt_succ_self _
  · intro r hr b hb
    have hl : (recordProc pid cmd ppid s).heap.length = s.heap.length + 1 := by simp [recordProc]
    rw [hl]
    have : r ∈ s.heap ∨ r = { pid := pid, ppid := ppid, ppi := none, ci := cmd, st := 0 } := by
      simpa [recordProc] using hr
    rcases this with h | h
    · exact Nat.lt_succ_of_lt (w2 r h b hb)
    · rw [h] at hb; simp at hb
  · intro r hr
    have : r ∈ s.heap ∨ r = { pid := pid, ppid := ppid, ppi := none, ci := cmd, st := 0 } := by
      simpa [recordProc] using hr
    rcases this with h | h
    · exact hcmd _ (Or.inl (w3 r h))
    · rw [h]; exact hcmd _ (Or.inr rfl)

/-! ## The climb and the subtree counts -/

theorem subecOf_attributeExec (spid : Int) (ppi : Nat) (s : State) (c : Bytes)
    (hc : (mapGet s.cmdInfos (s.deref ppi).ci).isSome = true) :
    subecOf (attributeExec spid ppi s) c =
      subecOf s c + (if c = (s.deref ppi).ci ∧ spidOf s c ≠ spid then 1 else 0) := by
  unfold subecOf spidOf attributeExec
  simp only [mapGet_mapModify]
  by_cases h1 : (s.deref ppi).ci = c
  · subst h1
    obtain ⟨v, hv⟩ := Option.isSome_iff_exists.mp hc
    by_cases h2 : v.spid = spid
    · simp [hv, h2]
    · simp [hv, h2]
  · have h1' : ¬ c = (s.deref ppi).ci := fun h => h1 h.symm
    simp [h1, h1']

theorem spidOf_attributeExec (spid : Int) (ppi : Nat) (s : State) (c : Bytes)
    (hc : (mapGet s.cmdInfos (s.deref ppi).ci).isSome = true) :
    spidOf (attributeExec spid ppi s) c = if c = (s.deref ppi).ci then spid else spidOf s c := by
  unfold spidOf attributeExec
  simp only [mapGet_mapModify]
  by_cases h1 : (s.deref ppi).ci = c
  · subst h1
    obtain ⟨v, hv⟩ := Option.isSome_iff_exists.mp hc
    by_cases h2 : v.spid = spid
    · simp [hv, h2]
    · simp [hv, h2]
  · have h1' : ¬ c = (s.deref ppi).ci := fun h => h1 h.symm
    simp [h1, h1']

theorem subecOf_recordProc (pid : Int) (cmd : Bytes) (ppid : Int) (s : State) (c : Bytes) :
    subecOf (recordProc pid cmd ppid s) c = subecOf s c ∧
      spidOf (recordProc pid cmd ppid s) c = spidOf s c ∧
      subetOf (recordProc pid cmd ppid s) c = subetOf s c ∧
      etOf (recordProc pid cmd ppid s) c = etOf s c := by
  unfold subecOf spidOf subetOf etOf recordProc
  simp only []
  cases hk : mapGet s.cmdInfos cmd with
  | none =>
    simp only [mapGet_mapSet]
    by_cases h1 : cmd = c
    · subst h1; simp [hk]
    · simp [h1]
  | some v0 =>
    simp only [mapGet_mapModify]
    by_cases h1 : cmd = c
    · subst h1; simp [hk]
    · simp [h1]

theorem ancestors_succ_of_link {s : State} {n a b : Nat} (hp : ¬ (s.deref a).pid ≤ 1)
    (hl : (s.deref a).ppi = some b) : ancestors s (n + 1) a = b :: ancestors s n b := by
  simp [ancestors, hp, hl]

theorem climb_dedup (fs : ProcFS) (spid : Int) :
    ∀ (fuel pi : Nat) (s s' : State), s.wf → pi < s.heap.length →
      climb fs spid fuel pi (s.deref pi).pid s = .ok s' →
      s'.wf ∧ Keeps s s' ∧
        (∀ c, subecOf s' c =
          subecOf s c + (if c ∈ chainCmds s' fuel pi ∧ spidOf s c ≠ spid then 1 else 0)) ∧
        ∀ m, fuel ≤ m → ancestors s' m pi = ancestors s' fuel pi := by
  intro fuel
  induction fuel with
  | zero => intro pi s s' _ _ h; simp [climb] at h
  | succ n ih =>
    intro pi s s' hw hpi h
    rw [climb] at h
    by_cases hpid : (s.deref pi).pid ≤ 1
    · simp only [hpid, if_true] at h
      cases h
      refine ⟨hw, Keeps.refl _, fun c => ?_, fun m hm => ?_⟩
      · simp [chainCmds, ancestors, hpid]
      · obtain ⟨m', rfl⟩ : ∃ m', m = m' + 1 := ⟨m - 1, by omega⟩
        simp [ancestors, hpid]
    · simp only [hpid, if_false] at h
      have tail : ∀ (ppi : Nat) (s1 : State), s1.wf → Keeps s s1 → ppi < s1.heap.length →
          (s1.deref pi).ppi = some ppi →
          (∀ c, subecOf s1 c = subecOf s c ∧ spidOf s1 c = spidOf s c) →
          climb fs spid n ppi ((attributeExec spid ppi s1).deref ppi).pid (attributeExec spid ppi s1)
            = .ok s' →
          s'.wf ∧ Keeps s s' ∧
            (∀ c, subecOf s' c =
              subecOf s c + (if c ∈ chainCmds s' (n + 1) pi ∧ spidOf s c ≠ spid then 1 else 0)) ∧
            ∀ m, n + 1 ≤ m → ancestors s' m pi = ancestors s' (n + 1) pi := by
        intro ppi s1 hw1 hk1 hppi hlink hobs hcl
        have hw2 : (attributeExec spid ppi s1).wf := wf_attributeExec spid ppi hw1
        obtain ⟨hw', hk2, hsub, hfull⟩ := ih ppi (attributeExec spid ppi s1) s' hw2 hppi hcl
        have hk12 : Keeps s1 (attributeExec spid ppi s1) := Keeps.of_heap_eq rfl
        have hk1' : Keeps s1 s' := hk12.trans hk2
        have hk : Keeps s s' := hk1.trans hk1'
        have hpi1 : pi < s1.heap.length := lt_of_lt_of_le hpi hk1.1
        have e1 : (s'.deref pi).pid = (s.deref pi).pid := (hk.2 pi hpi).1
        have e2 : (s'.deref pi).ppi = some ppi := (hk1'.2 pi hpi1).2.2.2 ppi hlink
        have e3 : (s'.deref ppi).ci = (s1.deref ppi).ci := (hk1'.2 ppi hppi).2.2.1
        have hp' : ¬ (s'.deref pi).pid ≤ 1 := by rw [e1]; exact hpid
        refine ⟨hw', hk, fun c => ?_, fun m hm => ?_⟩
        swap
        · obtain ⟨m', rfl⟩ : ∃ m', m = m' + 1 := ⟨m - 1, by omega⟩
          rw [ancestors_succ_of_link hp' e2, ancestors_succ_of_link hp' e2, hfull m' (by omega)]
        have hchain : chainCmds s' (n + 1) pi = (s1.deref ppi).ci :: chainCmds s' n ppi := by
          simp [chainCmds, ancestors_succ_of_link hp' e2, e3]
        have hci : (mapGet s1.cmdInfos (s1.deref ppi).ci).isSome = true :=
          hw1.2.2 _ (deref_mem hppi)
        rw [hsub c, subecOf_attributeExec spid ppi s1 c hci, spidOf_attributeExec spid ppi s1 c hci,
          (hobs c).1, (hobs c).2, hchain]
        by_cases hc : c = (s1.deref ppi).ci
        · by_cases hs : spidOf s c = spid
          · simp [hc, hs]
          · simp [hc]
        · simp [hc, List.mem_cons]
      cases hq : (s.deref pi).ppi with
      | some ppi =>
        simp only [hq] at h
        exact tail ppi s hw (Keeps.refl _) (hw.2.1 _ (deref_mem hpi) ppi (by simp [hq])) hq
          (fun c => ⟨rfl, rfl⟩) h
      | none =>
        simp only [hq] at h
        cases hl : mapGet s.procInfos (s.deref pi).ppid with
        | some ppi =>
          simp only [hl] at h
          have hppi : ppi < s.heap.length := hw.1 _ (mapGet_mem hl)
          refine tail ppi (setPpi pi ppi s) (wf_setPpi hw hppi) (Keeps.setPpi ppi hq)
            (by simpa [setPpi] using hppi) ?_ (fun c => ⟨rfl, rfl⟩) h
          rw [deref_setPpi]; simp [hpi]
        | none =>
          simp only [hl] at h
          cases hm : makeProcInfo fs (s.deref pi).ppid false s with
          | error e => simp [hm] at h
          | ok p =>
            obtain ⟨r, s1⟩ := p
            obtain ⟨cmd, ppid, sv, hg, hcase⟩ := makeProcInfo_inv hm
            have hsv := (getProcessStat_inv hg).1
            have hsvw : sv.wf := wf_of_same hw (by rw [hsv]) (by rw [hsv]) (by rw [hsv]; exact fun _ h => h)
            have hsvk : Keeps s sv := Keeps.of_heap_eq (by rw [hsv])
            have hsvo : ∀ c, subecOf sv c = subecOf s c ∧ spidOf sv c = spidOf s c := by
              intro c; rw [hsv]; exact ⟨rfl, rfl⟩
            have hsvh : sv.heap = s.heap := by rw [hsv]
            rcases hcase with ⟨rfl, rfl, _, _⟩ | ⟨rfl, rfl, _⟩
            · simp only [hm] at h
              have hs' : s' = s1 := by cases h; rfl
              rw [hs']
              have e1 : (s1.deref pi).pid = (s.deref pi).pid := (hsvk.2 pi hpi).1
              have e2 : (s1.deref pi).ppi = none := by
                have : s1.deref pi = s.deref pi := by unfold State.deref; rw [hsvh]
                rw [this]; exact hq
              refine ⟨hsvw, hsvk, fun c => ?_, fun m hm => ?_⟩
              · have : chainCmds s1 (n + 1) pi = [] := by simp [chainCmds, ancestors, e1, hpid, e2]
                rw [this, (hsvo c).1]; simp
              · obtain ⟨m', rfl⟩ : ∃ m', m = m' + 1 := ⟨m - 1, by omega⟩
                simp [ancestors, e1, hpid, e2]
            · simp only [hm] at h
              have hrk : Keeps sv (recordProc (s.deref pi).ppid cmd ppid sv) := Keeps.recordProc _ _ _ _
              have hrw : (recordProc (s.deref pi).ppid cmd ppid sv).wf := wf_recordProc _ _ _ hsvw
              have hlen : (recordProc (s.deref pi).ppid cmd ppid sv).heap.length = s.heap.length + 1 := by
                simp [recordProc, hsvh]
              have hpi2 : pi < (recordProc (s.deref pi).ppid cmd ppid sv).heap.length := by
                rw [hlen]; omega
              have hnone : ((recordProc (s.deref pi).ppid cmd ppid sv).deref pi).ppi = none := by
                rw [deref_recordProc_lt _ _ _ _ _ (by rw [hsvh]; exact hpi)]
                have : sv.deref pi = s.deref pi := by unfold State.deref; rw [hsvh]
                rw [this]; exact hq
              refine tail s.heap.length (setPpi pi s.heap.length (recordProc (s.deref pi).ppid cmd ppid sv))
                (wf_setPpi hrw (by rw [hlen]; omega))
                ((hsvk.trans hrk).trans (Keeps.setPpi _ hnone))
                (by simp [setPpi, hlen]) ?_ ?_ h
              · rw [deref_setPpi]; simp [hpi2]
              · intro c
                have := subecOf_recordProc (s.deref pi).ppid cmd ppid sv c
                exact ⟨this.1.trans (hsvo c).1, this.2.1.trans (hsvo c).2⟩

theorem climb_binding (fs : ProcFS) (spid : Int) (fuel pi : Nat) (pid : Int) (s s' : State)
    (k : Int) (a : Nat) (hb : mapGet s.procInfos k = some a)
    (h : climb fs spid fuel pi pid s = .ok s') : mapGet s'.procInfos k = some a := by
  refine climb_preserves (fun x => mapGet x.procInfos k = some a) ?_ ?_ ?_ fs spid fuel pi pid s s' hb h
  · intro _ _ x hx; exact hx
  · intro _ _ x hx; exact hx
  · intro fs q x r x1 hx hq hm
    obtain ⟨cmd, ppid, sv, hg, hcase⟩ := makeProcInfo_inv hm
    have hsv := (getProcessStat_inv hg).1
    have e1 : sv.procInfos = x.procInfos := by rw [hsv]
    rcases hcase with ⟨_, rfl, _, _⟩ | ⟨_, rfl, _⟩
    · simp only [e1]; exact hx
    · have hne : ¬ q = k := by
        intro he; subst he; rw [hq] at hx; cases hx
      simp only [recordProc, mapGet_mapSet, e1, hne, if_false]
      exact hx

/-- What `goProcEventExec` does before the climb. -/
theorem exec_inv {fuel : Nat} {fs : ProcFS} {pid : Int} {cts nf ne : Nat} {s s' : State}
    (h : goProcEventExec fuel fs pid cts nf ne s = .ok s') :
    ∃ cmd ppid sv,
      getProcessStat fs pid (countExec nf ne s) = .ok ((cmd, ppid), sv) ∧
      climb fs pid fuel s.heap.length pid
        (setSt s.heap.length (cts % two64) (recordProc pid cmd ppid sv)) = .ok s' := by
  unfold goProcEventExec at h
  split at h
  · cases h
  · cases h
  · rename_i a s1 hm
    obtain ⟨cmd, ppid, sv, hg, hcase⟩ := makeProcInfo_inv hm
    refine ⟨cmd, ppid, sv, hg, ?_⟩
    rcases hcase with ⟨h0, _⟩ | ⟨h0, rfl, _⟩
    · cases h0
    · cases h0
      exact h

theorem deref_setSt (pi st : Nat) (s : State) (a : Nat) :
    (setSt pi st s).deref a =
      if a = pi ∧ pi < s.heap.length then { s.deref a with st := st } else s.deref a := by
  unfold setSt State.deref
  simp only [List.getD, List.getElem?_modify]
  by_cases h1 : a = pi
  · subst h1
    by_cases h2 : a < s.heap.length
    · simp [h2, List.getElem?_eq_getElem h2]
    · have : s.heap[a]? = none := List.getElem?_eq_none (by omega)
      simp [h2, this]
  · have h1' : ¬ pi = a := fun h => h1 h.symm
    simp [h1, h1']

theorem wf_setSt {s : State} (pi st : Nat) (hw : s.wf) : (setSt pi st s).wf := by
  obtain ⟨w1, w2, w3⟩ := hw
  have hlen : (setSt pi st s).heap.length = s.heap.length := by simp [setSt]
  have hmem : ∀ r ∈ (setSt pi st s).heap, r ∈ s.heap ∨ ∃ r0 ∈ s.heap, r = { r0 with st := st } := by
    intro r hr
    obtain ⟨a, ha, rfl⟩ := List.getElem_of_mem hr
    rw [hlen] at ha
    have hd : (setSt pi st s).deref a = (setSt pi st s).heap[a] := deref_lt (by rw [hlen]; exact ha)
    rw [← hd, deref_setSt]
    split
    · exact Or.inr ⟨s.deref a, deref_mem ha, rfl⟩
    · exact Or.inl (deref_mem ha)
  refine ⟨?_, ?_, ?_⟩
  · rw [hlen]; exact w1
  · intro r hr b hb
    rw [hlen]
    rcases hmem r hr with h | ⟨r0, h0, rfl⟩
    · exact w2 r h b hb
    · exact w2 r0 h0 b hb
  · intro r hr
    rcases hmem r hr with h | ⟨r0, h0, rfl⟩
    · exact w3 r h
    · exact w3 r0 h0

/-- The exec handler and the subtree counts: the record of `pid` is the one allocated by
the event, and a command gains one exactly if it is on the ancestor chain of that record
and was not already marked with `pid`. -/
theorem exec_dedup (fuel : Nat) (fs : ProcFS) (pid : Int) (cts nf ne : Nat) (s s' : State)
    (hw : s.wf) (h : goProcEventExec fuel fs pid cts nf ne s = .ok s') :
    mapGet s'.procInfos pid = some s.heap.length ∧ (s'.deref s.heap.length).pid = pid ∧
      (∀ c, subecOf s' c = subecOf s c +
        (if c ∈ chainCmds s' fuel s.heap.length ∧ spidOf s c ≠ pid then 1 else 0)) ∧
      ∀ m, fuel ≤ m → chainCmds s' m s.heap.length = chainCmds s' fuel s.heap.length := by
  obtain ⟨cmd, ppid, sv, hg, hcl⟩ := exec_inv h
  have hsv := (getProcessStat_inv hg).1
  have hsvh : sv.heap = s.heap := by rw [hsv]; rfl
  have hsvw : sv.wf :=
    wf_of_same hw (by rw [hsv]; rfl) (by rw [hsv]; rfl) (by rw [hsv]; exact fun _ h => h)
  have hsvo : ∀ c, subecOf sv c = subecOf s c ∧ spidOf sv c = spidOf s c := by
    intro c; rw [hsv]; exact ⟨rfl, rfl⟩
  have hrw : (setSt s.heap.length (cts % two64) (recordProc pid cmd ppid sv)).wf :=
    wf_setSt _ _ (wf_recordProc _ _ _ hsvw)
  have hlen : (setSt s.heap.length (cts % two64) (recordProc pid cmd ppid sv)).heap.length
      = s.heap.length + 1 := by simp [setSt, recordProc, hsvh]
  have hrec : (setSt s.heap.length (cts % two64) (recordProc pid cmd ppid sv)).deref s.heap.length
      = { pid := pid, ppid := ppid, ppi := none, ci := cmd, st := cts % two64 } := by
    rw [deref_setSt]
    have : (recordProc pid cmd ppid sv).heap.length = s.heap.length + 1 := by simp [recordProc, hsvh]
    rw [← hsvh, deref_recordProc_new]
    simp [recordProc]
  have hpid : ((setSt s.heap.length (cts % two64) (recordProc pid cmd ppid sv)).deref s.heap.length).pid
      = pid := by rw [hrec]
  have hbind : mapGet (setSt s.heap.length (cts % two64) (recordProc pid cmd ppid sv)).procInfos pid
      = some s.heap.length := by
    simp [setSt, recordProc, mapGet_mapSet, hsvh]
  refine ⟨climb_binding _ _ _ _ _ _ _ _ _ hbind hcl, ?_⟩
  have hcl' : climb fs pid fuel s.heap.length
      ((setSt s.heap.length (cts % two64) (recordProc pid cmd ppid sv)).deref s.heap.length).pid
      (setSt s.heap.length (cts % two64) (recordProc pid cmd ppid sv)) = .ok s' := by
    rw [hpid]; exact hcl
  obtain ⟨_, hk, hsub, hfull⟩ :=
    climb_dedup fs pid fuel s.heap.length _ s' hrw (by rw [hlen]; omega) hcl'
  refine ⟨((hk.2 s.heap.length (by rw [hlen]; omega)).1).trans hpid, fun c => ?_,
    fun m hm => by simp only [chainCmds, hfull m hm]⟩
  rw [hsub c]
  have e1 : subecOf (setSt s.heap.length (cts % two64) (recordProc pid cmd ppid sv)) c = subecOf s c :=
    (subecOf_recordProc pid cmd ppid sv c).1.trans (hsvo c).1
  have e2 : spidOf (setSt s.heap.length (cts % two64) (recordProc pid cmd ppid sv)) c = spidOf s c :=
    (subecOf_recordProc pid cmd ppid sv c).2.1.trans (hsvo c).2
  rw [e1, e2]

/-! ## The exit handler -/

theorem exit_inv {log10i : Nat → Int} {fuel : Nat} {pid : Int} {cts : Nat} {s s' : State}
    (h : goProcEventExit log10i fuel pid cts s = .ok s') :
    (mapGet s.procInfos pid = none ∧ s' = { s with removedCount := s.removedCount + 1 }) ∨
    (∃ a, mapGet s.procInfos pid = some a ∧ (s.deref a).st = 0 ∧
      s' = { s with procInfos := mapDelete s.procInfos pid, removedCount := s.removedCount + 1 }) ∨
    (∃ a s4, mapGet s.procInfos pid = some a ∧ (s.deref a).st ≠ 0 ∧
      0 ≤ log10i ((cts % two64 + two64 - (s.deref a).st) % two64) ∧
      log10i ((cts % two64 + two64 - (s.deref a).st) % two64) < 32 ∧
      walkExit pid ((cts % two64 + two64 - (s.deref a).st) % two64) fuel (some a)
        (settled pid a ((cts % two64 + two64 - (s.deref a).st) % two64)
          (log10i ((cts % two64 + two64 - (s.deref a).st) % two64)).toNat s) = .ok s4 ∧
      s' = { s4 with removedCount := s4.removedCount + 1 }) := by
  unfold goProcEventExit at h
  simp only [] at h
  split at h
  · rename_i a ha
    right
    split at h
    · rename_i hst
      right
      split at h
      · rename_i hidx
        split at h
        · cases h
        · rename_i s4 hw
          cases h
          exact ⟨a, s4, ha, hst, hidx.1, hidx.2, hw, rfl⟩
      · cases h
    · rename_i hst
      left
      cases h
      refine ⟨a, ha, ?_, rfl⟩
      by_contra hne
      exact hst hne
  · rename_i hn
    left
    cases h
    exact ⟨hn, rfl⟩

theorem field_mapModify_same {α : Type} (g : cmdInfo → α) (m : List (Bytes × cmdInfo)) (k c : Bytes)
    (f : cmdInfo → cmdInfo) (h : ∀ v, g (f v) = g v) :
    (mapGet (mapModify m k f) c).map g = (mapGet m c).map g := by
  rw [mapGet_mapModify]
  split
  · cases hm : mapGet m c with
    | none => rfl
    | some v => simp [h]
  · rfl

theorem walkExit_frame (spid : Int) (et : Nat) (fuel : Nat) (p : Option Nat) (s s' : State)
    (h : walkExit spid et fuel p s = .ok s') :
    (∀ c, etOf s' c = etOf s c ∧ ecOf s' c = ecOf s c ∧ subecOf s' c = subecOf s c) ∧
      s'.ehist = s.ehist ∧ s'.heap = s.heap ∧ s'.procInfos = s.procInfos ∧
      s'.removedCount = s.removedCount ∧ s'.vanishedCount = s.vanishedCount ∧
      s'.nbExecEv = s.nbExecEv := by
  refine walkExit_preserves
    (fun x => (∀ c, etOf x c = etOf s c ∧ ecOf x c = ecOf s c ∧ subecOf x c = subecOf s c) ∧
      x.ehist = s.ehist ∧ x.heap = s.heap ∧ x.procInfos = s.procInfos ∧
      x.removedCount = s.removedCount ∧ x.vanishedCount = s.vanishedCount ∧
      x.nbExecEv = s.nbExecEv) spid et ?_ fuel p s s'
    ⟨fun _ => ⟨rfl, rfl, rfl⟩, rfl, rfl, rfl, rfl, rfl, rfl⟩ h
  intro a x hx
  refine ⟨fun c => ?_, hx.2⟩
  obtain ⟨h1, h2, h3⟩ := hx.1 c
  refine ⟨?_, ?_, ?_⟩
  · rw [← h1]; unfold etOf
    simp only []
    rw [field_mapModify_same (fun ci => ci.et)]
    intro v; split <;> rfl
  · rw [← h2]; unfold ecOf
    simp only []
    rw [field_mapModify_same (fun ci => ci.ec)]
    intro v; split <;> rfl
  · rw [← h3]; unfold subecOf
    simp only []
    rw [field_mapModify_same (fun ci => ci.subec)]
    intro v; split <;> rfl

theorem etOf_settled (pid : Int) (a et i : Nat) (s : State) (c : Bytes)
    (hc : (mapGet s.cmdInfos (s.deref a).ci).isSome = true) :
    etOf (settled pid a et i s) c =
      if c = (s.deref a).ci then (etOf s c + et) % two64 else etOf s c := by
  unfold etOf settled
  simp only [mapGet_mapModify]
  by_cases h1 : (s.deref a).ci = c
  · subst h1
    obtain ⟨v, hv⟩ := Option.isSome_iff_exists.mp hc
    simp [hv]
  · have h1' : ¬ c = (s.deref a).ci := fun h => h1 h.symm
    simp [h1, h1']

theorem duration_eq {ts st : Nat} (h1 : ts < two64) (h2 : st ≤ ts) :
    (ts % two64 + two64 - st) % two64 = ts - st := by
  unfold two64 at *
  omega

/-! ## The histogram -/

theorem sum_modify_succ (l : List Nat) (i : Nat) (h : i < l.length) :
    (l.modify (fun n => n + 1) i).sum = l.sum + 1 := by
  induction l generalizing i with
  | nil => simp at h
  | cons x t ih =>
    cases i with
    | zero => simp [List.modify_zero_cons]; omega
    | succ j =>
      have := ih j (by simpa using h)
      simp [List.modify_succ_cons, this]; omega

theorem climb_ehist (fs : ProcFS) (spid : Int) (fuel pi : Nat) (pid : Int) (s s' : State)
    (h : climb fs spid fuel pi pid s = .ok s') : s'.ehist = s.ehist := by
  refine climb_preserves (fun x => x.ehist = s.ehist) ?_ ?_ ?_ fs spid fuel pi pid s s' rfl h
  · intro _ _ x hx; exact hx
  · intro _ _ x hx; exact hx
  · intro fs q x r x1 hx _ hm
    obtain ⟨cmd, ppid, sv, hg, hcase⟩ := makeProcInfo_inv hm
    have hsv := (getProcessStat_inv hg).1
    have e1 : sv.ehist = x.ehist := by rw [hsv]
    rcases hcase with ⟨_, rfl, _, _⟩ | ⟨_, rfl, _⟩
    · rw [e1]; exact hx
    · exact e1.trans hx

theorem exec_ehist (fuel : Nat) (fs : ProcFS) (pid : Int) (cts nf ne : Nat) (s s' : State)
    (h : goProcEventExec fuel fs pid cts nf ne s = .ok s') : s'.ehist = s.ehist := by
  obtain ⟨cmd, ppid, sv, hg, hcl⟩ := exec_inv h
  have hsv := (getProcessStat_inv hg).1
  have e1 : sv.ehist = s.ehist := by rw [hsv]; rfl
  exact (climb_ehist _ _ _ _ _ _ _ hcl).trans e1

theorem exit_ehist (log10i : Nat → Int) (fuel : Nat) (pid : Int) (cts : Nat) (s s' : State)
    (hl : s.ehist.length = 32) (h : goProcEventExit log10i fuel pid cts s = .ok s') :
    s'.ehist.length = 32 ∧ sumHist s' = sumHist s + (if exitMatched s pid then 1 else 0) := by
  unfold sumHist exitMatched
  rcases exit_inv h with ⟨hn, rfl⟩ | ⟨a, ha, hst, rfl⟩ | ⟨a, s4, ha, hst, h0, h32, hwalk, rfl⟩
  · simp [hn, hl]
  · simp [ha, hst, hl]
  · have hfr := (walkExit_frame _ _ _ _ _ _ hwalk).2.1
    simp only [ha, hst, ne_eq, not_false_eq_true, decide_True, if_true]
    rw [hfr]
    simp only [settled]
    have hi : (log10i ((cts % two64 + two64 - (s.deref a).st) % two64)).toNat < s.ehist.length := by
      rw [hl]; omega
    exact ⟨by simp [hl], sum_modify_succ _ _ hi⟩

theorem run_hist (log10i : Nat → Int) (fuel : Nat) (evs : List Event) :
    ∀ (s s' : State), s.ehist.length = 32 → run log10i fuel evs s = .ok s' →
      s'.ehist.length = 32 ∧ sumHist s' = sumHist s + matchedExits log10i fuel evs s := by
  induction evs with
  | nil => intro s s' hl h; simp [run] at h; cases h; simp [matchedExits, hl]
  | cons e es ih =>
    intro s s' hl h
    simp only [run] at h
    split at h
    · cases h
    · rename_i s1 hs
      simp only [matchedExits, hs]
      cases e with
      | exec fs pid cts nf ne =>
        have he := exec_ehist _ _ _ _ _ _ _ _ hs
        have := ih s1 s' (by rw [he]; exact hl) h
        refine ⟨this.1, ?_⟩
        rw [this.2]; unfold sumHist; rw [he]; simp
      | exit pid cts =>
        have he := exit_ehist _ _ _ _ _ _ hl hs
        have := ih s1 s' he.1 h
        refine ⟨this.1, ?_⟩
        rw [this.2, he.2]; simp only []; omega
      | sweep alive =>
        simp only [step] at hs
        cases hs
        have he := (cleanProcInfos_frame alive s).2.2.2
        have := ih _ s' (by rw [he]; exact hl) h
        refine ⟨this.1, ?_⟩
        rw [this.2]; unfold sumHist; rw [he]; simp

/-! ## Parsing `/proc/<pid>/stat` -/

theorem untilDelim_append (d : Nat) (x y : Bytes) (h : d ∉ x) :
    untilDelim d (x ++ d :: y) = x.length := by
  induction x with
  | nil => simp [untilDelim]
  | cons b t ih =>
    have hb : ¬ b = d := fun e => h (by simp [e])
    have ht : d ∉ t := fun e => h (List.mem_cons_of_mem _ e)
    simp [untilDelim, hb, ih ht]

theorem decVal_ge (l : Bytes) (r : Nat) : r ≤ decVal l r := by
  induction l generalizing r with
  | nil => simp [decVal]
  | cons b t ih =>
    have := ih (10 * r + (b - 48))
    simp only [decVal, List.foldl_cons] at this ⊢
    omega

theorem wrap64_of_lt (n : Nat) (h : n < 9223372036854775808) : wrap64 (n : Int) = n := by
  unfold wrap64
  omega

theorem parseDigits_digits (pre : Bytes) (hpre : ∀ x ∈ pre, 48 ≤ x ∧ x ≤ 57) (t : Bytes) :
    ∀ r : Nat, decVal pre r < 9223372036854775808 →
      parseDigits (pre ++ t) (r : Int) =
        ((parseDigits t (decVal pre r : Nat)).1, (parseDigits t (decVal pre r : Nat)).2 + pre.length) := by
  induction pre with
  | nil => intro r _; simp [decVal]
  | cons b p ih =>
    intro r hr
    have hb := hpre b (List.mem_cons_self _ _)
    have hp : ∀ x ∈ p, 48 ≤ x ∧ x ≤ 57 := fun x hx => hpre x (List.mem_cons_of_mem _ hx)
    have hv : decVal (b :: p) r = decVal p (10 * r + (b - 48)) := by simp [decVal]
    rw [hv] at hr ⊢
    have hle := decVal_ge p (10 * r + (b - 48))
    have hcast : (10 * (r : Int) + ((b - 48 : Nat) : Int)) = ((10 * r + (b - 48) : Nat) : Int) := by
      push_cast; rfl
    have hnd : ¬ (b < 48 ∨ 57 < b) := by omega
    simp only [List.cons_append, parseDigits, hnd, if_false, hcast]
    rw [wrap64_of_lt _ (by omega)]
    have := ih hp _ hr
    simp only [List.append_eq] at this ⊢
    rw [this]
    simp only [List.length_cons]
    rfl

theorem digitChar_toNat (d : Nat) (h : d < 10) : (Nat.digitChar d).toNat = 48 + d := by
  interval_cases d <;> rfl

theorem toDigitsCore_spec : ∀ (fuel n : Nat) (acc : List Char), n < fuel →
    ∃ pre : Bytes, (Nat.toDigitsCore 10 fuel n acc).map Char.toNat = pre ++ acc.map Char.toNat ∧
      (∀ x ∈ pre, 48 ≤ x ∧ x ≤ 57) ∧ pre ≠ [] ∧ ∀ r, decVal pre r = r * 10 ^ pre.length + n := by
  intro fuel
  induction fuel with
  | zero => intro n acc h; omega
  | succ f ih =>
    intro n acc h
    have hd : (Nat.digitChar (n % 10)).toNat = 48 + n % 10 := digitChar_toNat _ (Nat.mod_lt _ (by omega))
    by_cases h0 : n / 10 = 0
    · refine ⟨[48 + n % 10], ?_, ?_, by simp, ?_⟩
      · simp [Nat.toDigitsCore, h0, hd]
      · intro x hx; simp at hx; omega
      · intro r; simp [decVal]; omega
    · obtain ⟨pre, h1, h2, _, h4⟩ := ih (n / 10) (Nat.digitChar (n % 10) :: acc) (by omega)
      refine ⟨pre ++ [48 + n % 10], ?_, ?_, by simp, ?_⟩
      · simp [Nat.toDigitsCore, h0, h1, hd]
      · intro x hx
        rcases List.mem_append.mp hx with hx | hx
        · exact h2 x hx
        · simp at hx; omega
      · intro r
        have : decVal (pre ++ [48 + n % 10]) r = 10 * decVal pre r + (n % 10) := by
          simp [decVal, List.foldl_append]
        rw [this, h4 r]
        simp only [List.length_append, List.length_singleton, pow_succ]
        have := Nat.div_add_mod n 10
        nlinarith

theorem decimal_spec (n : Nat) :
    ∃ pre : Bytes, decimal n = pre ∧ (∀ x ∈ pre, 48 ≤ x ∧ x ≤ 57) ∧ pre ≠ [] ∧ decVal pre 0 = n := by
  obtain ⟨pre, h1, h2, h3, h4⟩ := toDigitsCore_spec (n + 1) n [] (by omega)
  refine ⟨pre, ?_, h2, h3, by simpa using h4 0⟩
  have : decimal n = (Nat.toDigitsCore 10 (n + 1) n []).map Char.toNat := rfl
  rw [this, h1]; simp

theorem statLoop_fields (pidf comm state digits rest : Bytes) (hp0 : pidf ≠ []) (hp : 32 ∉ pidf)
    (hc : 41 ∉ comm) (hs : 32 ∉ state) :
    statLoop (pidf ++ 32 :: 40 :: (comm ++ 41 :: 32 :: (state ++ 32 :: (digits ++ 32 :: rest))))
        4 0 0 []
      = .ok (comm, (parseDigits (digits ++ 32 :: rest) 0).1) := by
  obtain ⟨c0, p', rfl⟩ := List.exists_cons_of_ne_nil hp0
  have hp' : 32 ∉ p' := fun e => hp (List.mem_cons_of_mem _ e)
  generalize hT3 : digits ++ 32 :: rest = T3
  generalize hT2 : state ++ 32 :: T3 = T2
  generalize hT1 : comm ++ 41 :: 32 :: T2 = T1
  generalize hb : (c0 :: p') ++ 32 :: 40 :: T1 = b
  have hlen : b.length = p'.length + 3 + T1.length := by
    rw [← hb]; simp; omega
  have hlen1 : T1.length = comm.length + 2 + T2.length := by
    rw [← hT1]; simp; omega
  have hlen2 : T2.length = state.length + 1 + T3.length := by
    rw [← hT2]; simp; omega
  have hlen3 : 0 < T3.length := by
    rw [← hT3]; simp
  -- field 0
  have d1 : b.drop (0 + 1) = p' ++ 32 :: 40 :: T1 := by rw [← hb]; simp
  have s1 : statLoop b 4 0 0 [] = statLoop b 3 (p'.length + 2) 1 [] := by
    rw [statLoop]
    have h0 : 0 < b.length := by omega
    simp only [h0, if_true, d1, untilDelim_append 32 p' _ hp']
    have : ¬ (0 = 1) := by omega
    have : ¬ (0 = 3) := by omega
    simp
    congr 1; omega
  -- field 1
  have d2 : b.drop (p'.length + 2 + 1) = comm ++ 41 :: 32 :: T2 := by
    rw [← hb, hT1]
    have : c0 :: p' ++ 32 :: 40 :: T1 = (c0 :: p' ++ [32, 40]) ++ T1 := by simp
    rw [this]
    have : p'.length + 2 + 1 = (c0 :: p' ++ [32, 40]).length := by simp
    rw [this, List.drop_left]
  have f2 : fastParseUntil b (p'.length + 2 + 1) 41 = .ok (comm, p'.length + 3 + comm.length) := by
    unfold fastParseUntil
    simp only [d2, untilDelim_append 41 comm _ hc]
    have : p'.length + 2 + 1 + comm.length < b.length := by omega
    simp only [this, if_true]
    have e : p'.length + 2 + 1 + comm.length - (p'.length + 2 + 1) = comm.length := by omega
    rw [e, List.take_left]
  have s2 : statLoop b 3 (p'.length + 2) 1 [] = statLoop b 2 (p'.length + 3 + comm.length + 1) 2 comm := by
    rw [statLoop]
    have h0 : p'.length + 2 < b.length := by omega
    simp only [h0, if_true, f2]
  -- field 2
  have d3 : b.drop (p'.length + 3 + comm.length + 1 + 1) = state ++ 32 :: T3 := by
    rw [← hb, hT2, ← hT1]
    have : c0 :: p' ++ 32 :: 40 :: (comm ++ 41 :: 32 :: T2)
        = (c0 :: p' ++ [32, 40] ++ comm ++ [41, 32]) ++ T2 := by simp
    rw [this]
    have : p'.length + 3 + comm.length + 1 + 1 = (c0 :: p' ++ [32, 40] ++ comm ++ [41, 32]).length := by
      simp; omega
    rw [this, List.drop_left]
  have s3 : statLoop b 2 (p'.length + 3 + comm.length + 1) 2 comm
      = statLoop b 1 (p'.length + 3 + comm.length + 1 + 1 + state.length + 1) 3 comm := by
    rw [statLoop]
    have h0 : p'.length + 3 + comm.length + 1 < b.length := by omega
    simp only [h0, if_true, d3, untilDelim_append 32 state _ hs]
    simp
  -- field 3
  have d4 : b.drop (p'.length + 3 + comm.length + 1 + 1 + state.length + 1) = T3 := by
    rw [← hb, ← hT1, ← hT2]
    have : c0 :: p' ++ 32 :: 40 :: (comm ++ 41 :: 32 :: (state ++ 32 :: T3))
        = (c0 :: p' ++ [32, 40] ++ comm ++ [41, 32] ++ state ++ [32]) ++ T3 := by simp
    rw [this]
    have : p'.length + 3 + comm.length + 1 + 1 + state.length + 1
        = (c0 :: p' ++ [32, 40] ++ comm ++ [41, 32] ++ state ++ [32]).length := by
      simp; omega
    rw [this, List.drop_left]
  have s4 : statLoop b 1 (p'.length + 3 + comm.length + 1 + 1 + state.length + 1) 3 comm
      = .ok (comm, (parseDigits T3 0).1) := by
    rw [statLoop]
    have h0 : p'.length + 3 + comm.length + 1 + 1 + state.length + 1 < b.length := by omega
    simp only [h0, if_true, fastParseInt, d4]
    simp
  rw [s1, s2, s3, s4]

theorem statLoop_statLine (pidf comm state : Bytes) (ppid : Nat) (rest : Bytes) (hp0 : pidf ≠ [])
    (hp : 32 ∉ pidf) (hc : 41 ∉ comm) (hs : 32 ∉ state) (hv : ppid < 9223372036854775808) :
    statLoop (statLine pidf comm state ppid rest) 4 0 0 [] = .ok (comm, (ppid : Int)) := by
  obtain ⟨pre, h1, h2, _, h4⟩ := decimal_spec ppid
  have hline : statLine pidf comm state ppid rest
      = pidf ++ 32 :: 40 :: (comm ++ 41 :: 32 :: (state ++ 32 :: (pre ++ 32 :: rest))) := by
    simp [statLine, h1]
  rw [hline, statLoop_fields pidf comm state pre rest hp0 hp hc hs]
  have := parseDigits_digits pre h2 (32 :: rest) 0 (by rw [h4]; exact hv)
  simp only [Nat.cast_zero] at this
  rw [this, h4]
  simp [parseDigits]

/-! ## Reading a process that is there, and one that vanished -/

theorem getProcessStat_ok {fs : ProcFS} {pid : Int} {b : Bytes} {r : Bytes × Int} (s : State)
    (hread : fs pid = some b) (hb : b ≠ []) (hparse : statLoop b 4 0 0 [] = .ok r) :
    getProcessStat fs pid s = .ok (r, s) := by
  unfold getProcessStat
  have : ¬ b.length = 0 := by
    intro h; exact hb (List.length_eq_zero.mp h)
  simp only [hread, this, if_false, hparse]

theorem getProcessStat_vanished {fs : ProcFS} {p : Int} (s : State)
    (hvan : fs p = none ∨ fs p = some []) :
    getProcessStat fs p s = .ok (([], -1), { s with vanishedCount := s.vanishedCount + 1 }) := by
  unfold getProcessStat
  rcases hvan with h | h
  · simp only [h]
  · simp only [h, List.length_nil, if_true]

theorem makeProcInfo_vanished_parent {fs : ProcFS} {p : Int} (s : State)
    (hvan : fs p = none ∨ fs p = some []) :
    makeProcInfo fs p false s = .ok (none, { s with vanishedCount := s.vanishedCount + 1 }) := by
  unfold makeProcInfo
  rw [getProcessStat_vanished s hvan]
  simp

theorem ecOf_recordProc (pid : Int) (cmd : Bytes) (ppid : Int) (s : State) (c : Bytes) :
    ecOf (recordProc pid cmd ppid s) c = ecOf s c + (if c = cmd then 1 else 0) := by
  unfold ecOf recordProc
  simp only []
  cases hk : mapGet s.cmdInfos cmd with
  | none =>
    simp only [mapGet_mapSet]
    by_cases h1 : cmd = c
    · subst h1; simp [hk]
    · have h1' : ¬ c = cmd := fun h => h1 h.symm
      simp [h1, h1']
  | some v0 =>
    simp only [mapGet_mapModify]
    by_cases h1 : cmd = c
    · subst h1; simp [hk]
    · have h1' : ¬ c = cmd := fun h => h1 h.symm
      simp [h1, h1']

/-- The exec of a readable process whose parent is unknown and unreadable: the state the
handler returns. -/
theorem exec_vanished_parent (fuel : Nat) (fs : ProcFS) (pid : Int) (ts nf ne : Nat) (s : State)
    (b cmd : Bytes) (p : Int) (hread : fs pid = some b) (hb : b ≠ [])
    (hparse : statLoop b 4 0 0 [] = .ok (cmd, p)) (hcmd : cmd ≠ [])
    (hnorec : mapGet s.procInfos p = none) (hvan : fs p = none ∨ fs p = some []) :
    ∃ v, goProcEventExec (fuel + 1) fs pid ts nf ne s =
      .ok { execStart pid cmd p ts nf ne s with vanishedCount := v } := by
  have hne : ¬ pid = p := by
    intro e; subst e
    rcases hvan with h | h
    · rw [h] at hread; cases hread
    · rw [h] at hread; cases hread; exact hb rfl
  have hmk : makeProcInfo fs pid true (countExec nf ne s)
      = .ok (some s.heap.length, recordProc pid cmd p (countExec nf ne s)) := by
    unfold makeProcInfo
    rw [getProcessStat_ok (countExec nf ne s) hread hb hparse]
    simp [hcmd, countExec]
  have hrec : (execStart pid cmd p ts nf ne s).deref s.heap.length
      = { pid := pid, ppid := p, ppi := none, ci := cmd, st := ts % two64 } := by
    unfold execStart
    have : (countExec nf ne s).heap.length = s.heap.length := rfl
    rw [deref_setSt, ← this, deref_recordProc_new]
    simp [recordProc]
  have hXp : (execStart pid cmd p ts nf ne s).procInfos = mapSet s.procInfos pid s.heap.length := rfl
  have hgo : goProcEventExec (fuel + 1) fs pid ts nf ne s
      = climb fs pid (fuel + 1) s.heap.length pid (execStart pid cmd p ts nf ne s) := by
    unfold goProcEventExec
    simp only [hmk]
    rfl
  rw [hgo, climb]
  by_cases hpid : pid ≤ 1
  · exact ⟨(execStart pid cmd p ts nf ne s).vanishedCount, by simp [hpid]⟩
  · refine ⟨(execStart pid cmd p ts nf ne s).vanishedCount + 1, ?_⟩
    have hl : mapGet (execStart pid cmd p ts nf ne s).procInfos p = none := by
      rw [hXp, mapGet_mapSet]; simp [hne, hnorec]
    simp only [hpid, if_false, hrec, hl,
      makeProcInfo_vanished_parent (execStart pid cmd p ts nf ne s) hvan]

/-- The exec of a process that vanished, `pid > 1`, when pid -1 is not bound and its stat
file cannot be read either (there is no such file): the handler returns, `vanishedCount` has
grown by 2, the `ec` of the empty-name command by 1, and no `subec` has changed. -/
theorem exec_vanished (fuel : Nat) (fs : ProcFS) (pid : Int) (ts nf ne : Nat) (s : State)
    (hpid : 1 < pid) (hvan : fs pid = none ∨ fs pid = some [])
    (hvan1 : fs (-1) = none ∨ fs (-1) = some []) (hno : mapGet s.procInfos (-1) = none) :
    ∃ s', goProcEventExec (fuel + 1) fs pid ts nf ne s = .ok s' ∧
      s'.vanishedCount = s.vanishedCount + 2 ∧ ecOf s' [] = ecOf s [] + 1 ∧
      ∀ c, subecOf s' c = subecOf s c := by
  have hne : ¬ pid = -1 := by omega
  have hmk : makeProcInfo fs pid true (countExec nf ne s)
      = .ok (some s.heap.length, recordProc pid [] (-1)
          { countExec nf ne s with vanishedCount := s.vanishedCount + 1 }) := by
    unfold makeProcInfo
    rw [getProcessStat_vanished (countExec nf ne s) hvan]
    simp [countExec]
  generalize hX : setSt s.heap.length (ts % two64) (recordProc pid [] (-1)
      { countExec nf ne s with vanishedCount := s.vanishedCount + 1 }) = X
  have hrec : X.deref s.heap.length
      = { pid := pid, ppid := -1, ppi := none, ci := [], st := ts % two64 } := by
    rw [← hX]
    have : ({ countExec nf ne s with vanishedCount := s.vanishedCount + 1 } : State).heap.length
        = s.heap.length := rfl
    rw [deref_setSt, ← this, deref_recordProc_new]
    simp [recordProc]
  have hXp : X.procInfos = mapSet s.procInfos pid s.heap.length := by rw [← hX]; rfl
  have hXv : X.vanishedCount = s.vanishedCount + 1 := by rw [← hX]; rfl
  have hXe : ecOf X [] = ecOf s [] + 1 := by
    rw [← hX]
    have := ecOf_recordProc pid [] (-1)
      { countExec nf ne s with vanishedCount := s.vanishedCount + 1 } []
    simp only [if_true] at this
    exact this
  have hXs : ∀ c, subecOf X c = subecOf s c := by
    intro c
    rw [← hX]
    exact (subecOf_recordProc pid [] (-1)
      { countExec nf ne s with vanishedCount := s.vanishedCount + 1 } c).1
  have hgo : goProcEventExec (fuel + 1) fs pid ts nf ne s
      = climb fs pid (fuel + 1) s.heap.length pid X := by
    unfold goProcEventExec
    simp only [hmk, hX]
  have hl : mapGet X.procInfos (-1) = none := by
    rw [hXp, mapGet_mapSet]; simp [hne, hno]
  have hle : ¬ pid ≤ 1 := by omega
  refine ⟨{ X with vanishedCount := X.vanishedCount + 1 }, ?_, ?_, hXe, hXs⟩
  · rw [hgo, climb]
    simp only [hle, if_false, hrec, hl, makeProcInfo_vanished_parent X hvan1]
  · show X.vanishedCount + 1 = s.vanishedCount + 2
    rw [hXv]

/-! ## Reachable states are well-formed -/

theorem wf_boot (t0 : Nat) : (State.boot t0).wf := by
  refine ⟨?_, ?_, ?_⟩ <;> intro x hx <;> simp [State.boot] at hx

theorem wf_of_sub {s x : State} (hw : s.wf) (hh : x.heap = s.heap)
    (hp : ∀ e ∈ x.procInfos, e ∈ s.procInfos)
    (hc : ∀ c, (mapGet s.cmdInfos c).isSome = true → (mapGet x.cmdInfos c).isSome = true) :
    x.wf := by
  obtain ⟨w1, w2, w3⟩ := hw
  refine ⟨?_, ?_, ?_⟩
  · rw [hh]; exact fun e he => w1 e (hp e he)
  · rw [hh]; exact w2
  · rw [hh]; exact fun r hr => hc _ (w3 r hr)

theorem isSome_mapModify {κ ν : Type} [DecidableEq κ] (m : List (κ × ν)) (k c : κ) (f : ν → ν)
    (h : (mapGet m c).isSome = true) : (mapGet (mapModify m k f) c).isSome = true := by
  rw [mapGet_mapModify]
  split
  · simpa using h
  · exact h

theorem exec_wf (fuel : Nat) (fs : ProcFS) (pid : Int) (cts nf ne : Nat) (s s' : State)
    (hw : s.wf) (h : goProcEventExec fuel fs pid cts nf ne s = .ok s') : s'.wf := by
  obtain ⟨cmd, ppid, sv, hg, hcl⟩ := exec_inv h
  have hsv := (getProcessStat_inv hg).1
  have hsvh : sv.heap = s.heap := by rw [hsv]; rfl
  have hsvw : sv.wf :=
    wf_of_same hw (by rw [hsv]; rfl) (by rw [hsv]; rfl) (by rw [hsv]; exact fun _ h => h)
  have hrw : (setSt s.heap.length (cts % two64) (recordProc pid cmd ppid sv)).wf :=
    wf_setSt _ _ (wf_recordProc _ _ _ hsvw)
  have hlen : (setSt s.heap.length (cts % two64) (recordProc pid cmd ppid sv)).heap.length
      = s.heap.length + 1 := by simp [setSt, recordProc, hsvh]
  have hpid : ((setSt s.heap.length (cts % two64) (recordProc pid cmd ppid sv)).deref s.heap.length).pid
      = pid := by
    rw [deref_setSt, ← hsvh, deref_recordProc_new]
    simp [recordProc]
  have hcl' : climb fs pid fuel s.heap.length
      ((setSt s.heap.length (cts % two64) (recordProc pid cmd ppid sv)).deref s.heap.length).pid
      (setSt s.heap.length (cts % two64) (recordProc pid cmd ppid sv)) = .ok s' := by
    rw [hpid]; exact hcl
  exact (climb_dedup fs pid fuel s.heap.length _ s' hrw (by rw [hlen]; omega) hcl').1

theorem mem_mapDelete {κ ν : Type} [DecidableEq κ] {m : List (κ × ν)} {k : κ} {e : κ × ν}
    (h : e ∈ mapDelete m k) : e ∈ m := by
  unfold mapDelete at h
  exact (List.mem_filter.mp h).1

theorem exit_wf (log10i : Nat → Int) (fuel : Nat) (pid : Int) (cts : Nat) (s s' : State)
    (hw : s.wf) (h : goProcEventExit log10i fuel pid cts s = .ok s') : s'.wf := by
  rcases exit_inv h with ⟨_, rfl⟩ | ⟨a, _, _, rfl⟩ | ⟨a, s4, _, _, _, _, hwalk, rfl⟩
  · exact wf_of_same hw rfl rfl (fun _ h => h)
  · exact wf_of_sub hw rfl (fun e he => mem_mapDelete he) (fun _ h => h)
  · have h0 : (settled pid a ((cts % two64 + two64 - (s.deref a).st) % two64)
        (log10i ((cts % two64 + two64 - (s.deref a).st) % two64)).toNat s).wf :=
      wf_of_sub hw rfl (fun e he => mem_mapDelete he) (fun c hc => isSome_mapModify _ _ _ _ hc)
    have h4 : s4.wf := by
      refine walkExit_preserves (fun x => x.wf) pid _ ?_ fuel _ _ _ h0 hwalk
      intro b x hx
      exact wf_of_same hx rfl rfl (fun c hc => isSome_mapModify _ _ _ _ hc)
    exact wf_of_same h4 rfl rfl (fun _ h => h)

theorem cleanProcInfos_sub (alive : Int → Bool) (s : State) :
    ∀ e ∈ (cleanProcInfos alive s).procInfos, e ∈ s.procInfos := by
  unfold cleanProcInfos
  have key : ∀ (l : List (Int × Nat)) (st : State), (∀ e ∈ st.procInfos, e ∈ s.procInfos) →
      ∀ e ∈ (l.foldl
        (fun st e =>
          if alive e.1 then st
          else { st with procInfos := mapDelete st.procInfos e.1,
                         removedCount := st.removedCount + 1 }) st).procInfos, e ∈ s.procInfos := by
    intro l
    induction l with
    | nil => intro st hst; simpa using hst
    | cons x t ih =>
      intro st hst
      simp only [List.foldl_cons]
      split
      · exact ih st hst
      · exact ih _ (fun e he => hst e (mem_mapDelete he))
  exact key s.procInfos s (fun _ h => h)

theorem step_wf (log10i : Nat → Int) (fuel : Nat) (e : Event) (s s' : State) (hw : s.wf)
    (h : step log10i fuel e s = .ok s') : s'.wf := by
  cases e with
  | exec fs pid cts nf ne => exact exec_wf _ _ _ _ _ _ _ _ hw h
  | exit pid cts => exact exit_wf _ _ _ _ _ _ hw h
  | sweep alive =>
    simp only [step] at h
    cases h
    have hf := cleanProcInfos_frame alive s
    exact wf_of_sub hw hf.2.1 (cleanProcInfos_sub alive s) (by rw [hf.1]; exact fun _ h => h)

/-- Every state reached from the boot state is well-formed. -/
theorem run_wf (log10i : Nat → Int) (fuel : Nat) (evs : List Event) :
    ∀ (s s' : State), s.wf → run log10i fuel evs s = .ok s' → s'.wf := by
  induction evs with
  | nil => intro s s' hw h; simp [run] at h; cases h; exact hw
  | cons e es ih =>
    intro s s' hw h
    simp only [run] at h
    split at h
    · cases h
    · rename_i s1 hs
      exact ih s1 s' (step_wf _ _ _ _ _ hw hs) h

/-! ## When the exit handler returns -/

theorem endsWithin_of_heap_eq {s x : State} (h : x.heap = s.heap) (n : Nat) (p : Option Nat) :
    endsWithin x n p = endsWithin s n p := by
  induction n generalizing p with
  | zero => cases p <;> rfl
  | succ k ih =>
    cases p with
    | none => rfl
    | some a =>
      have : x.deref a = s.deref a := by unfold State.deref; rw [h]
      simp only [endsWithin, this, ih]

/-- The parent walk returns when the parent links end within the step budget. -/
theorem walkExit_returns (spid : Int) (et : Nat) :
    ∀ (fuel : Nat) (p : Option Nat) (s : State), endsWithin s fuel p = true →
      ∃ s', walkExit spid et fuel p s = .ok s' := by
  intro fuel
  induction fuel with
  | zero =>
    intro p s h
    cases p with
    | none => exact ⟨s, rfl⟩
    | some a => simp [endsWithin] at h
  | succ n ih =>
    intro p s h
    cases p with
    | none => exact ⟨s, rfl⟩
    | some a =>
      simp only [walkExit]
      apply ih
      exact (endsWithin_of_heap_eq (by rfl) n _).trans h

/-- The exit handler returns when the bucket index of the duration is a valid index and the
parent links of the exiting record end within the step budget. -/
theorem exit_returns (log10i : Nat → Int) (fuel : Nat) (pid : Int) (ts : Nat) (s : State)
    (hidx : ∀ a, mapGet s.procInfos pid = some a → (s.deref a).st ≠ 0 →
      0 ≤ log10i ((ts % two64 + two64 - (s.deref a).st) % two64) ∧
      log10i ((ts % two64 + two64 - (s.deref a).st) % two64) < 32)
    (hend : ∀ a, mapGet s.procInfos pid = some a → endsWithin s fuel (some a) = true) :
    ∃ s', goProcEventExit log10i fuel pid ts s = .ok s' := by
  unfold goProcEventExit
  cases hm : mapGet s.procInfos pid with
  | none => exact ⟨_, rfl⟩
  | some a =>
    simp only []
    by_cases hst : (s.deref a).st = 0
    · have : ({ s with procInfos := mapDelete s.procInfos pid } : State).deref a = s.deref a := rfl
      simp only [this, hst, ne_eq, not_true_eq_false, if_false]
      exact ⟨_, rfl⟩
    · have hd : ({ s with procInfos := mapDelete s.procInfos pid } : State).deref a = s.deref a := rfl
      have hi := hidx a hm hst
      simp only [hd, hst, ne_eq, not_false_eq_true, if_true, hi, and_self]
      obtain ⟨s4, h4⟩ := walkExit_returns pid ((ts % two64 + two64 - (s.deref a).st) % two64) fuel
        (some a)
        (settled pid a ((ts % two64 + two64 - (s.deref a).st) % two64)
          (log10i ((ts % two64 + two64 - (s.deref a).st) % two64)).toNat s)
        ((endsWithin_of_heap_eq (by rfl) fuel (some a)).trans (hend a hm))
      have h4' : walkExit pid ((ts % two64 + two64 - (s.deref a).st) % two64) fuel (some a)
          { s with
            procInfos := mapDelete s.procInfos pid
            cmdInfos := mapModify s.cmdInfos (s.deref a).ci
              (fun ci => { ci with et := (ci.et + (ts % two64 + two64 - (s.deref a).st) % two64) % two64 })
            ehist := s.ehist.modify (fun n => n + 1)
              (log10i ((ts % two64 + two64 - (s.deref a).st) % two64)).toNat } = .ok s4 := h4
      rw [h4']
      exact ⟨_, rfl⟩

/-! ## The exit walk and the subtree times -/

theorem lineage_of_heap_eq {s x : State} (h : x.heap = s.heap) (n : Nat) (p : Option Nat) :
    lineage x n p = lineage s n p := by
  induction n generalizing p with
  | zero => cases p <;> rfl
  | succ k ih =>
    cases p with
    | none => rfl
    | some a =>
      have : x.deref a = s.deref a := by unfold State.deref; rw [h]
      simp only [lineage, this, ih]

/-- What the parent walk does to the subtree times: a command gets `et` added exactly if a
record of the walk carries it and its `spid` was not already the pid of the exit. -/
theorem walkExit_subet (spid : Int) (et : Nat) :
    ∀ (fuel : Nat) (p : Option Nat) (s s' : State), s.wf → (∀ a ∈ p, a < s.heap.length) →
      walkExit spid et fuel p s = .ok s' →
      ∀ c, subetOf s' c =
        if c ∈ (lineage s fuel p).map (fun b => (s.deref b).ci) ∧ spidOf s c ≠ spid
        then (subetOf s c + et) % two64 else subetOf s c := by
  intro fuel
  induction fuel with
  | zero =>
    intro p s s' _ _ h c
    cases p with
    | none => simp [walkExit] at h; cases h; simp [lineage]
    | some a => simp [walkExit] at h
  | succ n ih =>
    intro p s s' hw hp h c
    cases p with
    | none => simp [walkExit] at h; cases h; simp [lineage]
    | some a =>
      simp only [walkExit] at h
      have ha : a < s.heap.length := hp a rfl
      have hci : (mapGet s.cmdInfos (s.deref a).ci).isSome = true := hw.2.2 _ (deref_mem ha)
      obtain ⟨v, hv⟩ := Option.isSome_iff_exists.mp hci
      generalize hs1 : ({ s with
        cmdInfos := mapModify s.cmdInfos (s.deref a).ci
          (fun ci => if ci.spid ≠ spid then { ci with subet := (ci.subet + et) % two64, spid := spid }
            else ci) } : State) = s1 at h
      have hheap : s1.heap = s.heap := by rw [← hs1]
      have hd : ∀ b, s1.deref b = s.deref b := by
        intro b; unfold State.deref; rw [hheap]
      have hw1 : s1.wf := by
        refine wf_of_same hw hheap (by rw [← hs1]) (fun c hc => ?_)
        rw [← hs1]
        exact isSome_mapModify _ _ _ _ hc
      have hp1 : ∀ b ∈ (s1.deref a).ppi, b < s1.heap.length := by
        intro b hb
        rw [hheap]
        rw [hd] at hb
        exact hw.2.1 _ (deref_mem ha) b hb
      have hrec := ih (s1.deref a).ppi s1 s' hw1 hp1 h c
      have e1 : subetOf s1 c
          = if c = (s.deref a).ci ∧ spidOf s c ≠ spid then (subetOf s c + et) % two64
            else subetOf s c := by
        rw [← hs1]
        unfold subetOf spidOf
        simp only [mapGet_mapModify]
        by_cases h1 : (s.deref a).ci = c
        · subst h1
          by_cases h2 : v.spid = spid
          · simp [hv, h2]
          · simp [hv, h2]
        · have h1' : ¬ c = (s.deref a).ci := fun h => h1 h.symm
          simp [h1, h1']
      have e2 : spidOf s1 c = if c = (s.deref a).ci then spid else spidOf s c := by
        rw [← hs1]
        unfold spidOf
        simp only [mapGet_mapModify]
        by_cases h1 : (s.deref a).ci = c
        · subst h1
          by_cases h2 : v.spid = spid
          · simp [hv, h2]
          · simp [hv, h2]
        · have h1' : ¬ c = (s.deref a).ci := fun h => h1 h.symm
          simp [h1, h1']
      have e3 : (lineage s1 n (s1.deref a).ppi).map (fun b => (s1.deref b).ci)
          = (lineage s n (s.deref a).ppi).map (fun b => (s.deref b).ci) := by
        rw [lineage_of_heap_eq hheap, hd]
        apply List.map_congr_left
        intro b _; rw [hd]
      rw [hrec, e1, e2, e3]
      simp only [lineage, List.map_cons, List.mem_cons]
      by_cases hc : c = (s.deref a).ci
      · by_cases hsp : spidOf s c = spid
        · simp [hc, hsp]
        · simp [hc]
      · simp [hc]

/-- What `exit(pid, ts)` does to the subtree times, for a record with `st != 0`: `et` is
added to the `subet` of each command carried by the exiting record or one of the records
along its parent links, unless the `spid` of that command is already `pid`. -/
theorem exit_subet (log10i : Nat → Int) (fuel : Nat) (pid : Int) (ts : Nat) (s s' : State)
    (hw : s.wf) (h : goProcEventExit log10i fuel pid ts s = .ok s') (a : Nat)
    (ha : mapGet s.procInfos pid = some a) (hst : (s.deref a).st ≠ 0) :
    ∀ c, subetOf s' c =
      if c ∈ (lineage s fuel (some a)).map (fun b => (s.deref b).ci) ∧ spidOf s c ≠ pid
      then (subetOf s c + (ts % two64 + two64 - (s.deref a).st) % two64) % two64
      else subetOf s c := by
  rcases exit_inv h with ⟨hn, _⟩ | ⟨a', ha', hst', _⟩ | ⟨a', s4, ha', _, _, _, hwalk, rfl⟩
  · rw [hn] at ha; cases ha
  · rw [ha] at ha'; cases ha'; exact absurd hst' hst
  · rw [ha] at ha'; cases ha'
    intro c
    have hva : a < s.heap.length := hw.1 _ (mapGet_mem ha)
    generalize hX : settled pid a ((ts % two64 + two64 - (s.deref a).st) % two64)
      (log10i ((ts % two64 + two64 - (s.deref a).st) % two64)).toNat s = X at hwalk
    have hheap : X.heap = s.heap := by rw [← hX]; rfl
    have hd : ∀ b, X.deref b = s.deref b := by
      intro b; unfold State.deref; rw [hheap]
    have hwX : X.wf := by
      rw [← hX]
      exact wf_of_sub hw rfl (fun e he => mem_mapDelete he) (fun c hc => isSome_mapModify _ _ _ _ hc)
    have hsub := walkExit_subet pid _ fuel (some a) X s4 hwX
      (by intro b hb; cases hb; rw [hheap]; exact hva) hwalk c
    have e0 : subetOf { s4 with removedCount := s4.removedCount + 1 } c = subetOf s4 c := rfl
    have e1 : subetOf X c = subetOf s c := by
      rw [← hX]; unfold subetOf settled
      simp only []
      rw [field_mapModify_same (fun ci => ci.subet)]
      intro v; rfl
    have e2 : spidOf X c = spidOf s c := by
      rw [← hX]; unfold spidOf settled
      simp only []
      rw [field_mapModify_same (fun ci => ci.spid)]
      intro v; rfl
    have e3 : (lineage X fuel (some a)).map (fun b => (X.deref b).ci)
        = (lineage s fuel (some a)).map (fun b => (s.deref b).ci) := by
      rw [lineage_of_heap_eq hheap]
      apply List.map_congr_left
      intro b _; rw [hd]
    rw [e0, hsub, e1, e2, e3]

/-! ## The bucket of an exit -/

/-- The histogram after an exit that found a record with `st != 0`: the bucket index is the
value of the bucket function at the duration, it is a valid index, and that bucket alone
has been incremented. -/
theorem exit_bucket (log10i : Nat → Int) (fuel : Nat) (pid : Int) (ts : Nat) (s s' : State)
    (h : goProcEventExit log10i fuel pid ts s = .ok s') (a : Nat)
    (ha : mapGet s.procInfos pid = some a) (hst : (s.deref a).st ≠ 0) :
    0 ≤ log10i ((ts % two64 + two64 - (s.deref a).st) % two64) ∧
    log10i ((ts % two64 + two64 - (s.deref a).st) % two64) < 32 ∧
    s'.ehist = s.ehist.modify (fun n => n + 1)
      (log10i ((ts % two64 + two64 - (s.deref a).st) % two64)).toNat := by
  rcases exit_inv h with ⟨hn, _⟩ | ⟨a', ha', hst', _⟩ | ⟨a', s4, ha', _, h0, h32, hwalk, rfl⟩
  · rw [hn] at ha; cases ha
  · rw [ha] at ha'; cases ha'; exact absurd hst' hst
  · rw [ha] at ha'; cases ha'
    refine ⟨h0, h32, ?_⟩
    have hfr := (walkExit_frame _ _ _ _ _ _ hwalk).2.1
    show s4.ehist = _
    rw [hfr]
    rfl

/-- There is no clamp: when the bucket function gives an index outside `[0, 32)` for the
duration of a record with `st != 0`, the handler stops with an index panic, whatever the
step budget. -/
theorem exit_index_out_of_range (log10i : Nat → Int) (fuel : Nat) (pid : Int) (ts : Nat)
    (s : State) (a : Nat) (ha : mapGet s.procInfos pid = some a) (hst : (s.deref a).st ≠ 0)
    (hidx : ¬ (0 ≤ log10i ((ts % two64 + two64 - (s.deref a).st) % two64) ∧
      log10i ((ts % two64 + two64 - (s.deref a).st) % two64) < 32)) :
    goProcEventExit log10i fuel pid ts s = .error Fault.indexOutOfRange := by
  unfold goProcEventExit
  have hd : ({ s with procInfos := mapDelete s.procInfos pid } : State).deref a = s.deref a := rfl
  simp only [ha, hd, hst, ne_eq, not_false_eq_true, if_true, hidx, if_false]

/-! ## Parent links of reachable states -/

theorem ends_of_none {s : State} {a : Nat} (h : (s.deref a).ppi = none) : Ends s a :=
  ⟨1, by simp [endsWithin, h]⟩

theorem ends_of_link {s : State} {a b : Nat} (h : (s.deref a).ppi = some b) (hb : Ends s b) :
    Ends s a := by
  obtain ⟨n, hn⟩ := hb
  exact ⟨n + 1, by simp [endsWithin, h, hn]⟩

theorem deref_ge {s : State} {a : Nat} (h : s.heap.length ≤ a) : s.deref a = default := by
  unfold State.deref
  simp [List.getD, List.getElem?_eq_none h]

/-- The chain of a record that ended in `s` ends in `x`, when `x` keeps the records of `s`
and every record without parent link in `s` has an ending chain in `x`. -/
theorem ends_of_keeps {s x : State} (hw : s.wf) (hk : Keeps s x)
    (hnew : ∀ a, (s.deref a).ppi = none → Ends x a) :
    ∀ (n a : Nat), a < s.heap.length → endsWithin s n (some a) = true → Ends x a := by
  intro n
  induction n with
  | zero => intro a _ h; simp [endsWithin] at h
  | succ k ih =>
    intro a ha h
    simp only [endsWithin] at h
    cases hl : (s.deref a).ppi with
    | none => exact hnew a hl
    | some b =>
      rw [hl] at h
      have hb : b < s.heap.length := hw.2.1 _ (deref_mem ha) b (by simp [hl])
      exact ends_of_link ((hk.2 a ha).2.2.2 b hl) (ih b hb h)

theorem acyclic_of_keeps {s x : State} (hw : s.wf) (hk : Keeps s x)
    (hnew : ∀ a, (s.deref a).ppi = none → Ends x a)
    (hs : ∀ a, a < s.heap.length → Ends s a) : ∀ a, a < x.heap.length → Ends x a := by
  intro a _
  by_cases ha : a < s.heap.length
  · obtain ⟨n, hn⟩ := hs a ha
    exact ends_of_keeps hw hk hnew n a ha hn
  · apply hnew
    rw [deref_ge (by omega)]
    rfl

theorem rootsUnlinked_setPpi {s : State} {pi ppi : Nat} (hu : s.rootsUnlinked)
    (hpid : ¬ (s.deref pi).pid ≤ 1) : (setPpi pi ppi s).rootsUnlinked := by
  intro a ha
  rw [deref_setPpi] at ha ⊢
  by_cases hc : a = pi ∧ pi < s.heap.length
  · rw [if_pos hc] at ha
    obtain ⟨rfl, _⟩ := hc
    exact absurd ha hpid
  · rw [if_neg hc] at ha ⊢
    exact hu a ha

theorem rootsUnlinked_of_heap_eq {s x : State} (hu : s.rootsUnlinked) (h : x.heap = s.heap) :
    x.rootsUnlinked := by
  intro a ha
  have : x.deref a = s.deref a := by unfold State.deref; rw [h]
  rw [this] at ha ⊢
  exact hu a ha

theorem deref_recordProc (pid : Int) (cmd : Bytes) (ppid : Int) (s : State) (a : Nat) :
    (recordProc pid cmd ppid s).deref a =
      if a = s.heap.length then { pid := pid, ppid := ppid, ppi := none, ci := cmd, st := 0 }
      else s.deref a := by
  by_cases h1 : a < s.heap.length
  · rw [deref_recordProc_lt _ _ _ _ _ h1, if_neg (by omega)]
  · by_cases h2 : a = s.heap.length
    · subst h2; rw [deref_recordProc_new, if_pos rfl]
    · have hl : (recordProc pid cmd ppid s).heap.length = s.heap.length + 1 := by
        simp [recordProc]
      rw [if_neg h2, deref_ge (by rw [hl]; omega), deref_ge (by omega)]

theorem rootsUnlinked_recordProc {s : State} (pid : Int) (cmd : Bytes) (ppid : Int)
    (hu : s.rootsUnlinked) : (recordProc pid cmd ppid s).rootsUnlinked := by
  intro a ha
  rw [deref_recordProc] at ha ⊢
  split
  · rfl
  · rename_i hc
    rw [if_neg hc] at ha
    exact hu a ha

theorem rootsUnlinked_setSt {s : State} (pi st : Nat) (hu : s.rootsUnlinked) :
    (setSt pi st s).rootsUnlinked := by
  intro a ha
  rw [deref_setSt] at ha ⊢
  split
  · rename_i hc
    rw [if_pos hc] at ha
    exact hu a ha
  · rename_i hc
    rw [if_neg hc] at ha
    exact hu a ha

/-- A climb that returns leaves chains that end: the chain of the record it started from,
and the chain of every record that had no parent link before. -/
theorem climb_ends (fs : ProcFS) (spid : Int) :
    ∀ (fuel pi : Nat) (s s' : State), s.wf → s.rootsUnlinked → pi < s.heap.length →
      climb fs spid fuel pi (s.deref pi).pid s = .ok s' →
      s'.rootsUnlinked ∧ Keeps s s' ∧ Ends s' pi ∧ ∀ a, (s.deref a).ppi = none → Ends s' a := by
  intro fuel
  induction fuel with
  | zero => intro pi s s' _ _ _ h; simp [climb] at h
  | succ n ih =>
    intro pi s s' hw hu hpi h
    rw [climb] at h
    by_cases hpid : (s.deref pi).pid ≤ 1
    · simp only [hpid, if_true] at h
      cases h
      exact ⟨hu, Keeps.refl _, ends_of_none (hu pi hpid), fun a ha => ends_of_none ha⟩
    · simp only [hpid, if_false] at h
      have tail : ∀ (ppi : Nat) (s1 : State), s1.wf → s1.rootsUnlinked → Keeps s s1 →
          ppi < s1.heap.length → (s1.deref pi).ppi = some ppi →
          (∀ a, a ≠ pi → (s.deref a).ppi = none → (s1.deref a).ppi = none) →
          climb fs spid n ppi ((attributeExec spid ppi s1).deref ppi).pid (attributeExec spid ppi s1)
            = .ok s' →
          s'.rootsUnlinked ∧ Keeps s s' ∧ Ends s' pi ∧ ∀ a, (s.deref a).ppi = none → Ends s' a := by
        intro ppi s1 hw1 hu1 hk1 hppi hlink hframe hcl
        have hw2 : (attributeExec spid ppi s1).wf := wf_attributeExec spid ppi hw1
        have hu2 : (attributeExec spid ppi s1).rootsUnlinked := rootsUnlinked_of_heap_eq hu1 rfl
        obtain ⟨hu', hk2, hends, hnew⟩ := ih ppi (attributeExec spid ppi s1) s' hw2 hu2 hppi hcl
        have hk12 : Keeps s1 (attributeExec spid ppi s1) := Keeps.of_heap_eq rfl
        have hk1' : Keeps s1 s' := hk12.trans hk2
        have hpi1 : pi < s1.heap.length := lt_of_lt_of_le hpi hk1.1
        have e2 : (s'.deref pi).ppi = some ppi := (hk1'.2 pi hpi1).2.2.2 ppi hlink
        have hpiEnds : Ends s' pi := ends_of_link e2 hends
        refine ⟨hu', hk1.trans hk1', hpiEnds, fun a ha => ?_⟩
        by_cases hap : a = pi
        · rw [hap]; exact hpiEnds
        · exact hnew a (hframe a hap ha)
      cases hq : (s.deref pi).ppi with
      | some ppi =>
        simp only [hq] at h
        exact tail ppi s hw hu (Keeps.refl _) (hw.2.1 _ (deref_mem hpi) ppi (by simp [hq])) hq
          (fun _ _ ha => ha) h
      | none =>
        simp only [hq] at h
        cases hl : mapGet s.procInfos (s.deref pi).ppid with
        | some ppi =>
          simp only [hl] at h
          have hppi : ppi < s.heap.length := hw.1 _ (mapGet_mem hl)
          refine tail ppi (setPpi pi ppi s) (wf_setPpi hw hppi) (rootsUnlinked_setPpi hu hpid)
            (Keeps.setPpi ppi hq) (by simpa [setPpi] using hppi) ?_ ?_ h
          · rw [deref_setPpi]; simp [hpi]
          · intro a hap ha
            rw [deref_setPpi]; simp [hap, ha]
        | none =>
          simp only [hl] at h
          cases hm : makeProcInfo fs (s.deref pi).ppid false s with
          | error e => simp [hm] at h
          | ok p =>
            obtain ⟨r, s1⟩ := p
            obtain ⟨cmd, ppid, sv, hg, hcase⟩ := makeProcInfo_inv hm
            have hsv := (getProcessStat_inv hg).1
            have hsvw : sv.wf :=
              wf_of_same hw (by rw [hsv]) (by rw [hsv]) (by rw [hsv]; exact fun _ h => h)
            have hsvk : Keeps s sv := Keeps.of_heap_eq (by rw [hsv])
            have hsvh : sv.heap = s.heap := by rw [hsv]
            have hsvu : sv.rootsUnlinked := rootsUnlinked_of_heap_eq hu hsvh
            have hsvd : ∀ a, sv.deref a = s.deref a := by
              intro a; unfold State.deref; rw [hsvh]
            rcases hcase with ⟨rfl, rfl, _, _⟩ | ⟨rfl, rfl, _⟩
            · simp only [hm] at h
              have hs' : s' = s1 := by cases h; rfl
              rw [hs']
              refine ⟨hsvu, hsvk, ends_of_none (by rw [hsvd]; exact hq),
                fun a ha => ends_of_none (by rw [hsvd]; exact ha)⟩
            · simp only [hm] at h
              have hrk : Keeps sv (recordProc (s.deref pi).ppid cmd ppid sv) := Keeps.recordProc _ _ _ _
              have hrw : (recordProc (s.deref pi).ppid cmd ppid sv).wf := wf_recordProc _ _ _ hsvw
              have hlen : (recordProc (s.deref pi).ppid cmd ppid sv).heap.length = s.heap.length + 1 := by
                simp [recordProc, hsvh]
              have hpi2 : pi < (recordProc (s.deref pi).ppid cmd ppid sv).heap.length := by
                rw [hlen]; omega
              have hrd : (recordProc (s.deref pi).ppid cmd ppid sv).deref pi = s.deref pi := by
                rw [deref_recordProc_lt _ _ _ _ _ (by rw [hsvh]; exact hpi), hsvd]
              have hnone : ((recordProc (s.deref pi).ppid cmd ppid sv).deref pi).ppi = none := by
                rw [hrd]; exact hq
              refine tail s.heap.length (setPpi pi s.heap.length (recordProc (s.deref pi).ppid cmd ppid sv))
                (wf_setPpi hrw (by rw [hlen]; omega))
                (rootsUnlinked_setPpi (rootsUnlinked_recordProc _ _ _ hsvu) (by rw [hrd]; exact hpid))
                ((hsvk.trans hrk).trans (Keeps.setPpi _ hnone))
                (by simp [setPpi, hlen]) ?_ ?_ h
              · rw [deref_setPpi]; simp [hpi2]
              · intro a hap ha
                rw [deref_setPpi, if_neg (by simp [hap]), deref_recordProc, hsvd]
                split
                · rfl
                · exact ha

theorem Keeps.setSt (pi st : Nat) (s : State) : Keeps s (setSt pi st s) := by
  refine ⟨by simp [Trexec.setSt], fun a _ => ?_⟩
  rw [deref_setSt]
  split
  · exact ⟨rfl, rfl, rfl, fun _ hb => hb⟩
  · exact ⟨rfl, rfl, rfl, fun _ hb => hb⟩

theorem exec_acyclic (fuel : Nat) (fs : ProcFS) (pid : Int) (cts nf ne : Nat) (s s' : State)
    (hw : s.wf) (hu : s.rootsUnlinked) (hs : ∀ a, a < s.heap.length → Ends s a)
    (h : goProcEventExec fuel fs pid cts nf ne s = .ok s') :
    s'.rootsUnlinked ∧ ∀ a, a < s'.heap.length → Ends s' a := by
  obtain ⟨cmd, ppid, sv, hg, hcl⟩ := exec_inv h
  have hsv := (getProcessStat_inv hg).1
  have hsvh : sv.heap = s.heap := by rw [hsv]; rfl
  have hsvd : ∀ a, sv.deref a = s.deref a := by
    intro a; unfold State.deref; rw [hsvh]
  have hsvw : sv.wf :=
    wf_of_same hw (by rw [hsv]; rfl) (by rw [hsv]; rfl) (by rw [hsv]; exact fun _ h => h)
  have hsvu : sv.rootsUnlinked := rootsUnlinked_of_heap_eq hu hsvh
  generalize hX : setSt s.heap.length (cts % two64) (recordProc pid cmd ppid sv) = X at hcl
  have hXw : X.wf := by rw [← hX]; exact wf_setSt _ _ (wf_recordProc _ _ _ hsvw)
  have hXu : X.rootsUnlinked := by
    rw [← hX]; exact rootsUnlinked_setSt _ _ (rootsUnlinked_recordProc _ _ _ hsvu)
  have hXlen : X.heap.length = s.heap.length + 1 := by
    rw [← hX]; simp [setSt, recordProc, hsvh]
  have hXk : Keeps s X := by
    rw [← hX]
    exact ((Keeps.of_heap_eq hsvh).trans (Keeps.recordProc _ _ _ _)).trans (Keeps.setSt _ _ _)
  have hXd : ∀ a, (X.deref a).ppi = if a = s.heap.length then none else (s.deref a).ppi := by
    intro a
    rw [← hX, deref_setSt]
    have hr := deref_recordProc pid cmd ppid sv a
    rw [hsvh, hsvd] at hr
    split <;> (rw [hr]; split <;> rfl)
  have hXpid : (X.deref s.heap.length).pid = pid := by
    rw [← hX, deref_setSt, ← hsvh, deref_recordProc_new]
    simp [recordProc]
  have hXa : ∀ a, a < X.heap.length → Ends X a := by
    apply acyclic_of_keeps hw hXk _ hs
    intro a ha
    apply ends_of_none
    rw [hXd]; split
    · rfl
    · exact ha
  have hcl' : climb fs pid fuel s.heap.length (X.deref s.heap.length).pid X = .ok s' := by
    rw [hXpid]; exact hcl
  obtain ⟨hu', hk, _, hnew⟩ := climb_ends fs pid fuel s.heap.length X s' hXw hXu
    (by rw [hXlen]; omega) hcl'
  exact ⟨hu', acyclic_of_keeps hXw hk hnew hXa⟩

theorem ends_of_heap_eq {s x : State} (h : x.heap = s.heap) {a : Nat} (ha : Ends s a) :
    Ends x a := by
  obtain ⟨n, hn⟩ := ha
  exact ⟨n, (endsWithin_of_heap_eq h n (some a)).trans hn⟩

theorem step_acyclic (log10i : Nat → Int) (fuel : Nat) (e : Event) (s s' : State)
    (hw : s.wf) (hu : s.rootsUnlinked) (hs : ∀ a, a < s.heap.length → Ends s a)
    (h : step log10i fuel e s = .ok s') :
    s'.rootsUnlinked ∧ ∀ a, a < s'.heap.length → Ends s' a := by
  cases e with
  | exec fs pid cts nf ne => exact exec_acyclic _ _ _ _ _ _ _ _ hw hu hs h
  | exit pid cts =>
    have hh := (exit_count _ _ _ _ _ _ h).2.1
    exact ⟨rootsUnlinked_of_heap_eq hu hh,
      fun a ha => ends_of_heap_eq hh (hs a (by rw [← hh]; exact ha))⟩
  | sweep alive =>
    simp only [step] at h
    cases h
    have hh := (cleanProcInfos_frame alive s).2.1
    exact ⟨rootsUnlinked_of_heap_eq hu hh,
      fun a ha => ends_of_heap_eq hh (hs a (by rw [← hh]; exact ha))⟩

/-- In every state a run reaches, the parent links of every record end. -/
theorem run_acyclic (log10i : Nat → Int) (fuel : Nat) (evs : List Event) :
    ∀ (s s' : State), s.wf → s.rootsUnlinked → (∀ a, a < s.heap.length → Ends s a) →
      run log10i fuel evs s = .ok s' →
      s'.wf ∧ s'.rootsUnlinked ∧ ∀ a, a < s'.heap.length → Ends s' a := by
  induction evs with
  | nil => intro s s' hw hu hs h; simp [run] at h; cases h; exact ⟨hw, hu, hs⟩
  | cons e es ih =>
    intro s s' hw hu hs h
    simp only [run] at h
    split at h
    · cases h
    · rename_i s1 hs1
      have := step_acyclic _ _ _ _ _ hw hu hs hs1
      exact ih s1 s' (step_wf _ _ _ _ _ hw hs1) this.1 this.2 h

theorem rootsUnlinked_boot (t0 : Nat) : (State.boot t0).rootsUnlinked := by
  intro a _
  rw [deref_ge (by simp [State.boot])]
  rfl

/-! ## No cycle -/

theorem endsWithin_mono (s : State) : ∀ (n : Nat) (p : Option Nat),
    endsWithin s n p = true → endsWithin s (n + 1) p = true := by
  intro n
  induction n with
  | zero =>
    intro p h
    cases p with
    | none => rfl
    | some a => simp [endsWithin] at h
  | succ k ih =>
    intro p h
    cases p with
    | none => rfl
    | some a =>
      simp only [endsWithin] at h ⊢
      exact ih _ h

theorem endsWithin_le (s : State) {n m : Nat} (hnm : n ≤ m) (p : Option Nat)
    (h : endsWithin s n p = true) : endsWithin s m p = true := by
  induction hnm with
  | refl => exact h
  | step _ ih => exact endsWithin_mono s _ p ih

theorem endsWithin_follow (s : State) : ∀ (j m : Nat) (p : Option Nat),
    endsWithin s (j + m) p = endsWithin s m (follow s j p) := by
  intro j
  induction j with
  | zero => intro m p; simp [follow]
  | succ k ih =>
    intro m p
    cases p with
    | none =>
      cases m <;> simp [follow, endsWithin]
    | some a =>
      have : k + 1 + m = (k + m) + 1 := by omega
      rw [this]
      simp only [endsWithin, follow]
      exact ih m _

/-- A record whose parent links end is on no cycle: following one link or more never comes
back to it. -/
theorem not_on_cycle {s : State} {a : Nat} (h : Ends s a) (k : Nat) :
    follow s (k + 1) (some a) ≠ some a := by
  intro hc
  obtain ⟨n, hn⟩ := h
  have key : ∀ m, endsWithin s m (some a) = false := by
    intro m
    induction m using Nat.strong_induction_on with
    | _ m ih =>
      by_cases hm : m < k + 1
      · by_contra hne
        have ht : endsWithin s m (some a) = true := by
          cases hv : endsWithin s m (some a) with
          | true => rfl
          | false => exact absurd hv hne
        have h1 := endsWithin_le s (Nat.le_of_lt hm) _ ht
        have h2 := endsWithin_follow s (k + 1) 0 (some a)
        simp only [Nat.add_zero, hc] at h2
        rw [h1] at h2
        simp [endsWithin] at h2
      · have hsplit : m = (k + 1) + (m - (k + 1)) := by omega
        rw [hsplit, endsWithin_follow, hc]
        exact ih _ (by omega)
  rw [key n] at hn
  cases hn

/-! ## A climb that does not return -/

theorem follow_of_heap_eq {s x : State} (h : x.heap = s.heap) (k : Nat) (p : Option Nat) :
    follow x k p = follow s k p := by
  induction k generalizing p with
  | zero => rfl
  | succ j ih =>
    cases p with
    | none => rfl
    | some a =>
      have : x.deref a = s.deref a := by unfold State.deref; rw [h]
      simp only [follow, this, ih]

/-- When the parent links from `pi` go on for ever through records of pid above 1, the
climb from `pi` returns for no step budget. -/
theorem climb_diverges (fs : ProcFS) (spid : Int) :
    ∀ (fuel pi : Nat) (s : State),
      (∀ k, ∃ b, follow s k (some pi) = some b ∧ ¬ (s.deref b).pid ≤ 1 ∧ (s.deref b).ppi ≠ none) →
      climb fs spid fuel pi (s.deref pi).pid s = .error Fault.outOfFuel := by
  intro fuel
  induction fuel with
  | zero => intro pi s _; rfl
  | succ n ih =>
    intro pi s h
    obtain ⟨b, hb, hpid, hlink⟩ := h 0
    simp only [follow, Option.some.injEq] at hb
    subst hb
    obtain ⟨q, hq⟩ := Option.ne_none_iff_exists'.mp hlink
    rw [climb]
    simp only [hpid, if_false, hq]
    apply ih
    intro k
    obtain ⟨c, hc, hcp, hcl⟩ := h (k + 1)
    simp only [follow, hq] at hc
    have hd : ∀ a, (attributeExec spid q s).deref a = s.deref a := fun _ => rfl
    refine ⟨c, ?_, by rw [hd]; exact hcp, by rw [hd]; exact hcl⟩
    exact (follow_of_heap_eq (by rfl) k (some q)).trans hc

theorem follow_self_loop {s : State} {a : Nat} (h : (s.deref a).ppi = some a) :
    ∀ k, follow s k (some a) = some a := by
  intro k
  induction k with
  | zero => rfl
  | succ j ih => simp only [follow, h]; exact ih

/-- With a `/proc` that reports pid 5 as its own parent, `exec(5)` in the boot state
returns for no step budget: the record of pid 5 becomes its own parent and the climb goes
round. -/
theorem selfParent_never_returns (fuel : Nat) :
    goProcEventExec fuel procSelfParent 5 10 1 0 (State.boot 0) = .error Fault.outOfFuel := by
  have hmk : makeProcInfo procSelfParent 5 true (countExec 1 0 (State.boot 0))
      = .ok (some 0, recordProc 5 (bytes "loop") 5 (countExec 1 0 (State.boot 0))) := by
    decide
  have hgo : goProcEventExec fuel procSelfParent 5 10 1 0 (State.boot 0)
      = climb procSelfParent 5 fuel 0 5 (execStart 5 (bytes "loop") 5 10 1 0 (State.boot 0)) := by
    unfold goProcEventExec
    simp only [hmk]
    rfl
  rw [hgo]
  cases fuel with
  | zero => rfl
  | succ n =>
    have h1 : ((execStart 5 (bytes "loop") 5 10 1 0 (State.boot 0)).deref 0).ppi = none := by decide
    have h2 : mapGet (execStart 5 (bytes "loop") 5 10 1 0 (State.boot 0)).procInfos
        ((execStart 5 (bytes "loop") 5 10 1 0 (State.boot 0)).deref 0).ppid = some 0 := by decide
    have h3 : ((attributeExec 5 0 (setPpi 0 0
        (execStart 5 (bytes "loop") 5 10 1 0 (State.boot 0)))).deref 0).ppi = some 0 := by decide
    have h4 : ((attributeExec 5 0 (setPpi 0 0
        (execStart 5 (bytes "loop") 5 10 1 0 (State.boot 0)))).deref 0).pid = 5 := by decide
    rw [climb]
    have h5 : ¬ ((5 : Int) ≤ 1) := by decide
    simp only [h5, if_false, h1, h2]
    apply climb_diverges
    intro k
    refine ⟨0, follow_self_loop h3 k, ?_, ?_⟩
    · rw [h4]; decide
    · rw [h3]; simp

theorem follow_two_cycle {s : State} {a b : Nat} (hab : (s.deref a).ppi = some b)
    (hba : (s.deref b).ppi = some a) :
    ∀ k, (follow s k (some a) = some a ∨ follow s k (some a) = some b) ∧
      (follow s k (some b) = some a ∨ follow s k (some b) = some b) := by
  intro k
  induction k with
  | zero => exact ⟨Or.inl rfl, Or.inr rfl⟩
  | succ j ih =>
    simp only [follow, hab, hba]
    exact ⟨ih.2, ih.1⟩

/-- A cycle through pid reuse: pid 7 was recorded as a child of pid 8, which could not be
read; then pid 8 is reused by a child of pid 7 and execs. The climb of `exec(8)` links the
record of 8 to the record of 7 and the record of 7 to the record of 8, and returns for no
step budget. -/
theorem pidReuse_never_returns (fuel : Nat) :
    goProcEventExec fuel procEightOfSeven 8 2000 2 0 afterExecSeven
      = .error Fault.outOfFuel := by
  have hmk : makeProcInfo procEightOfSeven 8 true (countExec 2 0 afterExecSeven)
      = .ok (some 1, recordProc 8 (bytes "ls") 7 (countExec 2 0 afterExecSeven)) := by
    decide
  have hlen : afterExecSeven.heap.length = 1 := by decide
  have hgo : goProcEventExec fuel procEightOfSeven 8 2000 2 0 afterExecSeven
      = climb procEightOfSeven 8 fuel 1 8 (execStart 8 (bytes "ls") 7 2000 2 0 afterExecSeven) := by
    unfold goProcEventExec
    simp only [hmk]
    unfold execStart
    rw [hlen]
  rw [hgo]
  cases fuel with
  | zero => rfl
  | succ n =>
    have h1 : ((execStart 8 (bytes "ls") 7 2000 2 0 afterExecSeven).deref 1).ppi = none := by decide
    have h2 : mapGet (execStart 8 (bytes "ls") 7 2000 2 0 afterExecSeven).procInfos
        ((execStart 8 (bytes "ls") 7 2000 2 0 afterExecSeven).deref 1).ppid = some 0 := by decide
    have h3 : ((attributeExec 8 0 (setPpi 1 0
        (execStart 8 (bytes "ls") 7 2000 2 0 afterExecSeven))).deref 0).pid = 7 := by decide
    rw [climb]
    have h5 : ¬ ((8 : Int) ≤ 1) := by decide
    simp only [h5, if_false, h1, h2, h3]
    cases n with
    | zero => rfl
    | succ m =>
      have g1 : ((attributeExec 8 0 (setPpi 1 0
          (execStart 8 (bytes "ls") 7 2000 2 0 afterExecSeven))).deref 0).ppi = none := by decide
      have g2 : mapGet (attributeExec 8 0 (setPpi 1 0
          (execStart 8 (bytes "ls") 7 2000 2 0 afterExecSeven))).procInfos
          ((attributeExec 8 0 (setPpi 1 0
            (execStart 8 (bytes "ls") 7 2000 2 0 afterExecSeven))).deref 0).ppid = some 1 := by
        decide
      rw [climb]
      have h7 : ¬ ((7 : Int) ≤ 1) := by decide
      simp only [h7, if_false, g1, g2]
      have k1 : ((attributeExec 8 1 (setPpi 0 1 (attributeExec 8 0 (setPpi 1 0
          (execStart 8 (bytes "ls") 7 2000 2 0 afterExecSeven))))).deref 1).ppi = some 0 := by
        decide
      have k0 : ((attributeExec 8 1 (setPpi 0 1 (attributeExec 8 0 (setPpi 1 0
          (execStart 8 (bytes "ls") 7 2000 2 0 afterExecSeven))))).deref 0).ppi = some 1 := by
        decide
      have p1 : ((attributeExec 8 1 (setPpi 0 1 (attributeExec 8 0 (setPpi 1 0
          (execStart 8 (bytes "ls") 7 2000 2 0 afterExecSeven))))).deref 1).pid = 8 := by
        decide
      have p0 : ((attributeExec 8 1 (setPpi 0 1 (attributeExec 8 0 (setPpi 1 0
          (execStart 8 (bytes "ls") 7 2000 2 0 afterExecSeven))))).deref 0).pid = 7 := by
        decide
      apply climb_diverges
      intro k
      rcases (follow_two_cycle k1 k0 k).1 with h | h
      · exact ⟨1, h, by rw [p1]; decide, by rw [k1]; simp⟩
      · exact ⟨0, h, by rw [p0]; decide, by rw [k0]; simp⟩

/-! ## The rows of a report -/

theorem printGroup_spec (top : Int) : ∀ (l : List cmdInfo) (i : Int),
    ((printGroup top l i).2.2 = true →
      (printGroup top l i).1 = l.take ((top - i).toNat + 1) ∧ (top - i).toNat + 1 ≤ l.length) ∧
    ((printGroup top l i).2.2 = false →
      (printGroup top l i).1 = l ∧ (printGroup top l i).2.1 = i + l.length ∧
      l.length < (top - i).toNat + 1) := by
  intro l
  induction l with
  | nil => intro i; simp [printGroup]
  | cons ci t ih =>
    intro i
    by_cases h : i + 1 > top
    · simp only [printGroup, h, if_true]
      have : (top - i).toNat = 0 := by omega
      simp [this]
    · simp only [printGroup, h, if_false]
      have hB : (top - i).toNat + 1 = ((top - (i + 1)).toNat + 1) + 1 := by omega
      obtain ⟨h1, h2⟩ := ih (i + 1)
      refine ⟨fun hr => ?_, fun hr => ?_⟩
      · obtain ⟨e1, e2⟩ := h1 hr
        rw [hB, List.take_succ_cons, e1]
        exact ⟨rfl, by simp only [List.length_cons]; omega⟩
      · obtain ⟨e1, e2, e3⟩ := h2 hr
        rw [e1, e2]
        refine ⟨rfl, ?_, ?_⟩
        · simp only [List.length_cons]; push_cast; omega
        · simp only [List.length_cons]; omega

/-- The printing loops print the first `top - i + 1` rows (one row when `top < i`) of the
groups laid end to end in the order of the keys. -/
theorem printKeys_eq_take (top : Int) (n : List (Nat × List cmdInfo)) :
    ∀ (ks : List Nat) (i : Int),
      printKeys top n ks i
        = (ks.flatMap (fun k => (mapGet n k).getD [])).take ((top - i).toNat + 1) := by
  intro ks
  induction ks with
  | nil => intro i; simp [printKeys]
  | cons k t ih =>
    intro i
    simp only [printKeys, List.flatMap_cons]
    obtain ⟨h1, h2⟩ := printGroup_spec top ((mapGet n k).getD []) i
    cases hr : (printGroup top ((mapGet n k).getD []) i).2.2 with
    | true =>
      obtain ⟨e1, e2⟩ := h1 hr
      simp only [if_true]
      rw [e1, List.take_append_of_le_length e2]
    | false =>
      obtain ⟨e1, e2, e3⟩ := h2 hr
      simp only [Bool.false_eq_true, if_false]
      rw [e1, e2, ih, List.take_append_eq_append_take]
      have hle : ((mapGet n k).getD []).length ≤ (top - i).toNat + 1 := by omega
      have hB : (top - (i + ((mapGet n k).getD []).length)).toNat + 1
          = (top - i).toNat + 1 - ((mapGet n k).getD []).length := by omega
      rw [List.take_of_length_le hle, hB]

/-! ## Grouping by key -/

theorem mapSet_keys {κ ν : Type} [DecidableEq κ] (m : List (κ × ν)) (k : κ) (v : ν) :
    (mapSet m k v).map Prod.fst
      = if (mapGet m k).isSome then m.map Prod.fst else m.map Prod.fst ++ [k] := by
  induction m with
  | nil => simp [mapSet, mapGet]
  | cons e t ih =>
    obtain ⟨a, w⟩ := e
    by_cases h1 : a = k
    · subst h1; simp [mapSet, mapGet]
    · simp only [mapSet, mapGet, h1, if_false, List.map_cons, ih]
      split <;> simp

theorem mapGet_none_not_mem {κ ν : Type} [DecidableEq κ] {m : List (κ × ν)} {k : κ}
    (h : mapGet m k = none) : k ∉ m.map Prod.fst := by
  induction m with
  | nil => simp
  | cons e t ih =>
    obtain ⟨a, w⟩ := e
    by_cases h1 : a = k
    · simp [mapGet, h1] at h
    · simp only [mapGet, h1, if_false] at h
      simp only [List.map_cons, List.mem_cons, not_or]
      exact ⟨fun e => h1 e.symm, ih h⟩

theorem mapGet_of_mem_nodup {κ ν : Type} [DecidableEq κ] {m : List (κ × ν)} {k : κ} {v : ν}
    (hn : (m.map Prod.fst).Nodup) (h : (k, v) ∈ m) : mapGet m k = some v := by
  induction m with
  | nil => simp at h
  | cons e t ih =>
    obtain ⟨a, w⟩ := e
    simp only [List.map_cons, List.nodup_cons] at hn
    rcases List.mem_cons.mp h with h | h
    · cases h; simp [mapGet]
    · have hne : ¬ a = k := by
        intro e; subst e
        exact hn.1 (List.mem_map.mpr ⟨(a, v), h, rfl⟩)
      simp only [mapGet, hne, if_false]
      exact ih hn.2 h

theorem flatMap_mapSet_append (n : List (Nat × List cmdInfo)) (k : Nat) (ci : cmdInfo) :
    ((mapSet n k ((mapGet n k).getD [] ++ [ci])).flatMap Prod.snd).Perm
      (n.flatMap Prod.snd ++ [ci]) := by
  induction n with
  | nil => simp [mapSet, mapGet]
  | cons e t ih =>
    obtain ⟨a, w⟩ := e
    by_cases h1 : a = k
    · subst h1
      simp only [mapSet, mapGet, if_true, Option.getD_some, List.flatMap_cons, List.append_assoc]
      exact List.Perm.append_left w List.perm_append_comm
    · simp only [mapSet, mapGet, h1, if_false, List.flatMap_cons, List.append_assoc]
      exact List.Perm.append_left w ih

theorem grouped_groupAdd (key : cmdInfo → Nat) (n : List (Nat × List cmdInfo)) (L : List cmdInfo)
    (ci : cmdInfo) (h : Grouped key n L) (hk : key ci ≠ 0) :
    Grouped key (groupAdd (key ci) ci n) (L ++ [ci]) := by
  obtain ⟨h1, h2, h3⟩ := h
  unfold groupAdd
  simp only [hk, ne_eq, not_false_eq_true, if_true]
  refine ⟨?_, ?_, ?_⟩
  · rw [mapSet_keys]
    cases hg : mapGet n (key ci) with
    | some v => simpa using h1
    | none =>
      simp only [Option.isSome_none, Bool.false_eq_true, if_false]
      rw [List.nodup_append]
      refine ⟨h1, by simp, ?_⟩
      intro a ha hb
      simp only [List.mem_singleton] at hb
      subst hb
      exact mapGet_none_not_mem hg ha
  · intro e he c hc
    rcases mem_mapSet he with he | he
    · exact h2 e he c hc
    · subst he
      simp only [List.mem_append, List.mem_singleton] at hc
      rcases hc with hc | hc
      · cases hg : mapGet n (key ci) with
        | some v =>
          rw [hg] at hc
          exact h2 _ (mapGet_mem hg) c hc
        | none => rw [hg] at hc; simp at hc
      · rw [hc]
  · exact (flatMap_mapSet_append n (key ci) ci).trans (List.Perm.append_right [ci] h3)

theorem grouped_foldl (key : cmdInfo → Nat) (skip : cmdInfo → Bool) :
    ∀ (cs : List (Bytes × cmdInfo)) (n : List (Nat × List cmdInfo)) (L : List cmdInfo),
      Grouped key n L →
      Grouped key (cs.foldl (fun n e => if skip e.2 then n else groupAdd (key e.2) e.2 n) n)
        (L ++ eligible key skip cs) := by
  intro cs
  induction cs with
  | nil => intro n L h; simpa [eligible] using h
  | cons e t ih =>
    intro n L h
    simp only [List.foldl_cons]
    by_cases hs : skip e.2 = true
    · have : eligible key skip (e :: t) = eligible key skip t := by
        simp [eligible, hs]
      rw [this]
      simp only [hs, if_true]
      exact ih n L h
    · by_cases hk : key e.2 = 0
      · have : eligible key skip (e :: t) = eligible key skip t := by
          simp [eligible, hk]
        rw [this]
        simp only [hs, Bool.false_eq_true, if_false]
        have hg : groupAdd (key e.2) e.2 n = n := by simp [groupAdd, hk]
        rw [hg]
        exact ih n L h
      · have : eligible key skip (e :: t) = e.2 :: eligible key skip t := by
          simp [eligible, hs, hk]
        rw [this]
        simp only [hs, Bool.false_eq_true, if_false]
        have := ih _ _ (grouped_groupAdd key n L e.2 h hk)
        simpa using this

/-- The map built by the grouping loop holds exactly the eligible commands. -/
theorem grouped_groupByKey (key : cmdInfo → Nat) (skip : cmdInfo → Bool)
    (cs : List (Bytes × cmdInfo)) :
    Grouped key (groupByKey key skip cs) (eligible key skip cs) := by
  have := grouped_foldl key skip cs [] [] ⟨by simp, by simp, by simp⟩
  simpa [groupByKey] using this

theorem flatMap_keys_eq (g : Nat → List cmdInfo) :
    ∀ (l : List (Nat × List cmdInfo)), (∀ e ∈ l, g e.1 = e.2) →
      (l.map Prod.fst).flatMap g = l.flatMap Prod.snd := by
  intro l
  induction l with
  | nil => intro _; rfl
  | cons e t ih =>
    intro h
    simp only [List.map_cons, List.flatMap_cons]
    rw [h e (List.mem_cons_self _ _), ih (fun x hx => h x (List.mem_cons_of_mem _ hx))]

/-- The groups laid end to end in the order of the sorted keys: a rearrangement of the
commands entered, in non-increasing order of their keys. -/
theorem sortedKeys_flat (key : cmdInfo → Nat) (n : List (Nat × List cmdInfo)) (L : List cmdInfo)
    (h : Grouped key n L) :
    ((sortedKeys n).flatMap (fun k => (mapGet n k).getD [])).Perm L ∧
    ((sortedKeys n).flatMap (fun k => (mapGet n k).getD [])).Pairwise
      (fun x y => key x ≥ key y) := by
  obtain ⟨h1, h2, h3⟩ := h
  have hperm : (sortedKeys n).Perm (n.map Prod.fst) := List.perm_insertionSort _ _
  have hsorted : (sortedKeys n).Pairwise (fun x y => x ≥ y) := List.sorted_insertionSort _ _
  have hg : ∀ k, ∀ x ∈ (mapGet n k).getD [], key x = k := by
    intro k x hx
    cases hm : mapGet n k with
    | none => rw [hm] at hx; simp at hx
    | some l =>
      rw [hm] at hx
      exact h2 _ (mapGet_mem hm) x hx
  refine ⟨?_, ?_⟩
  · refine (List.Perm.flatMap_right _ hperm).trans ?_
    rw [flatMap_keys_eq _ n (fun e he => by
      rw [mapGet_of_mem_nodup h1 (show (e.1, e.2) ∈ n from he)]; rfl)]
    exact h3
  · rw [List.pairwise_flatMap]
    refine ⟨fun k _ => ?_, ?_⟩
    · rw [List.pairwise_iff_forall_sublist]
      intro x y hxy
      have hx := hg k x (hxy.subset (List.mem_cons_self _ _))
      have hy := hg k y (hxy.subset (List.mem_cons_of_mem _ (List.mem_singleton_self _)))
      rw [hx, hy]
    · exact hsorted.imp (fun {k1 k2} hk x hx y hy => by rw [hg k1 x hx, hg k2 y hy]; exact hk)

/-- The rows of a report, for either list: they are the first `top + 1` (one when `top` is
negative) of the eligible commands laid out in non-increasing order of their keys. -/
theorem report_rows (key : cmdInfo → Nat) (skip : cmdInfo → Bool) (top : Int)
    (cs : List (Bytes × cmdInfo)) :
    ∃ full : List cmdInfo,
      printKeys top (groupByKey key skip cs) (sortedKeys (groupByKey key skip cs)) 0
        = full.take (top.toNat + 1) ∧
      full.Perm (eligible key skip cs) ∧ full.Pairwise (fun x y => key x ≥ key y) := by
  have h := sortedKeys_flat key _ _ (grouped_groupByKey key skip cs)
  refine ⟨_, ?_, h.1, h.2⟩
  rw [printKeys_eq_take]
  simp

/-- The number of rows of a report: `top + 1` (one when `top` is negative), or all the eligible
commands when there are fewer. -/
theorem report_row_count (key : cmdInfo → Nat) (skip : cmdInfo → Bool) (top : Int)
    (cs : List (Bytes × cmdInfo)) :
    (printKeys top (groupByKey key skip cs) (sortedKeys (groupByKey key skip cs)) 0).length
      = min (top.toNat + 1) (eligible key skip cs).length := by
  obtain ⟨full, h1, h2, _⟩ := report_rows key skip top cs
  rw [h1, List.length_take, h2.length_eq]

/-- Order and dominance of the rows of a report, for either list. -/
theorem report_order (key : cmdInfo → Nat) (skip : cmdInfo → Bool) (top : Int)
    (cs : List (Bytes × cmdInfo)) :
    (printKeys top (groupByKey key skip cs) (sortedKeys (groupByKey key skip cs)) 0).Pairwise
        (fun x y => key x ≥ key y) ∧
    ∃ rest : List cmdInfo,
      (printKeys top (groupByKey key skip cs) (sortedKeys (groupByKey key skip cs)) 0
        ++ rest).Perm (eligible key skip cs) ∧
      ∀ r ∈ printKeys top (groupByKey key skip cs) (sortedKeys (groupByKey key skip cs)) 0,
        ∀ c ∈ rest, key c ≤ key r := by
  obtain ⟨full, h1, h2, h3⟩ := report_rows key skip top cs
  rw [h1]
  refine ⟨h3.sublist (List.take_sublist _ _), full.drop (top.toNat + 1), ?_, ?_⟩
  · rw [List.take_append_drop]; exact h2
  · intro r hr c hc
    have h4 : (full.take (top.toNat + 1) ++ full.drop (top.toNat + 1)).Pairwise
        (fun x y => key x ≥ key y) := by rw [List.take_append_drop]; exact h3
    exact (List.pairwise_append.1 h4).2.2 r hr c hc

/-- Membership in the list of eligible commands. -/
theorem mem_eligible (key : cmdInfo → Nat) (skip : cmdInfo → Bool) (cs : List (Bytes × cmdInfo))
    (c : cmdInfo) :
    c ∈ eligible key skip cs ↔ (∃ e ∈ cs, e.2 = c) ∧ skip c = false ∧ key c ≠ 0 := by
  simp [eligible]

/-- The parent walk from a record whose parent links end returns, for every fuel from some
point on. -/
theorem walkExit_ends (spid : Int) (et : Nat) (s : State) (a : Nat) (h : Ends s a) :
    ∃ n, ∀ m, n ≤ m → ∃ s', walkExit spid et m (some a) s = .ok s' := by
  obtain ⟨n, hn⟩ := h
  exact ⟨n, fun m hm => walkExit_returns spid et m (some a) s (endsWithin_le s hm _ hn)⟩

/-- On a well-formed state whose parent links all end, the exit handler stops for every fuel
from some point on: it returns, or the histogram index is out of range. -/
theorem exit_terminates (log10i : Nat → Int) (pid : Int) (ts : Nat) (s : State) (hw : s.wf)
    (hs : ∀ a, a < s.heap.length → Ends s a) :
    ∃ n, ∀ m, n ≤ m →
      (∃ s', goProcEventExit log10i m pid ts s = .ok s') ∨
      goProcEventExit log10i m pid ts s = .error Fault.indexOutOfRange := by
  cases hm : mapGet s.procInfos pid with
  | none =>
    refine ⟨0, fun m _ => Or.inl (exit_returns log10i m pid ts s ?_ ?_)⟩
    · intro a ha; rw [hm] at ha; cases ha
    · intro a ha; rw [hm] at ha; cases ha
  | some a =>
    obtain ⟨n, hn⟩ := hs a (hw.1 _ (mapGet_mem hm))
    refine ⟨n, fun m hnm => ?_⟩
    by_cases hidx : (s.deref a).st ≠ 0 →
        0 ≤ log10i ((ts % two64 + two64 - (s.deref a).st) % two64) ∧
        log10i ((ts % two64 + two64 - (s.deref a).st) % two64) < 32
    · refine Or.inl (exit_returns log10i m pid ts s ?_ ?_)
      · intro b hb; rw [hm] at hb; cases hb; exact hidx
      · intro b hb; rw [hm] at hb; cases hb; exact endsWithin_le s hnm _ hn
    · rw [Classical.not_imp] at hidx
      exact Or.inr (exit_index_out_of_range log10i m pid ts s a hm hidx.1 hidx.2)

/-! ## The climb under ranked parent pids -/

theorem fastParseUntil_fault {s : Bytes} {i delim : Nat} {e : Fault}
    (h : fastParseUntil s i delim = .error e) : e ≠ Fault.outOfFuel := by
  unfold fastParseUntil at h
  simp only [] at h
  split at h
  · cases h
  · split at h
    · cases h
    · cases h; decide

theorem statLoop_fuel (s : Bytes) : ∀ (n i f : Nat) (cmd : Bytes), 3 < f + n → f ≤ 3 →
    statLoop s n i f cmd ≠ .error Fault.outOfFuel := by
  intro n
  induction n with
  | zero => intro i f cmd h1 h2; omega
  | succ n ih =>
    intro i f cmd h1 h2
    rw [statLoop]
    by_cases hi : i < s.length
    · simp only [hi, if_true]
      by_cases hf1 : f = 1
      · simp only [hf1, if_true]
        cases hp : fastParseUntil s (i + 1) 41 with
        | error e =>
          simp only []
          intro hc
          cases hc
          exact fastParseUntil_fault hp rfl
        | ok r =>
          obtain ⟨c, j⟩ := r
          simp only []
          exact ih _ _ _ (by omega) (by omega)
      · simp only [hf1, if_false]
        by_cases hf3 : f = 3
        · simp [hf3]
        · simp only [hf3, if_false]
          exact ih _ _ _ (by omega) (by omega)
    · simp [hi]

theorem getProcessStat_fault {fs : ProcFS} {pid : Int} {s : State} {e : Fault}
    (h : getProcessStat fs pid s = .error e) : e ≠ Fault.outOfFuel := by
  unfold getProcessStat at h
  split at h
  · cases h
  · rename_i b _
    split at h
    · cases h
    · split at h
      · rename_i e' he
        cases h
        intro hc
        rw [hc] at he
        exact statLoop_fuel b 4 0 0 [] (by omega) (by omega) he
      · cases h

theorem makeProcInfo_fault {fs : ProcFS} {pid : Int} {v : Bool} {s : State} {e : Fault}
    (h : makeProcInfo fs pid v s = .error e) : e ≠ Fault.outOfFuel := by
  unfold makeProcInfo at h
  split at h
  · rename_i e' he
    cases h
    exact getProcessStat_fault he
  · split at h <;> cases h

/-- What `getProcessStat` returns under a ranked `/proc`. -/
theorem getProcessStat_ranked {rank : Int → Nat} {fs : ProcFS} (hfs : Ranked rank fs) {pid : Int}
    {s sv : State} {cmd : Bytes} {ppid : Int}
    (h : getProcessStat fs pid s = .ok ((cmd, ppid), sv)) :
    1 < pid → 1 < ppid → rank ppid < rank pid := by
  unfold getProcessStat at h
  split at h
  · cases h; intro _ h2; omega
  · rename_i b hb
    split at h
    · cases h; intro _ h2; omega
    · split at h
      · cases h
      · rename_i r hr
        cases h
        exact hfs pid b cmd ppid hb hr

theorem ranked_of_sub {rank : Int → Nat} {s x : State} (h : s.ranked rank) (hh : x.heap = s.heap)
    (hp : ∀ e ∈ x.procInfos, e ∈ s.procInfos) : x.ranked rank := by
  have hd : ∀ a, x.deref a = s.deref a := by
    intro a; unfold State.deref; rw [hh]
  obtain ⟨h1, h2, h3⟩ := h
  refine ⟨fun a => ?_, fun a b => ?_, fun e he => ?_⟩
  · rw [hd]; exact h1 a
  · rw [hd, hd]; exact h2 a b
  · rw [hd]; exact h3 e (hp e he)

theorem ranked_setSt {rank : Int → Nat} {s : State} (pi st : Nat) (h : s.ranked rank) :
    (setSt pi st s).ranked rank := by
  have hd : ∀ a, ((setSt pi st s).deref a).pid = (s.deref a).pid ∧
      ((setSt pi st s).deref a).ppid = (s.deref a).ppid ∧
      ((setSt pi st s).deref a).ppi = (s.deref a).ppi := by
    intro a
    rw [deref_setSt]
    split <;> exact ⟨rfl, rfl, rfl⟩
  obtain ⟨h1, h2, h3⟩ := h
  refine ⟨fun a => ?_, fun a b => ?_, fun e he => ?_⟩
  · rw [(hd a).1, (hd a).2.1]; exact h1 a
  · rw [(hd a).2.2, (hd b).1, (hd a).2.1]; exact h2 a b
  · rw [(hd e.2).1]; exact h3 e he

theorem ranked_setPpi {rank : Int → Nat} {s : State} {pi ppi : Nat} (h : s.ranked rank)
    (hl : (s.deref ppi).pid = (s.deref pi).ppid) : (setPpi pi ppi s).ranked rank := by
  have hd : ∀ a, ((setPpi pi ppi s).deref a).pid = (s.deref a).pid ∧
      ((setPpi pi ppi s).deref a).ppid = (s.deref a).ppid := by
    intro a
    rw [deref_setPpi]
    split <;> exact ⟨rfl, rfl⟩
  obtain ⟨h1, h2, h3⟩ := h
  refine ⟨fun a => ?_, fun a b hb => ?_, fun e he => ?_⟩
  · rw [(hd a).1, (hd a).2]; exact h1 a
  · rw [(hd b).1, (hd a).2]
    rw [deref_setPpi] at hb
    by_cases hc : a = pi ∧ pi < s.heap.length
    · rw [if_pos hc] at hb
      simp only [Option.some.injEq] at hb
      rw [← hb, hc.1]; exact hl
    · rw [if_neg hc] at hb
      exact h2 a b hb
  · rw [(hd e.2).1]; exact h3 e he

theorem ranked_recordProc {rank : Int → Nat} {s : State} (pid : Int) (cmd : Bytes) (ppid : Int)
    (hw : s.wf) (h : s.ranked rank) (hr : 1 < pid → 1 < ppid → rank ppid < rank pid) :
    (recordProc pid cmd ppid s).ranked rank := by
  obtain ⟨h1, h2, h3⟩ := h
  refine ⟨fun a => ?_, fun a b hb => ?_, fun e he => ?_⟩
  · rw [deref_recordProc]
    split
    · exact hr
    · exact h1 a
  · rw [deref_recordProc] at hb
    by_cases ha : a = s.heap.length
    · rw [if_pos ha] at hb; cases hb
    · rw [if_neg ha] at hb
      have hlt : a < s.heap.length := by
        by_contra hge
        rw [deref_ge (by omega)] at hb
        cases hb
      have hbl : b < s.heap.length := hw.2.1 _ (deref_mem hlt) b (by simp [hb])
      rw [deref_recordProc_lt _ _ _ _ _ hbl, deref_recordProc_lt _ _ _ _ _ hlt]
      exact h2 a b hb
  · have he' : e ∈ mapSet s.procInfos pid s.heap.length := he
    rcases mem_mapSet he' with hm | hm
    · rw [deref_recordProc_lt _ _ _ _ _ (hw.1 e hm)]
      exact h3 e hm
    · rw [hm]
      simp only []
      rw [deref_recordProc_new]

theorem ranked_boot (rank : Int → Nat) (t0 : Nat) : (State.boot t0).ranked rank := by
  have hd : ∀ a, (State.boot t0).deref a = default := fun a => deref_ge (by simp [State.boot])
  refine ⟨fun a => ?_, fun a b hb => ?_, fun e he => ?_⟩
  · rw [hd]; intro h; exact absurd h (by decide)
  · rw [hd] at hb; cases hb
  · simp [State.boot] at he

/-- One iteration of the climb on a record of pid above 1, under a ranked `/proc`: it goes on
from a record of the parent pid, or returns (the ancestor has vanished), or the stat parser
panics. -/
theorem climb_next (rank : Int → Nat) (fs : ProcFS) (spid : Int) (n pi : Nat) (s : State)
    (hw : s.wf) (hr : s.ranked rank) (hfs : Ranked rank fs) (hpi : pi < s.heap.length)
    (hpid : ¬ (s.deref pi).pid ≤ 1) :
    (∃ ppi X, X.wf ∧ X.ranked rank ∧ ppi < X.heap.length ∧
      (X.deref ppi).pid = (s.deref pi).ppid ∧
      climb fs spid (n + 1) pi (s.deref pi).pid s = climb fs spid n ppi (X.deref ppi).pid X) ∨
    (∃ s1, s1.wf ∧ s1.ranked rank ∧ climb fs spid (n + 1) pi (s.deref pi).pid s = .ok s1) ∨
    (∃ e, e ≠ Fault.outOfFuel ∧ climb fs spid (n + 1) pi (s.deref pi).pid s = .error e) := by
  rw [climb]
  simp only [hpid, if_false]
  have attr : ∀ (ppi : Nat) (s1 : State), s1.wf → s1.ranked rank → ppi < s1.heap.length →
      (s1.deref ppi).pid = (s.deref pi).ppid →
      (attributeExec spid ppi s1).wf ∧ (attributeExec spid ppi s1).ranked rank ∧
      ppi < (attributeExec spid ppi s1).heap.length ∧
      ((attributeExec spid ppi s1).deref ppi).pid = (s.deref pi).ppid := by
    intro ppi s1 hw1 hr1 hp1 hl1
    exact ⟨wf_attributeExec spid ppi hw1, ranked_of_sub hr1 rfl (fun _ h => h), hp1, hl1⟩
  cases hq : (s.deref pi).ppi with
  | some ppi =>
    simp only []
    have hppi : ppi < s.heap.length := hw.2.1 _ (deref_mem hpi) ppi (by simp [hq])
    obtain ⟨a1, a2, a3, a4⟩ := attr ppi s hw hr hppi (hr.2.1 pi ppi hq)
    exact Or.inl ⟨ppi, _, a1, a2, a3, a4, rfl⟩
  | none =>
    simp only []
    cases hl : mapGet s.procInfos (s.deref pi).ppid with
    | some ppi =>
      simp only []
      have hppi : ppi < s.heap.length := hw.1 _ (mapGet_mem hl)
      have hlink : (s.deref ppi).pid = (s.deref pi).ppid := hr.2.2 _ (mapGet_mem hl)
      have hpp : ((setPpi pi ppi s).deref ppi).pid = (s.deref pi).ppid := by
        rw [deref_setPpi]; split <;> exact hlink
      obtain ⟨a1, a2, a3, a4⟩ := attr ppi (setPpi pi ppi s) (wf_setPpi hw hppi)
        (ranked_setPpi hr hlink) (by simpa [setPpi] using hppi) hpp
      exact Or.inl ⟨ppi, _, a1, a2, a3, a4, rfl⟩
    | none =>
      simp only []
      cases hm : makeProcInfo fs (s.deref pi).ppid false s with
      | error e => exact Or.inr (Or.inr ⟨e, makeProcInfo_fault hm, rfl⟩)
      | ok p =>
        obtain ⟨r, s1⟩ := p
        obtain ⟨cmd, ppid, sv, hg, hcase⟩ := makeProcInfo_inv hm
        have hsv := (getProcessStat_inv hg).1
        have hsvh : sv.heap = s.heap := by rw [hsv]
        have hsvw : sv.wf :=
          wf_of_same hw (by rw [hsv]) (by rw [hsv]) (by rw [hsv]; exact fun _ h => h)
        have hsvr : sv.ranked rank := ranked_of_sub hr hsvh (by rw [hsv]; exact fun _ h => h)
        have hsvd : ∀ a, sv.deref a = s.deref a := by
          intro a; unfold State.deref; rw [hsvh]
        rcases hcase with ⟨rfl, rfl, _, _⟩ | ⟨rfl, rfl, _⟩
        · exact Or.inr (Or.inl ⟨_, hsvw, hsvr, rfl⟩)
        · simp only []
          have hrw : (recordProc (s.deref pi).ppid cmd ppid sv).wf := wf_recordProc _ _ _ hsvw
          have hrr : (recordProc (s.deref pi).ppid cmd ppid sv).ranked rank :=
            ranked_recordProc _ _ _ hsvw hsvr (getProcessStat_ranked hfs hg)
          have hlen : (recordProc (s.deref pi).ppid cmd ppid sv).heap.length
              = s.heap.length + 1 := by
            simp [recordProc, hsvh]
          have hnew : ((recordProc (s.deref pi).ppid cmd ppid sv).deref s.heap.length).pid
              = (s.deref pi).ppid := by
            rw [← hsvh, deref_recordProc_new]
          have hold : ((recordProc (s.deref pi).ppid cmd ppid sv).deref pi).ppid
              = (s.deref pi).ppid := by
            rw [deref_recordProc_lt _ _ _ _ _ (by rw [hsvh]; exact hpi), hsvd]
          have hpp : ((setPpi pi s.heap.length
              (recordProc (s.deref pi).ppid cmd ppid sv)).deref s.heap.length).pid
              = (s.deref pi).ppid := by
            rw [deref_setPpi]; split <;> exact hnew
          obtain ⟨a1, a2, a3, a4⟩ := attr s.heap.length
            (setPpi pi s.heap.length (recordProc (s.deref pi).ppid cmd ppid sv))
            (wf_setPpi hrw (by rw [hlen]; omega))
            (ranked_setPpi hrr (by rw [hnew, hold]))
            (by simp [setPpi, hlen]) hpp
          exact Or.inl ⟨s.heap.length, _, a1, a2, a3, a4, rfl⟩

/-- A climb that returns under a ranked `/proc` keeps the records ranked. -/
theorem climb_ranked (rank : Int → Nat) (fs : ProcFS) (spid : Int) (hfs : Ranked rank fs) :
    ∀ (fuel pi : Nat) (s s' : State), s.wf → s.ranked rank → pi < s.heap.length →
      climb fs spid fuel pi (s.deref pi).pid s = .ok s' → s'.wf ∧ s'.ranked rank := by
  intro fuel
  induction fuel with
  | zero => intro pi s s' _ _ _ h; simp [climb] at h
  | succ n ih =>
    intro pi s s' hw hr hpi h
    by_cases hpid : (s.deref pi).pid ≤ 1
    · rw [climb] at h
      simp only [hpid, if_true] at h
      cases h
      exact ⟨hw, hr⟩
    · rcases climb_next rank fs spid n pi s hw hr hfs hpi hpid with
        ⟨ppi, X, hXw, hXr, hp, _, he⟩ | ⟨s1, h1w, h1r, he⟩ | ⟨e, _, he⟩
      · rw [he] at h
        exact ih ppi X s' hXw hXr hp h
      · rw [he] at h
        cases h
        exact ⟨h1w, h1r⟩
      · rw [he] at h
        cases h

/-- The number of iterations that suffice for the climb from a record of pid `pid`. -/
theorem climb_terminates (rank : Int → Nat) (fs : ProcFS) (spid : Int) (hfs : Ranked rank fs) :
    ∀ (fuel pi : Nat) (s : State), s.wf → s.ranked rank → pi < s.heap.length →
      (if (s.deref pi).pid ≤ 1 then 1 else rank (s.deref pi).pid + 2) ≤ fuel →
      climb fs spid fuel pi (s.deref pi).pid s ≠ .error Fault.outOfFuel := by
  intro fuel
  induction fuel with
  | zero =>
    intro pi s _ _ _ h
    split at h <;> omega
  | succ n ih =>
    intro pi s hw hr hpi h
    by_cases hpid : (s.deref pi).pid ≤ 1
    · rw [climb]
      simp [hpid]
    · rw [if_neg hpid] at h
      rcases climb_next rank fs spid n pi s hw hr hfs hpi hpid with
        ⟨ppi, X, hXw, hXr, hp, hl, he⟩ | ⟨s1, _, _, he⟩ | ⟨e, hne, he⟩
      · rw [he]
        refine ih ppi X hXw hXr hp ?_
        rw [hl]
        by_cases hpp : (s.deref pi).ppid ≤ 1
        · rw [if_pos hpp]; omega
        · rw [if_neg hpp]
          have := hr.1 pi (by omega) (by omega)
          omega
      · rw [he]; intro hc; cases hc
      · rw [he]; intro hc; cases hc; exact hne rfl

/-- The state in which the climb of `goProcEventExec` starts is well-formed and ranked, and
its new record, at the old end of the heap, has the pid of the event. -/
theorem execStart_ranked {rank : Int → Nat} {fs : ProcFS} (hfs : Ranked rank fs) {pid : Int}
    (cts : Nat) {nf ne : Nat} {s sv : State} {cmd : Bytes} {ppid : Int} (hw : s.wf) (hr : s.ranked rank)
    (hg : getProcessStat fs pid (countExec nf ne s) = .ok ((cmd, ppid), sv)) :
    (setSt s.heap.length (cts % two64) (recordProc pid cmd ppid sv)).wf ∧
    (setSt s.heap.length (cts % two64) (recordProc pid cmd ppid sv)).ranked rank ∧
    s.heap.length < (setSt s.heap.length (cts % two64) (recordProc pid cmd ppid sv)).heap.length ∧
    ((setSt s.heap.length (cts % two64) (recordProc pid cmd ppid sv)).deref s.heap.length).pid
      = pid := by
  have hsv := (getProcessStat_inv hg).1
  have hsvh : sv.heap = s.heap := by rw [hsv]; rfl
  have hsvw : sv.wf :=
    wf_of_same hw (by rw [hsv]; rfl) (by rw [hsv]; rfl) (by rw [hsv]; exact fun _ h => h)
  have hsvr : sv.ranked rank :=
    ranked_of_sub hr hsvh (by rw [hsv]; exact fun _ h => h)
  refine ⟨wf_setSt _ _ (wf_recordProc _ _ _ hsvw),
    ranked_setSt _ _ (ranked_recordProc _ _ _ hsvw hsvr (getProcessStat_ranked hfs hg)), ?_, ?_⟩
  · simp [setSt, recordProc, hsvh]
  · rw [deref_setSt]
    have : ((recordProc pid cmd ppid sv).deref s.heap.length).pid = pid := by
      rw [← hsvh, deref_recordProc_new]
    split <;> exact this

theorem exec_ranked (rank : Int → Nat) (fuel : Nat) (fs : ProcFS) (pid : Int) (cts nf ne : Nat)
    (s s' : State) (hfs : Ranked rank fs) (hw : s.wf) (hr : s.ranked rank)
    (h : goProcEventExec fuel fs pid cts nf ne s = .ok s') : s'.ranked rank := by
  obtain ⟨cmd, ppid, sv, hg, hcl⟩ := exec_inv h
  obtain ⟨hXw, hXr, hXl, hXp⟩ := execStart_ranked hfs cts hw hr hg
  generalize setSt s.heap.length (cts % two64) (recordProc pid cmd ppid sv) = X at hcl hXw hXr hXl hXp
  have hcl' : climb fs pid fuel s.heap.length (X.deref s.heap.length).pid X = .ok s' := by
    rw [hXp]; exact hcl
  exact (climb_ranked rank fs pid hfs fuel s.heap.length X s' hXw hXr hXl hcl').2

/-- Under a ranked `/proc`, on a well-formed and ranked state, the exec handler needs no more
than `rank pid + 2` iterations of its climb. -/
theorem exec_terminates (rank : Int → Nat) (fuel : Nat) (fs : ProcFS) (pid : Int)
    (cts nf ne : Nat) (s : State) (hfs : Ranked rank fs) (hw : s.wf) (hr : s.ranked rank)
    (hfuel : rank pid + 2 ≤ fuel) :
    goProcEventExec fuel fs pid cts nf ne s ≠ .error Fault.outOfFuel := by
  unfold goProcEventExec
  cases hm : makeProcInfo fs pid true (countExec nf ne s) with
  | error e =>
    simp only []
    intro hc
    cases hc
    exact makeProcInfo_fault hm rfl
  | ok p =>
    obtain ⟨r, s1⟩ := p
    obtain ⟨cmd, ppid, sv, hg, hcase⟩ := makeProcInfo_inv hm
    rcases hcase with ⟨rfl, _, _, hv⟩ | ⟨rfl, rfl, _⟩
    · cases hv
    · simp only []
      obtain ⟨hXw, hXr, hXl, hXp⟩ := execStart_ranked hfs cts hw hr hg
      have hl : (countExec nf ne s).heap.length = s.heap.length := rfl
      rw [hl]
      generalize setSt s.heap.length (cts % two64) (recordProc pid cmd ppid sv) = X
        at hXw hXr hXl hXp
      have key := climb_terminates rank fs pid hfs fuel s.heap.length X hXw hXr hXl
        (by rw [hXp]; split <;> omega)
      rw [hXp] at key
      exact key

theorem step_ranked (rank : Int → Nat) (log10i : Nat → Int) (fuel : Nat) (e : Event)
    (s s' : State) (he : e.ranked rank) (hw : s.wf) (hr : s.ranked rank)
    (h : step log10i fuel e s = .ok s') : s'.ranked rank := by
  cases e with
  | exec fs pid cts nf ne => exact exec_ranked rank _ _ _ _ _ _ _ _ he hw hr h
  | exit pid cts =>
    have hh := (exit_count _ _ _ _ _ _ h).2.1
    refine ranked_of_sub hr hh ?_
    rcases exit_inv h with ⟨_, rfl⟩ | ⟨a, _, _, rfl⟩ | ⟨a, s4, _, _, _, _, hwalk, rfl⟩
    · exact fun _ h => h
    · exact fun e he => mem_mapDelete he
    · intro e he
      have h4 : ∀ e ∈ s4.procInfos, e ∈ s.procInfos := by
        refine walkExit_preserves (fun x => ∀ e ∈ x.procInfos, e ∈ s.procInfos) pid _ ?_
          fuel _ _ _ ?_ hwalk
        · intro b x hx; exact hx
        · intro e he; exact mem_mapDelete he
      exact h4 e he
  | sweep alive =>
    simp only [step] at h
    cases h
    exact ranked_of_sub hr (cleanProcInfos_frame alive s).2.1 (cleanProcInfos_sub alive s)

/-- Every state reached by events whose `/proc` is ranked is ranked. -/
theorem run_ranked (rank : Int → Nat) (log10i : Nat → Int) (fuel : Nat) (evs : List Event) :
    ∀ (s s' : State), (∀ e ∈ evs, e.ranked rank) → s.wf → s.ranked rank →
      run log10i fuel evs s = .ok s' → s'.ranked rank := by
  induction evs with
  | nil => intro s s' _ _ hr h; simp [run] at h; cases h; exact hr
  | cons e es ih =>
    intro s s' hev hw hr h
    simp only [run] at h
    split at h
    · cases h
    · rename_i s1 hs
      exact ih s1 s' (fun x hx => hev x (List.mem_cons_of_mem _ hx))
        (step_wf _ _ _ _ _ hw hs)
        (step_ranked rank _ _ _ _ _ (hev e (List.mem_cons_self _ _)) hw hr hs) h

/-- The sample `/proc` with `init`, `bash` and `awk` is ranked by the pid itself: each parent
pid is below the pid. -/
theorem ranked_procBashAwk : Ranked Int.toNat procBashAwk := by
  intro pid b cmd ppid hb hs h1 h2
  unfold procBashAwk at hb
  have e1 : statLoop (bytes "1 (init) S 0 1 1 0 -1") 4 0 0 [] = .ok (bytes "init", 0) := by decide
  have e2 : statLoop (bytes "200 (bash) S 1 200 200 0 -1") 4 0 0 [] = .ok (bytes "bash", 1) := by
    decide
  have e3 : statLoop (bytes "201 (awk) S 200 201 200 0 -1") 4 0 0 [] = .ok (bytes "awk", 200) := by
    decide
  split at hb
  · cases hb; rw [e1] at hs; cases hs; omega
  · split at hb
    · cases hb; rw [e2] at hs; cases hs; omega
    · split at hb
      · rename_i h201
        cases hb; rw [e3] at hs; cases hs
        rw [h201]; decide
      · cases hb

theorem ranked_parentFirst : ∀ e ∈ parentFirst, e.ranked Int.toNat := by
  intro e he
  simp only [parentFirst, List.mem_cons, List.mem_singleton, List.not_mem_nil, or_false] at he
  rcases he with rfl | rfl | rfl
  · exact ranked_procBashAwk
  · exact ranked_procBashAwk
  · trivial

/-! ## C1: count conservation -/

/-- C1, as stated, fails: after `exec(200)` and `exec(201)` with `/proc` showing
`init <- bash <- awk`, two exec events have been counted but the `ec` of the command records
sum to 3, because the climb of `exec(200)` created a record for `init` with `ec = 1`. -/
theorem C1_sum_exceeds_exec_events :
    Except.map (fun s => (sumEc s, s.nbExecEv))
      (run floorLog10 4 [Event.exec procBashAwk 200 1000 1 0, Event.exec procBashAwk 201 2000 2 0]
        (State.boot 0)) = Except.ok (3, 2) := by
  decide

/-- C1, amended: after any stream of exec, exit and sweep events handled from the boot state,
the sum over all command records of `ec` equals `nbExecEv` plus the number of ancestor
records that the climbs synthesised from `/proc`. -/
theorem C1_count_conservation (log10i : Nat → Int) (fuel t0 : Nat) (evs : List Event) (s : State)
    (h : run log10i fuel evs (State.boot t0) = .ok s) :
    sumEc s = s.nbExecEv + synthesised log10i fuel evs (State.boot t0) := by
  have := run_count log10i fuel evs (State.boot t0) s h
  simpa [State.boot, sumEc, mapSum] using this

/-- C1, amended, at the stream of two exec events with one synthesised ancestor. -/
theorem C1_count_conservation_witness :
    run floorLog10 4 [Event.exec procBashAwk 200 1000 1 0, Event.exec procBashAwk 201 2000 2 0]
        (State.boot 0)
      = .ok (stateOf (run floorLog10 4
          [Event.exec procBashAwk 200 1000 1 0, Event.exec procBashAwk 201 2000 2 0] (State.boot 0))) ∧
    sumEc (stateOf (run floorLog10 4
          [Event.exec procBashAwk 200 1000 1 0, Event.exec procBashAwk 201 2000 2 0] (State.boot 0)))
      = (stateOf (run floorLog10 4
          [Event.exec procBashAwk 200 1000 1 0, Event.exec procBashAwk 201 2000 2 0]
            (State.boot 0))).nbExecEv
        + synthesised floorLog10 4
          [Event.exec procBashAwk 200 1000 1 0, Event.exec procBashAwk 201 2000 2 0] (State.boot 0) :=
  ⟨by decide, C1_count_conservation _ _ _ _ _ (by decide)⟩

/-! ## C2: subtree dedup -/

/-- C2 at a failing input: `exec(200)` of `bash`, `exec(201)` of `awk` and a second `exec(201)`,
with `/proc` giving `bash` (pid 200) as the parent of pid 201 and `init` (pid 1) as the parent
of pid 200. The first `exec(201)` takes the `subec` of `bash` from 0 to 1; at the second one
`bash` and `init` are the proper ancestors of pid 201 again, yet the `subec` of `bash` stays 1
(and that of `init` stays 2): their `spid` is still 201 from the previous climb, so the guard
`ci.spid != spid` skips them. -/
theorem C2_second_exec_of_pid_not_counted :
    (procBashAwk 201).map (fun b => statLoop b 4 0 0 []) = some (.ok (bytes "awk", 200)) ∧
    (procBashAwk 200).map (fun b => statLoop b 4 0 0 []) = some (.ok (bytes "bash", 1)) ∧
    run floorLog10 4 (secondExecOfPid.take 2) (State.boot 0) = .ok afterTwoExecs ∧
    [1, 2, 3].map (fun k => Except.map
        (fun s => (subecOf s (bytes "bash"), subecOf s (bytes "init"), spidOf s (bytes "bash")))
        (run floorLog10 4 (secondExecOfPid.take k) (State.boot 0)))
      = [.ok (0, 1, 0), .ok (1, 2, 201), .ok (1, 2, 201)] ∧
    Except.map (fun s' => chainCmds s' 4 afterTwoExecs.heap.length)
        (goProcEventExec 4 procBashAwk 201 3000 3 0 afterTwoExecs)
      = .ok [bytes "bash", bytes "init"] := by
  decide

/-- The chain `init <- bash <- find <- bash <- grep`: on `exec(13)` the chain of pid 13 is
`bash, find, bash, init` and `bash` is counted once. -/
theorem reuse_chain_counts_bash_once :
    Except.map
      (fun s' => (chainCmds s' 6 0, subecOf s' (bytes "bash"), subecOf s' (bytes "find"),
        subecOf s' (bytes "init"), subecOf s' (bytes "grep")))
      (goProcEventExec 6 procReuse 13 1000 1 0 (State.boot 0))
      = Except.ok ([bytes "bash", bytes "find", bytes "bash", bytes "init"], 1, 1, 1, 0) := by
  decide

/-! ## C3: ancestor time -/

/-- C3 at its own example, scenario 2 of the specification: after `exit(201)` the `subet` of
`bash` is still 0 (its `spid` was left at 201 by the climb of `exec(201)`, so the guard of
the exit walk skips it), and at the end it is 1e9, the duration of pid 200 itself, not the
5e8 of its child. -/
theorem C3_bash_subtree_time :
    (Except.map (fun s => subetOf s (bytes "bash")) (run floorLog10 4 (twoLevelChain.take 3)
        (State.boot 0)),
      Except.map (fun s => subetOf s (bytes "bash")) (run floorLog10 4 twoLevelChain (State.boot 0)))
      = (Except.ok 0, Except.ok 1000000000) := by
  decide

/-! ## C4: exit-time settlement -/

/-- When `goProcEventExit` returns on a well-formed state for `exit(pid, ts)`: if `pid`
is bound to a record with `st = t0 != 0` and `ts >= t0`, the `et` of the command of that
record becomes `et + (ts - t0)` in `uint64` arithmetic (exactly that sum when it is below
`2^64`) and the `et` of every other command is unchanged; if `pid` is not bound, or is bound
to a record with `st = 0`, no `et` changes. -/
theorem exit_time_settlement (log10i : Nat → Int) (fuel : Nat) (pid : Int) (ts : Nat)
    (s s' : State) (hw : s.wf) (hts : ts < two64)
    (h : goProcEventExit log10i fuel pid ts s = .ok s') :
    (∀ a, mapGet s.procInfos pid = some a → (s.deref a).st ≠ 0 → (s.deref a).st ≤ ts →
      etOf s' (s.deref a).ci = (etOf s (s.deref a).ci + (ts - (s.deref a).st)) % two64 ∧
      (etOf s (s.deref a).ci + (ts - (s.deref a).st) < two64 →
        etOf s' (s.deref a).ci = etOf s (s.deref a).ci + (ts - (s.deref a).st)) ∧
      ∀ c, c ≠ (s.deref a).ci → etOf s' c = etOf s c) ∧
    (mapGet s.procInfos pid = none → ∀ c, etOf s' c = etOf s c) ∧
    (∀ a, mapGet s.procInfos pid = some a → (s.deref a).st = 0 → ∀ c, etOf s' c = etOf s c) := by
  rcases exit_inv h with ⟨hn, rfl⟩ | ⟨a, ha, hst, rfl⟩ | ⟨a, s4, ha, hst, _, _, hwalk, rfl⟩
  · refine ⟨fun a ha' => ?_, fun _ _ => rfl, fun a ha' => ?_⟩
    · rw [hn] at ha'; cases ha'
    · rw [hn] at ha'; cases ha'
  · refine ⟨fun a' ha' hst' => ?_, fun hn => ?_, fun _ _ _ _ => rfl⟩
    · rw [ha] at ha'; cases ha'; exact absurd hst hst'
    · rw [ha] at hn; cases hn
  · refine ⟨fun a' ha' _ hle => ?_, fun hn => ?_, fun a' ha' hst' => ?_⟩
    · rw [ha] at ha'; cases ha'
      have hci : (mapGet s.cmdInfos (s.deref a).ci).isSome = true :=
        hw.2.2 _ (deref_mem (hw.1 _ (mapGet_mem ha)))
      have hfr := (walkExit_frame _ _ _ _ _ _ hwalk).1
      have hd := duration_eq hts hle
      have key : ∀ c, etOf { s4 with removedCount := s4.removedCount + 1 } c
          = if c = (s.deref a).ci then (etOf s c + (ts - (s.deref a).st)) % two64 else etOf s c := by
        intro c
        have e0 : etOf { s4 with removedCount := s4.removedCount + 1 } c = etOf s4 c := rfl
        rw [e0, (hfr c).1, etOf_settled _ _ _ _ _ _ hci, hd]
      refine ⟨?_, ?_, ?_⟩
      · rw [key]; simp
      · intro hlt
        rw [key]; simp [Nat.mod_eq_of_lt hlt]
      · intro c hc
        rw [key]; simp [hc]
    · rw [ha] at hn; cases hn
    · rw [ha] at ha'; cases ha'; exact absurd hst' hst

/-- The settlement at `exit(201)` of scenario 2: the handler returns, pid 201 is bound to the
record at address 2 started at 2000, and the exit at 500002000 settles `awk`. -/
theorem exit_time_settlement_example :
    afterTwoExecs.wf ∧ 500002000 < two64 ∧
    goProcEventExit floorLog10 4 201 500002000 afterTwoExecs
      = .ok (stateOf (goProcEventExit floorLog10 4 201 500002000 afterTwoExecs)) ∧
    mapGet afterTwoExecs.procInfos 201 = some 2 ∧ (afterTwoExecs.deref 2).st = 2000 ∧
    (afterTwoExecs.deref 2).ci = bytes "awk" ∧
    etOf (stateOf (goProcEventExit floorLog10 4 201 500002000 afterTwoExecs)) (bytes "awk")
      = 500000000 ∧
    ((∀ a, mapGet afterTwoExecs.procInfos 201 = some a → (afterTwoExecs.deref a).st ≠ 0 →
        (afterTwoExecs.deref a).st ≤ 500002000 →
      etOf (stateOf (goProcEventExit floorLog10 4 201 500002000 afterTwoExecs))
          (afterTwoExecs.deref a).ci
        = (etOf afterTwoExecs (afterTwoExecs.deref a).ci
            + (500002000 - (afterTwoExecs.deref a).st)) % two64 ∧
      (etOf afterTwoExecs (afterTwoExecs.deref a).ci + (500002000 - (afterTwoExecs.deref a).st)
          < two64 →
        etOf (stateOf (goProcEventExit floorLog10 4 201 500002000 afterTwoExecs))
            (afterTwoExecs.deref a).ci
          = etOf afterTwoExecs (afterTwoExecs.deref a).ci
            + (500002000 - (afterTwoExecs.deref a).st)) ∧
      ∀ c, c ≠ (afterTwoExecs.deref a).ci →
        etOf (stateOf (goProcEventExit floorLog10 4 201 500002000 afterTwoExecs)) c
          = etOf afterTwoExecs c) ∧
    (mapGet afterTwoExecs.procInfos 201 = none →
      ∀ c, etOf (stateOf (goProcEventExit floorLog10 4 201 500002000 afterTwoExecs)) c
        = etOf afterTwoExecs c) ∧
    (∀ a, mapGet afterTwoExecs.procInfos 201 = some a → (afterTwoExecs.deref a).st = 0 →
      ∀ c, etOf (stateOf (goProcEventExit floorLog10 4 201 500002000 afterTwoExecs)) c
        = etOf afterTwoExecs c)) :=
  ⟨by decide, by decide, by decide, by decide, by decide, by decide, by decide,
    exit_time_settlement floorLog10 4 201 500002000 afterTwoExecs _ (by decide) (by decide)
      (by decide)⟩

/-- An exit after the start time, with a bucket index in range, returns for every fuel from
some point on and settles the time of the command of the record. -/
theorem exit_settles (log10i : Nat → Int) (pid : Int) (ts : Nat) (s : State) (a : Nat)
    (hw : s.wf) (hends : Ends s a) (ha : mapGet s.procInfos pid = some a)
    (hst : (s.deref a).st ≠ 0) (hle : (s.deref a).st ≤ ts) (hts : ts < two64)
    (hidx : 0 ≤ log10i (ts - (s.deref a).st) ∧ log10i (ts - (s.deref a).st) < 32) :
    ∃ n, ∀ m, n ≤ m → ∃ s', goProcEventExit log10i m pid ts s = .ok s' ∧
      etOf s' (s.deref a).ci = (etOf s (s.deref a).ci + (ts - (s.deref a).st)) % two64 ∧
      ∀ c, c ≠ (s.deref a).ci → etOf s' c = etOf s c := by
  obtain ⟨n, hn⟩ := hends
  refine ⟨n, fun m hm => ?_⟩
  obtain ⟨s', hs'⟩ := exit_returns log10i m pid ts s
    (fun b hb _ => by
      rw [ha] at hb; cases hb
      rw [duration_eq hts hle]; exact hidx)
    (fun b hb => by
      rw [ha] at hb; cases hb
      exact endsWithin_le s hm _ hn)
  have h := (exit_time_settlement log10i m pid ts s s' hw hts hs').1 a ha hst hle
  exact ⟨s', hs', h.1, h.2.2⟩

/-- C4 at a failing input: in the state after `exec(200)` and `exec(201)`, pid 201 is bound to
the record at address 2, started at 2000 with command `awk`; `exit(201)` at the same time
2000, where `ts >= s` holds with a duration of 0, does not settle anything: for every number
of iterations allowed the handler stops with an index panic at the histogram line. -/
theorem C4_exit_at_start_time_panics :
    mapGet afterTwoExecs.procInfos 201 = some 2 ∧ (afterTwoExecs.deref 2).st = 2000 ∧
    (afterTwoExecs.deref 2).ci = bytes "awk" ∧
    ∀ fuel, goProcEventExit floorLog10 fuel 201 2000 afterTwoExecs
      = .error Fault.indexOutOfRange :=
  ⟨by decide, by decide, by decide, fun fuel =>
    exit_index_out_of_range floorLog10 fuel 201 2000 afterTwoExecs 2 (by decide) (by decide)
      (by decide)⟩

/-! ## C5: histogram totality -/

/-- After any stream of exec, exit and sweep events handled to the end from the boot state,
the histogram has its 32 buckets and their sum equals the number of exit events whose pid was
bound, when the exit was handled, to a process record with `st != 0`. -/
theorem histogram_total_of_run (log10i : Nat → Int) (fuel t0 : Nat) (evs : List Event)
    (s : State) (h : run log10i fuel evs (State.boot t0) = .ok s) :
    s.ehist.length = 32 ∧ sumHist s = matchedExits log10i fuel evs (State.boot t0) := by
  have := run_hist log10i fuel evs (State.boot t0) s (by simp [State.boot]) h
  refine ⟨this.1, ?_⟩
  simpa [sumHist, State.boot] using this.2

/-- Scenario 2 followed by an exit of the unknown pid 7: two matched exits, two counted in the
histogram. -/
theorem histogram_total_of_run_example :
    run floorLog10 4 (twoLevelChain ++ [Event.exit 7 1000002000]) (State.boot 0)
      = .ok (stateOf (run floorLog10 4 (twoLevelChain ++ [Event.exit 7 1000002000]) (State.boot 0))) ∧
    matchedExits floorLog10 4 (twoLevelChain ++ [Event.exit 7 1000002000]) (State.boot 0) = 2 ∧
    (stateOf (run floorLog10 4 (twoLevelChain ++ [Event.exit 7 1000002000])
      (State.boot 0))).ehist.length = 32 ∧
    sumHist (stateOf (run floorLog10 4 (twoLevelChain ++ [Event.exit 7 1000002000]) (State.boot 0)))
      = matchedExits floorLog10 4 (twoLevelChain ++ [Event.exit 7 1000002000]) (State.boot 0) :=
  ⟨by decide, by decide, histogram_total_of_run floorLog10 4 0 _ _ (by decide)⟩

/-- C5 at a failing input: the stream `exec(400)` at time 1000, `exit(400)` at time 1000 from
the boot state. The exit finds pid 400 bound to a record with `st = 1000`, so it is one of
the exits the histogram has to count; the buckets sum to 0 when it arrives, and for every
number of iterations allowed the handler stops with an index panic before any bucket is
counted. -/
theorem C5_zero_duration_exit_not_counted :
    goProcEventExec 4 procOrphan 400 1000 1 0 (State.boot 0) = .ok afterExecOrphan ∧
    mapGet afterExecOrphan.procInfos 400 = some 0 ∧ (afterExecOrphan.deref 0).st = 1000 ∧
    sumHist afterExecOrphan = 0 ∧
    matchedExits floorLog10 4 [Event.exec procOrphan 400 1000 1 0, Event.exit 400 1000]
      (State.boot 0) = 1 ∧
    ∀ fuel, goProcEventExit floorLog10 fuel 400 1000 afterExecOrphan
      = .error Fault.indexOutOfRange :=
  ⟨by decide, by decide, by decide, by decide, by decide, fun fuel =>
    exit_index_out_of_range floorLog10 fuel 400 1000 afterExecOrphan 0 (by decide) (by decide)
      (by decide)⟩

/-! ## C6: stat parsing -/

/-- The stat line built from its fields is the line the kernel prints. -/
theorem statLine_example :
    statLine (bytes "200") (bytes "ba sh") (bytes "S") 1 (bytes "200 200 0 -1")
      = bytes "200 (ba sh) S 1 200 200 0 -1" := by
  decide

/-- C6 at two failing inputs, command names that contain a closing parenthesis. For the stat
line `5 (a)b) S 1 0`, of command `a)b` and parent pid 1, `getProcessStat` returns the command
`a` and the parent pid 0. For the stat line `1234 ((sd-pam)) S 1233 1234 1234 0 -1`, of the
command `(sd-pam)` as systemd names it and of parent pid 1233, it returns the command
`(sd-pam` and the parent pid 0: the command is cut at the first `)` instead of the last, and
the parent pid is read one field early. -/
theorem C6_paren_in_command_misparsed :
    getProcessStat (fun _ => some (statLine (bytes "5") (bytes "a)b") (bytes "S") 1 (bytes "0")))
        5 (State.boot 0)
      = Except.ok ((bytes "a", 0), State.boot 0) ∧
    statLine (bytes "1234") (bytes "(sd-pam)") (bytes "S") 1233 (bytes "1234 1234 0 -1")
      = bytes "1234 ((sd-pam)) S 1233 1234 1234 0 -1" ∧
    getProcessStat (fun _ => some (bytes "1234 ((sd-pam)) S 1233 1234 1234 0 -1")) 1234
        (State.boot 0)
      = Except.ok ((bytes "(sd-pam", 0), State.boot 0) := by
  decide

/-- Stat lines that are parsed as meant: for a stat line `<pid> (<comm>) <state> <ppid> <rest>` with one space between
fields, where the pid field is not empty, `comm` contains no `)` (it may contain spaces),
the pid and state fields contain no space and `ppid` is a decimal number below `2^63`,
`getProcessStat` returns exactly `(comm, ppid)` and leaves the state unchanged. -/
theorem getProcessStat_statLine (pidf comm state : Bytes) (ppid : Nat) (rest : Bytes) (fs : ProcFS)
    (pid : Int) (s : State) (hp0 : pidf ≠ []) (hp : 32 ∉ pidf) (hc : 41 ∉ comm) (hs : 32 ∉ state)
    (hv : ppid < 9223372036854775808)
    (hread : fs pid = some (statLine pidf comm state ppid rest)) :
    getProcessStat fs pid s = .ok ((comm, (ppid : Int)), s) := by
  refine getProcessStat_ok s hread ?_ (statLoop_statLine pidf comm state ppid rest hp0 hp hc hs hv)
  obtain ⟨c0, p', rfl⟩ := List.exists_cons_of_ne_nil hp0
  simp [statLine]

/-- The parse of the stat line `200 (ba sh) S 1 200 200 0 -1`. -/
theorem getProcessStat_statLine_example :
    bytes "200" ≠ [] ∧ 32 ∉ bytes "200" ∧ 41 ∉ bytes "ba sh" ∧ 32 ∉ bytes "S" ∧
    (1 : Nat) < 9223372036854775808 ∧
    (fun _ => some (statLine (bytes "200") (bytes "ba sh") (bytes "S") 1 (bytes "200 200 0 -1")) :
        ProcFS) 200
      = some (statLine (bytes "200") (bytes "ba sh") (bytes "S") 1 (bytes "200 200 0 -1")) ∧
    getProcessStat
        (fun _ => some (statLine (bytes "200") (bytes "ba sh") (bytes "S") 1 (bytes "200 200 0 -1")))
        200 (State.boot 0)
      = .ok ((bytes "ba sh", ((1 : Nat) : Int)), State.boot 0) :=
  ⟨by decide, by decide, by decide, by decide, by decide, rfl,
    getProcessStat_statLine (bytes "200") (bytes "ba sh") (bytes "S") 1 (bytes "200 200 0 -1") _ 200
      (State.boot 0) (by decide) (by decide) (by decide) (by decide) (by decide) rfl⟩

/-! ## C7: vanished race -/

/-- C7 at its own example: `exec(300)` from the boot state with every `/proc` read failing
leaves `vanishedCount` at 2, not 1: one for the stat file of pid 300 and one for the stat
file of pid -1, which the climb reads for the parent pid -1 of the vanished record. The empty-name command
has `ec = 1` and `subec = 0`, and no other command record exists. -/
theorem C7_vanished_counted_twice :
    Except.map (fun s => (s.vanishedCount, ecOf s [], s.cmdInfos.map (fun e => (e.1, e.2.subec))))
      (goProcEventExec 4 procVanished 300 1000 1 0 (State.boot 0))
      = Except.ok (2, 1, [([], 0)]) := by
  decide

/-! ## C8: sentinel attribution -/

/-- C8: if the stat file of `pid` gives a non-empty command `cmd` and the parent pid `p`, `p`
is not bound in `procInfos` and the stat file of `p` cannot be read or is empty, then
`goProcEventExec` returns (one step of the climb is enough), `p` is still not bound and one
record has been allocated, no `subec` has changed, `nbExecEv` and the `ec` of `cmd` have
grown by exactly 1, and `pid` is bound to a record of pid `pid` with `st = ts`. -/
theorem C8_sentinel_attribution (fuel : Nat) (fs : ProcFS) (pid : Int) (ts nf ne : Nat)
    (s : State) (b cmd : Bytes) (p : Int) (hread : fs pid = some b) (hb : b ≠ [])
    (hparse : statLoop b 4 0 0 [] = .ok (cmd, p)) (hcmd : cmd ≠ [])
    (hnorec : mapGet s.procInfos p = none) (hvan : fs p = none ∨ fs p = some [])
    (hts : ts < two64) :
    ∃ s', goProcEventExec (fuel + 1) fs pid ts nf ne s = .ok s' ∧
      mapGet s'.procInfos p = none ∧ s'.heap.length = s.heap.length + 1 ∧
      (∀ c, subecOf s' c = subecOf s c) ∧
      s'.nbExecEv = s.nbExecEv + 1 ∧ ecOf s' cmd = ecOf s cmd + 1 ∧
      ∃ a, mapGet s'.procInfos pid = some a ∧ (s'.deref a).pid = pid ∧ (s'.deref a).st = ts := by
  have hne : ¬ pid = p := by
    intro e; subst e
    rcases hvan with h | h
    · rw [h] at hread; cases hread
    · rw [h] at hread; cases hread; exact hb rfl
  obtain ⟨v, hv⟩ := exec_vanished_parent fuel fs pid ts nf ne s b cmd p hread hb hparse hcmd hnorec hvan
  refine ⟨_, hv, ?_, ?_, ?_, ?_, ?_, s.heap.length, ?_, ?_, ?_⟩
  · show mapGet (mapSet s.procInfos pid s.heap.length) p = none
    rw [mapGet_mapSet]; simp [hne, hnorec]
  · show (execStart pid cmd p ts nf ne s).heap.length = s.heap.length + 1
    simp [execStart, setSt, recordProc, countExec]
  · intro c
    exact (subecOf_recordProc pid cmd p (countExec nf ne s) c).1
  · rfl
  · have := ecOf_recordProc pid cmd p (countExec nf ne s) cmd
    simp only [if_true] at this
    exact this
  · show mapGet (mapSet s.procInfos pid s.heap.length) pid = some s.heap.length
    rw [mapGet_mapSet]; simp
  · show ((execStart pid cmd p ts nf ne s).deref s.heap.length).pid = pid
    unfold execStart
    have : (countExec nf ne s).heap.length = s.heap.length := rfl
    rw [deref_setSt, ← this, deref_recordProc_new]
    simp [recordProc]
  · show ((execStart pid cmd p ts nf ne s).deref s.heap.length).st = ts
    unfold execStart
    have : (countExec nf ne s).heap.length = s.heap.length := rfl
    rw [deref_setSt, ← this, deref_recordProc_new]
    simp [recordProc, Nat.mod_eq_of_lt hts]

/-- C8 at `exec(400)` of a `sleep` whose parent 399 is gone, in the state after scenario 2. -/
theorem C8_sentinel_attribution_witness :
    procOrphan 400 = some (bytes "400 (sleep) S 399 400 400 0 -1") ∧
    bytes "400 (sleep) S 399 400 400 0 -1" ≠ [] ∧
    statLoop (bytes "400 (sleep) S 399 400 400 0 -1") 4 0 0 [] = .ok (bytes "sleep", 399) ∧
    bytes "sleep" ≠ [] ∧
    mapGet (stateOf (run floorLog10 4 twoLevelChain (State.boot 0))).procInfos 399 = none ∧
    (procOrphan 399 = none ∨ procOrphan 399 = some []) ∧ 3000 < two64 ∧
    ∃ s', goProcEventExec (0 + 1) procOrphan 400 3000 3 2
        (stateOf (run floorLog10 4 twoLevelChain (State.boot 0))) = .ok s' ∧
      mapGet s'.procInfos 399 = none ∧
      s'.heap.length = (stateOf (run floorLog10 4 twoLevelChain (State.boot 0))).heap.length + 1 ∧
      (∀ c, subecOf s' c = subecOf (stateOf (run floorLog10 4 twoLevelChain (State.boot 0))) c) ∧
      s'.nbExecEv = (stateOf (run floorLog10 4 twoLevelChain (State.boot 0))).nbExecEv + 1 ∧
      ecOf s' (bytes "sleep")
        = ecOf (stateOf (run floorLog10 4 twoLevelChain (State.boot 0))) (bytes "sleep") + 1 ∧
      ∃ a, mapGet s'.procInfos 400 = some a ∧ (s'.deref a).pid = 400 ∧ (s'.deref a).st = 3000 :=
  ⟨by decide, by decide, by decide, by decide, by decide, by decide, by decide,
    C8_sentinel_attribution 0 procOrphan 400 3000 3 2 _ (bytes "400 (sleep) S 399 400 400 0 -1")
      (bytes "sleep") 399 (by decide) (by decide) (by decide) (by decide) (by decide) (by decide)
      (by decide)⟩

/-! ## C9: reset -/

/-- What `clearCounters` does reset: both maps, the histogram and the three event counters;
it leaves `vanishedCount`, `removedCount` and the heap as they are. -/
theorem clearCounters_fields (now : Nat) (s : State) :
    clearCounters now s =
      { State.boot now with
        vanishedCount := s.vanishedCount, removedCount := s.removedCount, heap := s.heap } := rfl

/-- Resetting twice is resetting once. -/
theorem clearCounters_idem (t1 t2 : Nat) (s : State) :
    clearCounters t2 (clearCounters t1 s) = clearCounters t2 s := rfl

/-- C9 at a failing input: after `exec(300)` with every `/proc` read failing and `exit(5)`,
`vanishedCount` is 2 and `removedCount` is 1, and `clearCounters` leaves both as they are
instead of setting them to 0. -/
theorem C9_reset_keeps_vanished_and_removed :
    Except.map
      (fun s => ((s.vanishedCount, s.removedCount),
        ((clearCounters 7 s).vanishedCount, (clearCounters 7 s).removedCount)))
      (run floorLog10 4 [Event.exec procVanished 300 1000 1 0, Event.exit 5 2000] (State.boot 0))
      = Except.ok ((2, 1), (2, 1)) := by
  decide

/-! ## C10: removed count -/

/-- An exit for a pid that is not bound in `procInfos` counts one in `removedCount`, and
changes nothing else. -/
theorem exit_unknown_pid (log10i : Nat → Int) (fuel : Nat) (pid : Int) (ts : Nat) (s : State)
    (h : mapGet s.procInfos pid = none) :
    goProcEventExit log10i fuel pid ts s = .ok { s with removedCount := s.removedCount + 1 } := by
  unfold goProcEventExit
  simp only [h]

/-- C10 at a failing input: `exit(5)` in the boot state, where no process record exists and
none is deleted, sets `removedCount` to 1. -/
theorem C10_exit_of_unknown_pid_counted :
    goProcEventExit floorLog10 4 5 1000 (State.boot 0)
      = Except.ok { State.boot 0 with removedCount := 1 } := by
  decide

/-! ## C11: histogram bucket index -/

/-- C11 at a failing input: `exec(400)` of a `sleep` at time 1000 followed by `exit(400)` at
the same time 1000, a duration of 0. The logarithm of 0 is `-Inf`, the index is negative,
nothing clamps it, and the handler stops with an index panic instead of counting bucket 0. -/
theorem C11_zero_duration_panics :
    run floorLog10 4 [Event.exec procOrphan 400 1000 1 0, Event.exit 400 1000] (State.boot 0)
      = Except.error Fault.indexOutOfRange := by
  decide

/-- C12 (as stated, refuted): in the state reached by the execs of pids 10, 11, 12 and 13 of the
chain `init <- bash <- find <- bash <- grep`, the per-subtree list for a top-N length of 1,
sorted by subtree exec count, has the two rows `bash` (3) and `find` (2), and the command
`init`, left out, has a larger key (4) than every row. -/
theorem C12_more_rows_and_larger_key_left_out :
    (statsSub scCount 1 afterFourExecs).map (fun c => (c.cmd, c.subec))
      = [(bytes "bash", 3), (bytes "find", 2)] ∧
    ¬ (statsSub scCount 1 afterFourExecs).length ≤ 1 ∧
    ∃ c ∈ afterFourExecs.cmdInfos.map Prod.snd,
      c.cmd = bytes "init" ∧ c ∉ statsSub scCount 1 afterFourExecs ∧
      ∀ r ∈ statsSub scCount 1 afterFourExecs, subKey scCount r < subKey scCount c := by
  decide

/-- C12 (amended): for every sort criterion, every top-N length and every command map, the rows
of the per-command list (statsExec) and of the per-subtree list (statsSub) are in non-increasing
order of the chosen key, and with a list `rest` of the commands left out they make up exactly
the commands eligible for the list: those of a non-zero key and, for the per-subtree list, of a
non-zero subtree exec count and a name other than the empty one, `init` and `systemd`. No
command of `rest` has a key larger than an emitted one. -/
theorem C12_rows_sorted_and_dominant (sortCriteria : Nat) (top : Int) (s : State) :
    ((statsExec sortCriteria top s).Pairwise
        (fun x y => execKey sortCriteria x ≥ execKey sortCriteria y) ∧
      ∃ rest : List cmdInfo,
        (statsExec sortCriteria top s ++ rest).Perm
          (eligible (execKey sortCriteria) (fun _ => false) s.cmdInfos) ∧
        ∀ r ∈ statsExec sortCriteria top s, ∀ c ∈ rest,
          execKey sortCriteria c ≤ execKey sortCriteria r) ∧
    ((statsSub sortCriteria top s).Pairwise
        (fun x y => subKey sortCriteria x ≥ subKey sortCriteria y) ∧
      ∃ rest : List cmdInfo,
        (statsSub sortCriteria top s ++ rest).Perm
          (eligible (subKey sortCriteria) subSkip s.cmdInfos) ∧
        ∀ r ∈ statsSub sortCriteria top s, ∀ c ∈ rest,
          subKey sortCriteria c ≤ subKey sortCriteria r) :=
  ⟨report_order (execKey sortCriteria) (fun _ => false) top s.cmdInfos,
   report_order (subKey sortCriteria) subSkip top s.cmdInfos⟩

/-! ## C13: parent links and the two walks -/

/-- C13 (as stated, refuted), in two runs from boot. After `exec(200)`, `exec(201)` and the
exit of the parent 200, the record of pid 201 (address 2) keeps its parent link to the record
of pid 200 (address 0), which no pid of the process map is bound to any more. And after
`exec(7)` with parent 8 unreadable, an `exec(8)` for which `/proc` reports the reused pid 8 as
a child of 7 never returns: the climb goes round 8, 7, 8, 7 for every number of iterations. -/
theorem C13_stale_link_and_endless_climb :
    (run floorLog10 4 parentFirst (State.boot 0) = .ok afterParentExit ∧
      mapGet afterParentExit.procInfos 201 = some 2 ∧
      (afterParentExit.deref 2).ppi = some 0 ∧
      (afterParentExit.deref 0).pid = 200 ∧
      mapGet afterParentExit.procInfos 200 = none ∧
      ∀ e ∈ afterParentExit.procInfos, e.2 ≠ 0) ∧
    (goProcEventExec 4 procSevenOfEight 7 1000 1 0 (State.boot 0) = .ok afterExecSeven ∧
      ¬ ∃ fuel s', goProcEventExec fuel procEightOfSeven 8 2000 2 0 afterExecSeven = .ok s') := by
  refine ⟨by decide, by decide, ?_⟩
  rintro ⟨fuel, s', h⟩
  rw [pidReuse_never_returns fuel] at h
  cases h

/-- C13 (amended): in every state `s` reached from the boot state by a finite stream of events
whose handlers returned, whatever `/proc` gave: the parent links contain no cycle (from every
record they end at a record without parent link, and following them never leads back to the
record); the parent walk of the exit handler returns from every record, and the exit handler
stops for every pid and timestamp (it returns, or its histogram index is out of range). The
climb of a further exec event ends within `rank pid + 2` iterations when the parent pids
reported by `/proc`, during the stream and at that event, descend along a rank. -/
theorem C13_links_acyclic_walks_end (log10i : Nat → Int) (fuel t0 : Nat) (evs : List Event)
    (s : State) (h : run log10i fuel evs (State.boot t0) = .ok s) :
    (∀ a, a < s.heap.length → Ends s a ∧ ∀ k, follow s (k + 1) (some a) ≠ some a) ∧
    (∀ a spid et, a < s.heap.length →
      ∃ n, ∀ m, n ≤ m → ∃ s', walkExit spid et m (some a) s = .ok s') ∧
    (∀ bucket pid ts, ∃ n, ∀ m, n ≤ m →
      (∃ s', goProcEventExit bucket m pid ts s = .ok s') ∨
      goProcEventExit bucket m pid ts s = .error Fault.indexOutOfRange) ∧
    (∀ rank, (∀ e ∈ evs, e.ranked rank) → ∀ fs pid cts nf ne m, Ranked rank fs →
      rank pid + 2 ≤ m → goProcEventExec m fs pid cts nf ne s ≠ .error Fault.outOfFuel) := by
  obtain ⟨hw, _, hends⟩ := run_acyclic log10i fuel evs (State.boot t0) s (wf_boot t0)
    (rootsUnlinked_boot t0) (fun a ha => by simp [State.boot] at ha) h
  refine ⟨fun a ha => ⟨hends a ha, not_on_cycle (hends a ha)⟩,
    fun a spid et ha => walkExit_ends spid et s a (hends a ha),
    fun bucket pid ts => exit_terminates bucket pid ts s hw hends,
    fun rank hev fs pid cts nf ne m hfs hm => ?_⟩
  exact exec_terminates rank m fs pid cts nf ne s hfs hw
    (run_ranked rank log10i fuel evs (State.boot t0) s hev (wf_boot t0) (ranked_boot rank t0) h) hm

/-- C13 (amended) at the run `exec(200)`, `exec(201)`, `exit(200)` under a `/proc` ranked by
the pid itself. -/
theorem C13_links_acyclic_walks_end_witness :
    run floorLog10 4 parentFirst (State.boot 0) = .ok afterParentExit ∧
    afterParentExit.heap.length = 3 ∧
    (∀ e ∈ parentFirst, e.ranked Int.toNat) ∧ Ranked Int.toNat procBashAwk ∧
    ((∀ a, a < afterParentExit.heap.length →
        Ends afterParentExit a ∧ ∀ k, follow afterParentExit (k + 1) (some a) ≠ some a) ∧
      (∀ a spid et, a < afterParentExit.heap.length →
        ∃ n, ∀ m, n ≤ m → ∃ s', walkExit spid et m (some a) afterParentExit = .ok s') ∧
      (∀ bucket pid ts, ∃ n, ∀ m, n ≤ m →
        (∃ s', goProcEventExit bucket m pid ts afterParentExit = .ok s') ∨
        goProcEventExit bucket m pid ts afterParentExit = .error Fault.indexOutOfRange) ∧
      (∀ rank, (∀ e ∈ parentFirst, e.ranked rank) → ∀ fs pid cts nf ne m, Ranked rank fs →
        rank pid + 2 ≤ m →
        goProcEventExec m fs pid cts nf ne afterParentExit ≠ .error Fault.outOfFuel)) :=
  ⟨by decide, by decide, ranked_parentFirst, ranked_procBashAwk,
    C13_links_acyclic_walks_end floorLog10 4 0 parentFirst afterParentExit (by decide)⟩

end Trexec
